import Mathlib

/-!
# BinvoxConverter: the binvox reader of `main.cpp`

A shallow embedding of `read_header` and `read_binvox` from
`src/BinvoxConverter/main.cpp`, together with the part of the C++ stream
library (`std::ifstream`, formatted and unformatted extraction) that these two
functions observe.

Conventions of the embedding.

* A byte (`unsigned char`) is a `Fin 256`.
* An `int` is an `Int`; every arithmetic result is reduced by `wrap32` to the
  32-bit two's complement range where the source computes in `int`.
* A `float` is represented by the character field it was converted from; the
  numeric value is never interpreted.  Whether the platform converts a field
  without error is a parameter `F` of the header reader.
* Loops run on fuel; the entry points supply fuel computed from the length of
  the unread input, and out-of-fuel is a distinct result (`none`, `stuck`).
* An access to `voxels[i]` outside the allocated buffer ends the run with a
  fault of its own (`storeFault`, `outOfBounds`): the source does not test the
  index, and what the program does after such an access is not defined.
-/

namespace Binvox

/-! ## Bytes and text -/

/-- One octet: the program's `byte` (an `unsigned char`). -/
abbrev Byte := Fin 256

/-- Whitespace of the classic "C" locale: space, `\t`, `\n`, `\v`, `\f`, `\r`. -/
def isSpace (b : Byte) : Bool := b.val == 32 || (9 ≤ b.val && b.val ≤ 13)

/-- Decimal digit characters `'0'`..`'9'`. -/
def isDigit (b : Byte) : Bool := 48 ≤ b.val && b.val ≤ 57

/-- The text `#binvox`. -/
def sigBinvox : List Byte := [35, 98, 105, 110, 118, 111, 120]

/-- The text `data`. -/
def kwData : List Byte := [100, 97, 116, 97]

/-- The text `dim`. -/
def kwDim : List Byte := [100, 105, 109]

/-- The text `translate`. -/
def kwTranslate : List Byte := [116, 114, 97, 110, 115, 108, 97, 116, 101]

/-- The text `scale`. -/
def kwScale : List Byte := [115, 99, 97, 108, 101]

/-! ## 32-bit `int` -/

/-- Reduction of an exact integer to the range of a 32-bit two's complement `int`. -/
def wrap32 (x : Int) : Int := (x + 2147483648) % 4294967296 - 2147483648

/-- Largest `int`. -/
def INT_MAX : Int := 2147483647

/-- Smallest `int`. -/
def INT_MIN : Int := -2147483648

/-! ## The input stream -/

/-- An `std::ifstream` as far as the program can observe it: the bytes not yet
read, the state bits `eofbit` and `failbit`, and the format flag `skipws`. -/
structure IStream where
  rest : List Byte
  eofbit : Bool
  failbit : Bool
  skipws : Bool
  deriving DecidableEq, Repr

/-- A freshly opened stream on the given file contents. -/
def IStream.ofBytes (bs : List Byte) : IStream :=
  { rest := bs, eofbit := false, failbit := false, skipws := true }

/-- Member `good()`: no state bit is set. -/
def IStream.good (s : IStream) : Bool := !s.eofbit && !s.failbit

/-- Call `unsetf(ios::skipws)`. -/
def IStream.unsetSkipws (s : IStream) : IStream := { s with skipws := false }

/-- The sentry of a formatted input function.  On a stream that is not good it
sets `failbit`.  Otherwise, with `skipws` set, it discards leading whitespace;
reaching the end of the input while doing so sets `eofbit` and `failbit`. -/
def sentry (s : IStream) : IStream × Bool :=
  if s.good then
    if s.skipws then
      let r := s.rest.dropWhile isSpace
      if r.isEmpty then ({ s with rest := r, eofbit := true, failbit := true }, false)
      else ({ s with rest := r }, true)
    else (s, true)
  else ({ s with failbit := true }, false)

/-- The sentry of an unformatted input function: no whitespace is skipped. -/
def sentryRaw (s : IStream) : IStream × Bool :=
  if s.good then (s, true) else ({ s with failbit := true }, false)

/-- Unformatted `get()`: the next byte, or `-1` (`EOF`) with `eofbit` and
`failbit` set when there is none. -/
def get (s : IStream) : IStream × Int :=
  let (s1, ok) := sentryRaw s
  if ok then
    match s1.rest with
    | [] => ({ s1 with eofbit := true, failbit := true }, -1)
    | b :: r => ({ s1 with rest := r }, (b.val : Int))
  else (s1, -1)

/-- Formatted extraction `input >> c` of an `unsigned char`; `old` is the value
of the variable before, kept when nothing is extracted. -/
def extractByte (s : IStream) (old : Byte) : IStream × Byte :=
  let (s1, ok) := sentry s
  if ok then
    match s1.rest with
    | [] => ({ s1 with eofbit := true, failbit := true }, old)
    | b :: r => ({ s1 with rest := r }, b)
  else (s1, old)

/-- Formatted extraction `input >> str` of a `std::string`: after the sentry the
string is erased and filled with the bytes up to the next whitespace or the end
of the input.  A failed sentry leaves the string as it was. -/
def extractString (s : IStream) (old : List Byte) : IStream × List Byte :=
  let (s1, ok) := sentry s
  if ok then
    let tok := s1.rest.takeWhile (fun b => !isSpace b)
    let r := s1.rest.dropWhile (fun b => !isSpace b)
    let s2 := { s1 with rest := r, eofbit := s1.eofbit || r.isEmpty }
    if tok.isEmpty then ({ s2 with failbit := true }, tok) else (s2, tok)
  else (s1, old)

/-- Value of a run of decimal digit characters. -/
def digitsValue (ds : List Byte) : Nat :=
  ds.foldl (fun acc d => acc * 10 + (d.val - 48)) 0

/-- Formatted extraction `input >> n` of an `int`: an optional sign and a run of
decimal digits.  Without a digit the value becomes 0 and `failbit` is set; a
value out of range becomes the nearest `int` and `failbit` is set.  A failed
sentry leaves the variable as it was. -/
def extractInt (s : IStream) (old : Int) : IStream × Int :=
  let (s1, ok) := sentry s
  if ok then
    let (neg, r0) :=
      match s1.rest with
      | [] => (false, [])
      | b :: r => if b = 45 then (true, r) else if b = 43 then (false, r) else (false, b :: r)
    let ds := r0.takeWhile isDigit
    let r1 := r0.dropWhile isDigit
    let s2 := { s1 with rest := r1, eofbit := s1.eofbit || r1.isEmpty }
    if ds.isEmpty then ({ s2 with failbit := true }, 0)
    else
      let m : Int := (digitsValue ds : Int)
      if neg then
        if m > 2147483648 then ({ s2 with failbit := true }, INT_MIN) else (s2, -m)
      else
        if m > 2147483647 then ({ s2 with failbit := true }, INT_MAX) else (s2, m)
  else (s1, old)

/-- A `float` variable, represented by the character field it was converted from. -/
abbrev FloatVal := List Byte

/-- Accumulation of a floating-point field: digits, at most one decimal point
before any exponent, at most one exponent mark (only after a mantissa digit),
and a sign where one may stand (first, or right behind the exponent mark).
Arguments: the input, whether a mantissa digit, a decimal point, an exponent
mark was seen, and whether a sign may stand here.  Result: the accumulated
field and the input left. -/
def scanFloat : List Byte → Bool → Bool → Bool → Bool → List Byte × List Byte
  | [], _, _, _, _ => ([], [])
  | c :: r, m, d, e, sg =>
    if sg && (c = 43 || c = 45) then
      let p := scanFloat r m d e false
      (c :: p.1, p.2)
    else if isDigit c then
      let p := scanFloat r true d e false
      (c :: p.1, p.2)
    else if c = 46 && !d && !e then
      let p := scanFloat r m true e false
      (c :: p.1, p.2)
    else if (c = 101 || c = 69) && !e && m then
      let p := scanFloat r m d true true
      (c :: p.1, p.2)
    else ([], c :: r)

/-- The whole floating-point field at the head of the input. -/
def floatField (xs : List Byte) : List Byte × List Byte :=
  scanFloat xs false false false true

/-- Formatted extraction `input >> x` of a `float`.  The field is accumulated by
`floatField`; `F` tells whether the platform converts that field without error.
On success the variable holds the conversion of the field; otherwise `failbit`
is set (the variable then holds what the failed conversion of the field
leaves).  A failed sentry leaves the variable as it was. -/
def extractFloat (F : List Byte → Bool) (s : IStream) (old : FloatVal) : IStream × FloatVal :=
  let (s1, ok) := sentry s
  if ok then
    let p := floatField s1.rest
    let s2 := { s1 with rest := p.2, eofbit := s1.eofbit || p.2.isEmpty }
    if F p.1 then (s2, p.1) else ({ s2 with failbit := true }, p.1)
  else (s1, old)

/-! ## Program state -/

/-- The file-scope variables of `main.cpp`.  A voxel cell is `none` while it is
indeterminate (allocated, never written). -/
structure Globals where
  version : Int
  depth : Int
  height : Int
  width : Int
  gridsize : Int
  voxels : List (Option Byte)
  tx : FloatVal
  ty : FloatVal
  tz : FloatVal
  scale : FloatVal
  deriving DecidableEq, Repr

/-- The variables at program start: statics are zero-initialised and `voxels`
is null. -/
def Globals.initial : Globals :=
  { version := 0, depth := 0, height := 0, width := 0, gridsize := 0, voxels := [],
    tx := [48], ty := [48], tz := [48], scale := [48] }

/-! ## `read_header` -/

/-- The `do { c = input.get(); } while (input.good() && (c != '\n'));` loop. -/
def skipLineLoop : Nat → IStream → IStream
  | 0, s => s
  | n + 1, s =>
    let (s1, c) := get s
    if s1.good && c != 10 then skipLineLoop n s1 else s1

/-- The skip-until-end-of-line loop with fuel for every unread byte. -/
def skipLine (s : IStream) : IStream := skipLineLoop (s.rest.length + 1) s

/-- State of the keyword loop of `read_header`. -/
structure HState where
  input : IStream
  line : List Byte
  doneReadingHeader : Bool
  g : Globals
  deriving DecidableEq, Repr

/-- One pass through the body of the keyword loop (lines 46-66). -/
def headerBody (F : List Byte → Bool) (st : HState) : HState :=
  let (i1, line) := extractString st.input st.line
  if line = kwData then
    { st with input := i1, line := line, doneReadingHeader := true }
  else if line = kwDim then
    let (i2, d) := extractInt i1 st.g.depth
    let (i3, h) := extractInt i2 st.g.height
    let (i4, w) := extractInt i3 st.g.width
    { st with input := i4, line := line, g := { st.g with depth := d, height := h, width := w } }
  else if line = kwTranslate then
    let (i2, x) := extractFloat F i1 st.g.tx
    let (i3, y) := extractFloat F i2 st.g.ty
    let (i4, z) := extractFloat F i3 st.g.tz
    { st with input := i4, line := line, g := { st.g with tx := x, ty := y, tz := z } }
  else if line = kwScale then
    let (i2, x) := extractFloat F i1 st.g.scale
    { st with input := i2, line := line, g := { st.g with scale := x } }
  else
    { st with input := skipLine i1, line := line }

/-- The loop `while (input.good() && !doneReadingHeader)` on fuel. -/
def headerLoop (F : List Byte → Bool) : Nat → HState → Option HState
  | 0, _ => none
  | n + 1, st =>
    if st.input.good && !st.doneReadingHeader then headerLoop F n (headerBody F st)
    else some st

/-- The state in which `read_header` enters its keyword loop: signature and
version have been read, `depth` has been set to `-1`. -/
def headerEntry (g : Globals) (i1 : IStream) (line : List Byte) : HState :=
  let r := extractInt i1 g.version
  { input := r.1, line := line, doneReadingHeader := false,
    g := { g with version := r.2, depth := -1 } }

/-- Lines 68-76 of `read_header`: the return value, the variables and the
stream, from the state in which the keyword loop ended. -/
def headerResult (st : HState) : Bool × Globals × IStream :=
  if !st.doneReadingHeader then (false, st.g, st.input)
  else if st.g.depth = -1 then (false, st.g, st.input)
  else (true, st.g, st.input)

/-- Function `read_header`: the return value, the variables and the stream on
return; `none` only if the keyword loop ran out of fuel. -/
def read_header (F : List Byte → Bool) (g : Globals) (input : IStream) :
    Option (Bool × Globals × IStream) :=
  let (i1, line) := extractString input []
  if line ≠ sigBinvox then some (false, g, i1)
  else
    let st0 := headerEntry g i1 line
    (headerLoop F (st0.input.rest.length + 2) st0).map headerResult

/-! ## `read_binvox` -/

/-- State of the decode loop of `read_binvox`: the stream, the buffer, the
locals, and the trace of the indices stored to (oldest first). -/
structure DState where
  input : IStream
  voxels : List (Option Byte)
  value : Byte
  count : Byte
  index : Int
  end_index : Int
  nr_voxels : Int
  writes : List Int
  deriving DecidableEq, Repr

/-- The store `voxels[i] = value` (line 119).  The source has no bounds test:
a store with `i` outside the buffer is an access outside the allocated array,
after which the program has no defined behaviour; the result is then `none`. -/
def store (buf : List (Option Byte)) (i : Int) (v : Byte) : Option (List (Option Byte)) :=
  if 0 ≤ i ∧ i < buf.length then some (buf.set i.toNat (some v)) else none

/-- The loop `for (int i = index; i < end_index; i++) voxels[i] = value;` with
`k` the number of iterations left; result: buffer and write trace, or the index
of the first store that falls outside the buffer, where the run stops. -/
def fillRun (v : Byte) : Nat → Int → List (Option Byte) → List Int →
    Except Int (List (Option Byte) × List Int)
  | 0, _, buf, tr => Except.ok (buf, tr)
  | k + 1, i, buf, tr =>
    match store buf i v with
    | some b => fillRun v k (i + 1) b (tr ++ [i])
    | none => Except.error i

/-- How the decode loop is left. -/
inductive Exit where
  /-- By `return false` (`ret false`), or because its condition became false
  (`ret true`). -/
  | ret (b : Bool)
  /-- By the store `voxels[i] = value` with `i` outside the buffer. -/
  | storeFault (i : Int)
  deriving DecidableEq, Repr

/-- The decode loop (lines 113-125) on fuel.  `some (Exit.ret false, st)`: left
by `return false`; `some (Exit.ret true, st)`: the loop condition became false;
`some (Exit.storeFault i, st)`: the fill loop stored outside the buffer, with
`st` the state at the start of that fill loop.  The sums `index + count` and
`nr_voxels + count` are `int` additions; the fill loop runs once for every `i`
with `index ≤ i < end_index`, and its counter stays below `end_index`. -/
def decodeLoop (gridsize : Int) : Nat → DState → Option (Exit × DState)
  | 0, _ => none
  | n + 1, st =>
    if st.end_index < gridsize && st.input.good then
      let (i1, value) := extractByte st.input st.value
      let (i2, count) := extractByte i1 st.count
      if i2.good then
        let end_index := wrap32 (st.index + (count.val : Int))
        if end_index > gridsize then
          some (Exit.ret false, { st with input := i2, value := value, count := count,
                                          end_index := end_index })
        else
          match fillRun value (end_index - st.index).toNat st.index st.voxels st.writes with
          | Except.error i =>
            some (Exit.storeFault i, { st with input := i2, value := value, count := count,
                                               end_index := end_index })
          | Except.ok p =>
            let nr :=
              if value ≠ 0 then wrap32 (st.nr_voxels + (count.val : Int)) else st.nr_voxels
            decodeLoop gridsize n
              { input := i2, voxels := p.1, value := value, count := count,
                index := end_index, end_index := end_index, nr_voxels := nr, writes := p.2 }
      else
        decodeLoop gridsize n { st with input := i2, value := value, count := count }
    else some (Exit.ret true, st)

/-- Lines 104-130 of `read_binvox`: the locals are set up, `skipws` is unset,
one byte is read, and the decode loop runs. -/
def decodePayload (gridsize : Int) (voxels : List (Option Byte)) (input : IStream) :
    Option (Exit × DState) :=
  let i0 := input.unsetSkipws
  let (i1, value) := extractByte i0 0
  decodeLoop gridsize (i1.rest.length + 2)
    { input := i1, voxels := voxels, value := value, count := 0, index := 0, end_index := 0,
      nr_voxels := 0, writes := [] }

/-- How a call of `read_binvox` ends. -/
inductive Outcome where
  /-- Returned `ret`; `dec` is the decode state if the decode stage was reached. -/
  | returned (ret : Bool) (g : Globals) (dec : Option DState)
  /-- The expression `new byte[gridsize]` threw for a negative size. -/
  | badAlloc (g : Globals)
  /-- The decode loop stored to `voxels[i]` outside the buffer; `dec` is the
  decode state at the start of that fill loop. -/
  | storeFault (i : Int) (g : Globals) (dec : DState)
  /-- A loop ran out of fuel. -/
  | stuck
  deriving DecidableEq, Repr

/-- Function `read_binvox` on the contents of the file named by `filespec`
(opened in binary mode, so the bytes reach the program unchanged).  A negative
size makes `new byte[gridsize]` throw; an allocation of any other size is taken
to succeed, so the test `if (!voxels)` never fires. -/
def read_binvox (F : List Byte → Bool) (g : Globals) (file : List Byte) : Outcome :=
  match read_header F g (IStream.ofBytes file) with
  | none => Outcome.stuck
  | some (false, g1, _) => Outcome.returned false g1 none
  | some (true, g1, input) =>
    let gridsize := wrap32 (wrap32 (g1.width * g1.height) * g1.depth)
    let g2 := { g1 with gridsize := gridsize }
    if gridsize < 0 then Outcome.badAlloc g2
    else
      let buf : List (Option Byte) := List.replicate gridsize.toNat none
      match decodePayload gridsize buf input with
      | none => Outcome.stuck
      | some (Exit.ret ret, st) =>
        Outcome.returned ret { g2 with voxels := st.voxels } (some st)
      | some (Exit.storeFault i, st) => Outcome.storeFault i { g2 with voxels := st.voxels } st

/-! ## `main`: the text output -/

/-- The ways a pass of the output loop can go wrong. -/
inductive Fault where
  /-- A `%` or `/` with divisor 0. -/
  | divByZero
  /-- An access to `voxels[i]` outside the buffer. -/
  | outOfBounds
  deriving DecidableEq, Repr

/-- Operator `%` on `int`: the remainder of the division that truncates toward
zero; a divisor 0 is a fault. -/
def cmod (a b : Int) : Except Fault Int :=
  if b = 0 then Except.error Fault.divByZero else Except.ok (a.tmod b)

/-- Operator `/` on `int`: the quotient truncated toward zero; a divisor 0 is a
fault.  The dividends of the program are loop indices, never negative, so the
quotient is in range. -/
def cdiv (a b : Int) : Except Fault Int :=
  if b = 0 then Except.error Fault.divByZero else Except.ok (a.tdiv b)

/-- One output statement of the loop in `main`. -/
inductive Out where
  /-- The statement `out << "x-coord: " << n << endl`. -/
  | xcoord (n : Int)
  /-- The statement `out << (char)(voxels[i] + '0') << " "`: the character
  written, followed by one space; `none` when the cell read is indeterminate. -/
  | voxel (c : Option Byte)
  /-- The statement `out << endl`. -/
  | endl
  deriving DecidableEq, Repr

/-- The character `(char)(v + '0')`. -/
def voxelChar (v : Byte) : Byte := ⟨(v.val + 48) % 256, by omega⟩

/-- The read `voxels[i]`. -/
def readVoxel (voxels : List (Option Byte)) (i : Int) : Except Fault (Option Byte) :=
  if 0 ≤ i ∧ i < voxels.length then Except.ok (voxels.getD i.toNat none)
  else Except.error Fault.outOfBounds

/-- The body of the loop `for (int i = 0; i < gridsize; i++)` of `main` (lines
182-192).  The products `depth*height` and `depth*width` are `int` products;
`i + 1` cannot overflow because `i < gridsize`. -/
def outputBody (g : Globals) (i : Int) : Except Fault (List Out) := do
  let m1 ← cmod i (wrap32 (g.depth * g.height))
  let mark ← if m1 = 0 then do
      let q ← cdiv i (wrap32 (g.depth * g.height))
      pure [Out.xcoord q]
    else pure []
  let cell ← readVoxel g.voxels i
  let m2 ← cmod (i + 1) g.width
  let nl1 := if m2 = 0 then [Out.endl] else []
  let m3 ← cmod (i + 1) (wrap32 (g.depth * g.width))
  let nl2 := if m3 = 0 then [Out.endl] else []
  pure (mark ++ [Out.voxel (cell.map voxelChar)] ++ nl1 ++ nl2)

/-- The loop `for (int i = 0; i < gridsize; i++)` with `k` passes left. -/
def outputLoop (g : Globals) : Nat → Int → Except Fault (List Out)
  | 0, _ => pure []
  | k + 1, i => do
    let a ← outputBody g i
    let r ← outputLoop g k (i + 1)
    pure (a ++ r)

/-- The output loop of `main` from `i = 0`: what it writes behind the header
lines, or the fault that stops it. -/
def writeVoxels (g : Globals) : Except Fault (List Out) :=
  outputLoop g g.gridsize.toNat 0

/-- How a run of the program ends. -/
inductive MainResult where
  /-- The call `exit(1)` after `read_binvox` returned false. -/
  | exit1
  /-- Terminated by the exception of `new byte[gridsize]`. -/
  | threw
  /-- Stopped by a fault: a store outside the buffer in the decode loop, or a
  fault in the output loop. -/
  | crashed (f : Fault)
  /-- Returned 0 after writing the voxel lines `out`. -/
  | wrote (g : Globals) (out : List Out)
  /-- A loop ran out of fuel. -/
  | stuck
  deriving DecidableEq, Repr

/-- Function `main` on the contents of the input file, as far as the voxel
lines of the output file are concerned (the argument check, the opening of the
output file and the header lines written by `writeASCIIHeader` are left out). -/
def main (F : List Byte → Bool) (file : List Byte) : MainResult :=
  match read_binvox F Globals.initial file with
  | Outcome.stuck => MainResult.stuck
  | Outcome.badAlloc _ => MainResult.threw
  | Outcome.storeFault _ _ _ => MainResult.crashed Fault.outOfBounds
  | Outcome.returned false _ _ => MainResult.exit1
  | Outcome.returned true g _ =>
    match writeVoxels g with
    | Except.error f => MainResult.crashed f
    | Except.ok out => MainResult.wrote g out

/-! ## Input texts used to state the properties -/

/-- Run-length pairs `(value, count)` expanded to the dense grid they stand for. -/
def expand : List (Byte × Byte) → List Byte
  | [] => []
  | p :: ps => List.replicate p.2.val p.1 ++ expand ps

/-- Run-length pairs laid out as payload bytes: value byte, then count byte. -/
def encode : List (Byte × Byte) → List Byte
  | [] => []
  | p :: ps => p.1 :: p.2 :: encode ps

/-- The character of a decimal digit. -/
def digitChar (d : Nat) : Byte := ⟨48 + d % 10, by omega⟩

/-- Decimal digits of `n`, least significant first, on fuel. -/
def decimalLE : Nat → Nat → List Byte
  | 0, _ => []
  | f + 1, n => digitChar (n % 10) :: (if n / 10 = 0 then [] else decimalLE f (n / 10))

/-- Decimal text of a natural number, without leading zeros. -/
def decimal (n : Nat) : List Byte := (decimalLE (n + 1) n).reverse

/-- Decimal text of an integer: a minus sign for a negative number, then the
digits of its magnitude. -/
def renderInt (z : Int) : List Byte :=
  if z < 0 then 45 :: decimal z.natAbs else decimal z.natAbs

/-- The line `dim a b c` without its line end. -/
def dimLine (a b c : Int) : List Byte :=
  kwDim ++ 32 :: renderInt a ++ 32 :: renderInt b ++ 32 :: renderInt c

/-- The header text `#binvox v\ndim a b c\ndata`, up to but excluding the line
end behind `data`. -/
def headerText (v a b c : Int) : List Byte :=
  sigBinvox ++ 32 :: renderInt v ++ 10 :: dimLine a b c ++ 10 :: kwData

/-- The line `translate x y z` without its line end. -/
def translateLine (x y z : List Byte) : List Byte :=
  kwTranslate ++ 32 :: x ++ 32 :: y ++ 32 :: z

/-- The line `scale x` without its line end. -/
def scaleLine (x : List Byte) : List Byte := kwScale ++ 32 :: x

/-- Stream `t` can be what reading from stream `s` leaves: its unread bytes are
a suffix of those of `s`, no state bit has been cleared, `skipws` is the same. -/
def Reads (s t : IStream) : Prop :=
  t.rest <:+ s.rest ∧ (t.good = true → s.good = true) ∧ t.skipws = s.skipws

/-- The guard `input.good() && !doneReadingHeader` of the keyword loop. -/
def headerGuard (st : HState) : Bool := st.input.good && !st.doneReadingHeader

/-- An optional `translate` line with its line end. -/
def optTranslate : Option (List Byte × List Byte × List Byte) → List Byte
  | none => []
  | some (x, y, z) => translateLine x y z ++ [10]

/-- An optional `scale` line with its line end. -/
def optScale : Option (List Byte) → List Byte
  | none => []
  | some x => scaleLine x ++ [10]

/-- A whole file: `#binvox v`, `dim d h w`, an optional `translate` line, an
optional `scale` line, `data`, one newline, and the payload. -/
def fileText (v d h w : Int) (tr : Option (List Byte × List Byte × List Byte))
    (sc : Option (List Byte)) (payload : List Byte) : List Byte :=
  sigBinvox ++ 32 :: renderInt v ++ 10 :: dimLine d h w ++
    10 :: (optTranslate tr ++ optScale sc ++ kwData ++ 10 :: payload)

/-- A floating-point literal: a nonempty text that is accumulated whole as one
field and that the platform converts without error. -/
def floatLit (F : List Byte → Bool) (x : List Byte) : Prop :=
  floatField x = (x, []) ∧ x ≠ [] ∧ F x = true

/-- The literals of an optional `translate` line are well formed. -/
def translateOk (F : List Byte → Bool) : Option (List Byte × List Byte × List Byte) → Prop
  | none => True
  | some (x, y, z) => floatLit F x ∧ floatLit F y ∧ floatLit F z

/-- The literal of an optional `scale` line is well formed. -/
def scaleOk (F : List Byte → Bool) : Option (List Byte) → Prop
  | none => True
  | some x => floatLit F x

/-- The variables after an optional `translate` line. -/
def withTranslate (g : Globals) : Option (List Byte × List Byte × List Byte) → Globals
  | none => g
  | some (x, y, z) => { g with tx := x, ty := y, tz := z }

/-- The variables after an optional `scale` line. -/
def withScale (g : Globals) : Option (List Byte) → Globals
  | none => g
  | some x => { g with scale := x }

/-- A whitespace-delimited token: not empty and free of whitespace. -/
def isToken (k : List Byte) : Bool := !k.isEmpty && k.all (fun b => !isSpace b)

/-- A rest-of-line text: free of newlines. -/
def isLineText (r : List Byte) : Bool := r.all (fun b => b != 10)

/-- The header text `#binvox 1\nk r\ndim a b c\ndata` with the line `k r` of an
unknown keyword `k`, up to but excluding the line end behind `data`. -/
def unknownText (k r : List Byte) (a b c : Int) : List Byte :=
  sigBinvox ++ 32 :: renderInt 1 ++ 10 :: (k ++ 32 :: (r ++ 10 :: (dimLine a b c ++ 10 :: kwData)))

/-- The voxel characters among the output statements, in the order written. -/
def voxelsOf : List Out → List (Option Byte)
  | [] => []
  | Out.voxel c :: r => c :: voxelsOf r
  | Out.xcoord _ :: r => voxelsOf r
  | Out.endl :: r => voxelsOf r

/-- The markers among the output statements: the number of each marker paired
with the number of voxel characters written before it, counting from `n`. -/
def markersOf : List Out → Nat → List (Int × Nat)
  | [], _ => []
  | Out.voxel _ :: r, n => markersOf r (n + 1)
  | Out.xcoord q :: r, n => (q, n) :: markersOf r n
  | Out.endl :: r, n => markersOf r n

/-- What pass `i` of the output loop writes in front of the voxel character. -/
def marksAt (g : Globals) (i : Int) : List Out :=
  if i.tmod (wrap32 (g.depth * g.height)) = 0 then
    [Out.xcoord (i.tdiv (wrap32 (g.depth * g.height)))]
  else []

/-- What pass `i` of the output loop writes behind the voxel character. -/
def endlsAt (g : Globals) (i : Int) : List Out :=
  (if (i + 1).tmod g.width = 0 then [Out.endl] else []) ++
    (if (i + 1).tmod (wrap32 (g.depth * g.width)) = 0 then [Out.endl] else [])

/-- The first whitespace-delimited token of a text. -/
def firstToken (bs : List Byte) : List Byte :=
  (bs.dropWhile isSpace).takeWhile (fun b => !isSpace b)

/-- What follows the first whitespace-delimited token of a text. -/
def afterFirstToken (bs : List Byte) : List Byte :=
  (bs.dropWhile isSpace).dropWhile (fun b => !isSpace b)

/-- The state of the keyword loop after `k` passes through its body, started by
`read_header` on `input`. -/
def passState (F : List Byte → Bool) (g : Globals) (input : IStream) (k : Nat) : HState :=
  (headerBody F)^[k] (headerEntry g (extractString input []).1 (extractString input []).2)

/-- The loop guard holds in `st` and the pass then extracts the token `tok`
from the stream (the extraction itself succeeds). -/
def readsToken (st : HState) (tok : List Byte) : Bool :=
  st.input.good && !st.doneReadingHeader &&
    (sentry st.input).2 && ((extractString st.input st.line).2 == tok)

/-- Number of nonzero bytes of a grid. -/
def countNonzero (g : List Byte) : Nat := (g.filter (fun b => b != 0)).length

/-- The indices `i, i+1, ..., i+k-1`. -/
def indexRun (i : Int) (k : Nat) : List Int := (List.range k).map (fun (j : Nat) => i + (j : Int))

/-- Number of cells of a buffer that hold a nonzero byte. -/
def nonzeroCells (cells : List (Option Byte)) : Nat :=
  (cells.filter (fun c => match c with
    | some v => v != 0
    | none => false)).length

/-- What holds of the decode state as long as no `int` sum has overflowed: the
filled index lies between 0 and the grid size, the buffer has the grid size,
the stores so far went to the indices below the filled index, once each and in
increasing order, and `nr_voxels` counts the nonzero cells below the filled
index. -/
def InBounds (G : Int) (st : DState) : Prop :=
  0 ≤ st.index ∧ st.index ≤ G ∧ st.voxels.length = G.toNat ∧
    st.writes = indexRun 0 st.index.toNat ∧
    st.nr_voxels = (nonzeroCells (st.voxels.take st.index.toNat) : Int)

/-! ## The decode loop: basic facts -/

theorem wrap32_of_range (x : Int) (h0 : -2147483648 ≤ x) (h1 : x ≤ 2147483647) : wrap32 x = x := by
  unfold wrap32
  omega

theorem expand_length_cons (p : Byte × Byte) (ps : List (Byte × Byte)) :
    (expand (p :: ps)).length = p.2.val + (expand ps).length := by
  simp [expand]

theorem encode_length (ps : List (Byte × Byte)) : (encode ps).length = 2 * ps.length := by
  induction ps with
  | nil => rfl
  | cons p ps ih => simp [encode, ih]; omega

theorem encode_append (ps qs : List (Byte × Byte)) : encode (ps ++ qs) = encode ps ++ encode qs := by
  induction ps with
  | nil => rfl
  | cons p ps ih => simp [encode, ih]

theorem expand_append (ps qs : List (Byte × Byte)) : expand (ps ++ qs) = expand ps ++ expand qs := by
  induction ps with
  | nil => rfl
  | cons p ps ih => simp [expand, ih]

theorem indexRun_succ (i : Int) (k : Nat) : indexRun i (k + 1) = i :: indexRun (i + 1) k := by
  unfold indexRun
  rw [List.range_succ_eq_map]
  simp only [List.map_cons, List.map_map, Nat.cast_zero, add_zero, List.cons.injEq, true_and]
  apply List.map_congr_left
  intro j _
  simp only [Function.comp, Nat.succ_eq_add_one]
  push_cast
  ring

/-- The fill loop over a run that lies inside the buffer: the cells of the run
are overwritten, every other cell is kept, and the indices of the run are
appended to the trace in increasing order. -/
theorem fillRun_inside (v : Byte) (mid pre post : List (Option Byte)) (tr : List Int) :
    fillRun v mid.length (pre.length : Int) (pre ++ mid ++ post) tr =
      Except.ok (pre ++ List.replicate mid.length (some v) ++ post,
        tr ++ indexRun (pre.length : Int) mid.length) := by
  induction mid generalizing pre tr with
  | nil => simp [fillRun, indexRun]
  | cons m mid ih =>
    have hst : store (pre ++ m :: mid ++ post) (pre.length : Int) v =
        some ((pre ++ [some v]) ++ mid ++ post) := by
      unfold store
      have h1 : (0 : Int) ≤ (pre.length : Int) ∧
          (pre.length : Int) < ((pre ++ m :: mid ++ post).length : Int) := by
        constructor
        · omega
        · simp only [List.length_append, List.length_cons]
          omega
      rw [if_pos h1]
      simp [List.set_append]
    have hlen : ((pre.length : Int) + 1) = ((pre ++ [some v]).length : Int) := by simp
    simp only [List.length_cons, fillRun]
    rw [hst]
    simp only []
    rw [hlen, ih (pre ++ [some v]) (tr ++ [(pre.length : Int)])]
    rw [indexRun_succ, ← hlen]
    simp [List.replicate_succ]

/-- The loop is left with `true` as soon as its guard is false. -/
theorem decodeLoop_exit (G : Int) (n : Nat) (st : DState)
    (h : (decide (st.end_index < G) && st.input.good) = false) :
    decodeLoop G (n + 1) st = some (Exit.ret true, st) := by
  simp only [decodeLoop, h]
  rfl

/-- One pass of the decode loop on a stream that still holds a whole pair. -/
theorem decodeLoop_pair (G : Int) (n : Nat) (st : DState) (v c : Byte) (r : List Byte)
    (hgood : st.input.good = true) (hsk : st.input.skipws = false)
    (hrest : st.input.rest = v :: c :: r) (hlt : st.end_index < G) :
    decodeLoop G (n + 1) st =
      if wrap32 (st.index + (c.val : Int)) > G then
        some (Exit.ret false,
          { st with
            input := { st.input with rest := r }, value := v, count := c,
            end_index := wrap32 (st.index + (c.val : Int)) })
      else
        match fillRun v (wrap32 (st.index + (c.val : Int)) - st.index).toNat st.index
            st.voxels st.writes with
        | Except.error i =>
          some (Exit.storeFault i,
            { st with
              input := { st.input with rest := r }, value := v, count := c,
              end_index := wrap32 (st.index + (c.val : Int)) })
        | Except.ok p =>
          decodeLoop G n
            { input := { st.input with rest := r },
              voxels := p.1,
              value := v, count := c,
              index := wrap32 (st.index + (c.val : Int)),
              end_index := wrap32 (st.index + (c.val : Int)),
              nr_voxels := if v ≠ 0 then wrap32 (st.nr_voxels + (c.val : Int)) else st.nr_voxels,
              writes := p.2 } := by
  obtain ⟨⟨rest, eof, fail, sk⟩, vox, v0, c0, idx, e0, nr, wr⟩ := st
  simp only [IStream.good] at hgood
  simp only at hsk hrest hlt
  subst hsk hrest
  have he : eof = false := by revert hgood; cases eof <;> simp
  have hf : fail = false := by revert hgood; cases fail <;> simp
  subst he hf
  simp [decodeLoop, extractByte, sentry, IStream.good, hlt]

theorem countNonzero_append (a b : List Byte) :
    countNonzero (a ++ b) = countNonzero a + countNonzero b := by
  simp [countNonzero]

theorem countNonzero_replicate (k : Nat) (v : Byte) :
    countNonzero (List.replicate k v) = if v ≠ 0 then k else 0 := by
  unfold countNonzero
  by_cases h : v = 0
  · subst h
    simp [List.filter_replicate]
  · simp [h, List.filter_replicate]

theorem indexRun_append (i : Int) (a b : Nat) :
    indexRun i (a + b) = indexRun i a ++ indexRun (i + (a : Int)) b := by
  induction a generalizing i with
  | zero => simp [indexRun]
  | succ a ih =>
    have h : a + 1 + b = (a + b) + 1 := by omega
    rw [h, indexRun_succ, indexRun_succ, ih]
    simp only [List.cons_append, List.cons.injEq, true_and]
    congr 2
    push_cast
    ring

/-- The decode loop on pairs that fill the rest of the buffer exactly: it ends
with `true`, the buffer holds the expansion of the pairs behind what was
already there, and the loop has written each remaining index once, in
increasing order. -/
theorem decodeLoop_fills (G : Int) (hG : G ≤ 2147483647) :
    ∀ (ps : List (Byte × Byte)) (n : Nat) (pre post : List (Option Byte)) (tail : List Byte)
      (st : DState),
      st.input.good = true → st.input.skipws = false → st.input.rest = encode ps ++ tail →
      st.index = (pre.length : Int) → st.end_index = st.index → st.voxels = pre ++ post →
      post.length = (expand ps).length → ((pre.length + post.length : Nat) : Int) = G →
      0 ≤ st.nr_voxels → st.nr_voxels ≤ st.index → ps.length + 1 ≤ n →
      ∃ st2, decodeLoop G n st = some (Exit.ret true, st2) ∧
        st2.voxels = pre ++ (expand ps).map some ∧ st2.index = G ∧ st2.end_index = G ∧
        st2.nr_voxels = st.nr_voxels + (countNonzero (expand ps) : Int) ∧
        st2.writes = st.writes ++ indexRun (pre.length : Int) post.length ∧
        st2.input.good = true ∧ st2.input.skipws = false ∧
        (∃ used left, encode ps = used ++ left ∧ st2.input.rest = left ++ tail) := by
  intro ps
  induction ps with
  | nil =>
    intro n pre post tail st hgood hsk hrest hidx hend hvox hpost hlen hnr0 hnr1 hn
    obtain ⟨n, rfl⟩ : ∃ m, n = m + 1 := ⟨n - 1, by omega⟩
    have hp : post = [] := by
      apply List.eq_nil_of_length_eq_zero
      simpa [expand] using hpost
    subst hp
    have hguard : (decide (st.end_index < G) && st.input.good) = false := by
      have : ¬ st.end_index < G := by
        rw [hend, hidx, ← hlen]
        simp
      simp [this]
    refine ⟨st, decodeLoop_exit G n st hguard, ?_, ?_, ?_, ?_, ?_, hgood, hsk, ?_⟩
    · simpa [expand] using hvox
    · rw [hidx, ← hlen]; simp
    · rw [hend, hidx, ← hlen]; simp
    · simp [expand, countNonzero]
    · simp [indexRun]
    · exact ⟨[], [], by simp [encode], by simp [hrest, encode]⟩
  | cons p ps ih =>
    intro n pre post tail st hgood hsk hrest hidx hend hvox hpost hlen hnr0 hnr1 hn
    obtain ⟨n, rfl⟩ : ∃ m, n = m + 1 := ⟨n - 1, by omega⟩
    obtain ⟨v, c⟩ := p
    by_cases hfull : post = []
    · subst hfull
      have hguard : (decide (st.end_index < G) && st.input.good) = false := by
        have : ¬ st.end_index < G := by
          rw [hend, hidx, ← hlen]
          simp
        simp [this]
      have hex : expand ((v, c) :: ps) = [] := by
        apply List.eq_nil_of_length_eq_zero
        simpa using hpost.symm
      refine ⟨st, decodeLoop_exit G n st hguard, ?_, ?_, ?_, ?_, ?_, hgood, hsk, ?_⟩
      · simpa [hex] using hvox
      · rw [hidx, ← hlen]; simp
      · rw [hend, hidx, ← hlen]; simp
      · simp [hex, countNonzero]
      · simp [indexRun]
      · exact ⟨[], encode ((v, c) :: ps), by simp, hrest⟩
    · have hpos : 0 < post.length := List.length_pos.mpr hfull
      have hcl : c.val ≤ post.length := by
        rw [hpost, expand_length_cons]
        simp
      have hlt : st.end_index < G := by
        rw [hend, hidx, ← hlen]
        push_cast
        omega
      have hw : wrap32 (st.index + (c.val : Int)) = st.index + (c.val : Int) := by
        apply wrap32_of_range
        · rw [hidx]; omega
        · rw [hidx]
          have : ((pre.length + post.length : Nat) : Int) ≤ 2147483647 := by rw [hlen]; exact hG
          push_cast at this
          omega
      have hrest2 : st.input.rest = v :: c :: (encode ps ++ tail) := by
        rw [hrest]; simp [encode]
      rw [decodeLoop_pair G n st v c (encode ps ++ tail) hgood hsk hrest2 hlt, hw]
      have hnot : ¬ (st.index + (c.val : Int) > G) := by
        rw [hidx, ← hlen]
        push_cast
        omega
      rw [if_neg hnot]
      have hk : (st.index + (c.val : Int) - st.index).toNat = (post.take c.val).length := by
        rw [List.length_take]
        have : st.index + (c.val : Int) - st.index = ((c.val : Nat) : Int) := by ring
        rw [this, Int.toNat_ofNat]
        omega
      have hbuf : st.voxels = pre ++ post.take c.val ++ post.drop c.val := by
        rw [hvox, List.append_assoc, List.take_append_drop]
      have htl : (post.take c.val).length = c.val := by
        rw [List.length_take]; omega
      rw [hk, hidx, hbuf, fillRun_inside, htl]
      have hwn : wrap32 (st.nr_voxels + (c.val : Int)) = st.nr_voxels + (c.val : Int) := by
        apply wrap32_of_range
        · omega
        · have : ((pre.length + post.length : Nat) : Int) ≤ 2147483647 := by rw [hlen]; exact hG
          push_cast at this
          rw [hidx] at hnr1
          omega
      obtain ⟨st2, hrun, h1, h2, h3, h4, h5, h6, h7, h8⟩ :=
        ih n (pre ++ List.replicate c.val (some v)) (post.drop c.val) tail
          { input := { st.input with rest := encode ps ++ tail },
            voxels := pre ++ List.replicate c.val (some v) ++ post.drop c.val,
            value := v, count := c,
            index := (pre.length : Int) + (c.val : Int),
            end_index := (pre.length : Int) + (c.val : Int),
            nr_voxels := if v ≠ 0 then wrap32 (st.nr_voxels + (c.val : Int)) else st.nr_voxels,
            writes := st.writes ++ indexRun (pre.length : Int) c.val }
          (by simpa [IStream.good] using hgood) hsk rfl
          (by simp) rfl rfl
          (by
            rw [List.length_drop, hpost, expand_length_cons]
            simp)
          (by
            rw [← hlen, List.length_append, List.length_replicate, List.length_drop]
            congr 1
            omega)
          (by
            by_cases hv : v = 0
            · simp [hv, hnr0]
            · simp only [ne_eq, hv, not_false_eq_true, if_true, hwn]
              omega)
          (by
            by_cases hv : v = 0
            · simp only [hv, ne_eq, not_true_eq_false, if_false]
              rw [hidx] at hnr1
              omega
            · simp only [ne_eq, hv, not_false_eq_true, if_true, hwn]
              rw [hidx] at hnr1
              omega)
          (by simp at hn; omega)
      refine ⟨st2, hrun, ?_, h2, h3, ?_, ?_, h6, h7, ?_⟩
      · rw [h1]
        simp [expand]
      · rw [h4]
        simp only [expand, countNonzero_append, countNonzero_replicate]
        by_cases hv : v = 0
        · simp [hv]
        · simp only [ne_eq, hv, not_false_eq_true, if_true, hwn]
          push_cast
          ring
      · rw [h5]
        simp only [List.append_assoc, List.length_append, List.length_replicate, List.length_drop]
        have hsplit : post.length = c.val + (post.length - c.val) := by omega
        conv_rhs => rw [hsplit, indexRun_append]
        push_cast
        rfl
      · obtain ⟨used, left, hu1, hu2⟩ := h8
        refine ⟨v :: c :: used, left, ?_, hu2⟩
        simp only [encode, List.cons_append, List.cons.injEq, true_and]
        exact hu1

/-- The decode loop on pairs that leave the buffer short of full: all of them
are decoded and the loop goes on behind them. -/
theorem decodeLoop_runs (G : Int) (hG : G ≤ 2147483647) :
    ∀ (ps : List (Byte × Byte)) (n : Nat) (pre post : List (Option Byte)) (tail : List Byte)
      (st : DState),
      st.input.good = true → st.input.skipws = false → st.input.rest = encode ps ++ tail →
      st.index = (pre.length : Int) → st.end_index = st.index → st.voxels = pre ++ post →
      (expand ps).length < post.length → ((pre.length + post.length : Nat) : Int) = G →
      0 ≤ st.nr_voxels → st.nr_voxels ≤ st.index →
      ∃ st2, decodeLoop G (ps.length + n) st = decodeLoop G n st2 ∧
        st2.input = { st.input with rest := tail } ∧
        st2.voxels = pre ++ (expand ps).map some ++ post.drop (expand ps).length ∧
        st2.index = (pre.length : Int) + ((expand ps).length : Int) ∧
        st2.end_index = st2.index ∧
        st2.nr_voxels = st.nr_voxels + (countNonzero (expand ps) : Int) ∧
        st2.writes = st.writes ++ indexRun (pre.length : Int) (expand ps).length := by
  intro ps
  induction ps with
  | nil =>
    intro n pre post tail st hgood hsk hrest hidx hend hvox hpost hlen hnr0 hnr1
    refine ⟨st, by simp, ?_, ?_, ?_, hend, ?_, ?_⟩
    · obtain ⟨⟨rest, eof, fail, sk⟩, vox, v0, c0, idx, e0, nr, wr⟩ := st
      simp only [encode, List.nil_append] at hrest
      simp [hrest]
    · simpa [expand] using hvox
    · simpa [expand] using hidx
    · simp [expand, countNonzero]
    · simp [expand, indexRun]
  | cons p ps ih =>
    intro n pre post tail st hgood hsk hrest hidx hend hvox hpost hlen hnr0 hnr1
    obtain ⟨v, c⟩ := p
    rw [expand_length_cons] at hpost
    simp only at hpost
    have hlt : st.end_index < G := by
      rw [hend, hidx, ← hlen]
      push_cast
      omega
    have hGle : ((pre.length + post.length : Nat) : Int) ≤ 2147483647 := by rw [hlen]; exact hG
    push_cast at hGle
    have hw : wrap32 (st.index + (c.val : Int)) = st.index + (c.val : Int) := by
      apply wrap32_of_range
      · rw [hidx]; omega
      · rw [hidx]; omega
    have hrest2 : st.input.rest = v :: c :: (encode ps ++ tail) := by
      rw [hrest]; simp [encode]
    have hfuel : (((v, c) :: ps).length + n) = (ps.length + n) + 1 := by
      simp only [List.length_cons]; omega
    rw [hfuel, decodeLoop_pair G (ps.length + n) st v c (encode ps ++ tail) hgood hsk hrest2 hlt, hw]
    have hnot : ¬ (st.index + (c.val : Int) > G) := by
      rw [hidx, ← hlen]
      push_cast
      omega
    rw [if_neg hnot]
    have htl : (post.take c.val).length = c.val := by
      rw [List.length_take]; omega
    have hk : (st.index + (c.val : Int) - st.index).toNat = (post.take c.val).length := by
      have : st.index + (c.val : Int) - st.index = ((c.val : Nat) : Int) := by ring
      rw [this, Int.toNat_ofNat, htl]
    have hbuf : st.voxels = pre ++ post.take c.val ++ post.drop c.val := by
      rw [hvox, List.append_assoc, List.take_append_drop]
    rw [hk, hidx, hbuf, fillRun_inside, htl]
    have hwn : wrap32 (st.nr_voxels + (c.val : Int)) = st.nr_voxels + (c.val : Int) := by
      apply wrap32_of_range
      · omega
      · rw [hidx] at hnr1
        omega
    obtain ⟨st2, hrun, h1, h2, h3, h4, h5, h6⟩ :=
      ih n (pre ++ List.replicate c.val (some v)) (post.drop c.val) tail
        { input := { st.input with rest := encode ps ++ tail },
          voxels := pre ++ List.replicate c.val (some v) ++ post.drop c.val,
          value := v, count := c,
          index := (pre.length : Int) + (c.val : Int),
          end_index := (pre.length : Int) + (c.val : Int),
          nr_voxels := if v ≠ 0 then wrap32 (st.nr_voxels + (c.val : Int)) else st.nr_voxels,
          writes := st.writes ++ indexRun (pre.length : Int) c.val }
        (by simpa [IStream.good] using hgood) hsk rfl
        (by simp) rfl rfl
        (by
          rw [List.length_drop]
          omega)
        (by
          rw [← hlen, List.length_append, List.length_replicate, List.length_drop]
          congr 1
          omega)
        (by
          by_cases hv : v = 0
          · simp [hv, hnr0]
          · simp only [ne_eq, hv, not_false_eq_true, if_true, hwn]
            omega)
        (by
          by_cases hv : v = 0
          · simp only [hv, ne_eq, not_true_eq_false, if_false]
            rw [hidx] at hnr1
            omega
          · simp only [ne_eq, hv, not_false_eq_true, if_true, hwn]
            rw [hidx] at hnr1
            omega)
    refine ⟨st2, hrun, ?_, ?_, ?_, h4, ?_, ?_⟩
    · rw [h1]
    · rw [h2]
      simp [expand, List.drop_drop, Nat.add_comm]
    · rw [h3, expand_length_cons]
      simp only [List.length_append, List.length_replicate]
      push_cast
      ring
    · rw [h5]
      simp only [expand, countNonzero_append, countNonzero_replicate]
      by_cases hv : v = 0
      · simp [hv]
      · simp only [ne_eq, hv, not_false_eq_true, if_true, hwn]
        push_cast
        ring
    · rw [h6, expand_length_cons]
      simp only [List.append_assoc, List.length_append, List.length_replicate, indexRun_append]
      push_cast
      rfl

/-! ## Extraction from a stream whose next field is known -/

theorem takeWhile_until {p : Byte → Bool} (l₁ l₂ : List Byte) (d : Byte)
    (h₁ : ∀ a ∈ l₁, p a = true) (hd : p d = false) :
    (l₁ ++ d :: l₂).takeWhile p = l₁ := by
  rw [List.takeWhile_append_of_pos h₁, List.takeWhile_cons_of_neg (by simp [hd])]
  simp

theorem dropWhile_until {p : Byte → Bool} (l₁ l₂ : List Byte) (d : Byte)
    (h₁ : ∀ a ∈ l₁, p a = true) (hd : p d = false) :
    (l₁ ++ d :: l₂).dropWhile p = d :: l₂ := by
  rw [List.dropWhile_append_of_pos h₁, List.dropWhile_cons_of_neg (by simp [hd])]

/-- Leading whitespace is discarded up to the first byte of a field. -/
theorem dropWhile_space (ws : List Byte) (t : Byte) (l : List Byte)
    (hws : ∀ a ∈ ws, isSpace a = true) (ht : isSpace t = false) :
    (ws ++ t :: l).dropWhile isSpace = t :: l :=
  dropWhile_until ws l t hws ht

/-- The sentry on a good stream that skips whitespace and has a field ahead. -/
theorem sentry_field (ws : List Byte) (t : Byte) (l : List Byte)
    (hws : ∀ a ∈ ws, isSpace a = true) (ht : isSpace t = false) :
    sentry ⟨ws ++ t :: l, false, false, true⟩ = (⟨t :: l, false, false, true⟩, true) := by
  simp [sentry, IStream.good, dropWhile_space ws t l hws ht]

/-- Extraction of a string token that is followed by a whitespace byte. -/
theorem extractString_token (ws tok tail : List Byte) (d : Byte) (old : List Byte)
    (hws : ∀ a ∈ ws, isSpace a = true) (htok : ∀ a ∈ tok, isSpace a = false)
    (hne : tok ≠ []) (hd : isSpace d = true) :
    extractString ⟨ws ++ tok ++ d :: tail, false, false, true⟩ old =
      (⟨d :: tail, false, false, true⟩, tok) := by
  obtain ⟨t, tok2, rfl⟩ := List.exists_cons_of_ne_nil hne
  have ht : isSpace t = false := htok t (by simp)
  have h1 : ws ++ (t :: tok2) ++ d :: tail = ws ++ t :: (tok2 ++ d :: tail) := by simp
  have hp : ∀ a ∈ t :: tok2, (fun b => !isSpace b) a = true := by
    intro a ha
    simp [htok a ha]
  have h2 : (t :: (tok2 ++ d :: tail)).takeWhile (fun b => !isSpace b) = t :: tok2 := by
    have := takeWhile_until (p := fun b => !isSpace b) (t :: tok2) tail d hp (by simp [hd])
    simpa using this
  have h3 : (t :: (tok2 ++ d :: tail)).dropWhile (fun b => !isSpace b) = d :: tail := by
    have := dropWhile_until (p := fun b => !isSpace b) (t :: tok2) tail d hp (by simp [hd])
    simpa using this
  unfold extractString
  rw [h1, sentry_field ws t _ hws ht]
  simp only [if_true, h2, h3]
  simp

/-- Extraction of a string token that ends the input: `eofbit` is set. -/
theorem extractString_last (ws tok : List Byte) (old : List Byte)
    (hws : ∀ a ∈ ws, isSpace a = true) (htok : ∀ a ∈ tok, isSpace a = false)
    (hne : tok ≠ []) :
    extractString ⟨ws ++ tok, false, false, true⟩ old = (⟨[], true, false, true⟩, tok) := by
  obtain ⟨t, tok2, rfl⟩ := List.exists_cons_of_ne_nil hne
  have ht : isSpace t = false := htok t (by simp)
  have hp : ∀ a ∈ t :: tok2, (fun b => !isSpace b) a = true := by
    intro a ha
    simp [htok a ha]
  have h2 : (t :: tok2).takeWhile (fun b => !isSpace b) = t :: tok2 :=
    List.takeWhile_eq_self_iff.mpr hp
  have h3 : (t :: tok2).dropWhile (fun b => !isSpace b) = [] :=
    List.dropWhile_eq_nil_iff.mpr hp
  unfold extractString
  rw [sentry_field ws t _ hws ht]
  simp only [if_true, h2, h3]
  simp

/-! ## Decimal text of integers -/

theorem isDigit_digitChar (d : Nat) : isDigit (digitChar d) = true := by
  simp only [isDigit, digitChar, Bool.and_eq_true, decide_eq_true_eq]
  omega

theorem isDigit_not_space (b : Byte) (h : isDigit b = true) : isSpace b = false := by
  simp only [isDigit, Bool.and_eq_true, decide_eq_true_eq] at h
  simp only [isSpace, Bool.or_eq_false_iff, beq_eq_false_iff_ne, ne_eq, Bool.and_eq_false_iff,
    decide_eq_false_iff_not, not_le]
  omega

theorem isSpace_not_digit (b : Byte) (h : isSpace b = true) : isDigit b = false := by
  cases hd : isDigit b
  · rfl
  · rw [isDigit_not_space b hd] at h
    exact absurd h (by simp)

theorem isDigit_ne_sign (b : Byte) (h : isDigit b = true) : b ≠ 45 ∧ b ≠ 43 := by
  simp only [isDigit, Bool.and_eq_true, decide_eq_true_eq] at h
  constructor
  · intro hb
    subst hb
    exact absurd h (by decide)
  · intro hb
    subst hb
    exact absurd h (by decide)

theorem decimalLE_digits (f n : Nat) : ∀ b ∈ decimalLE f n, isDigit b = true := by
  induction f generalizing n with
  | zero => simp [decimalLE]
  | succ f ih =>
    intro b hb
    simp only [decimalLE, List.mem_cons] at hb
    rcases hb with hb | hb
    · rw [hb]; exact isDigit_digitChar _
    · by_cases h : n / 10 = 0
      · simp [h] at hb
      · simp only [h, if_false] at hb
        exact ih _ b hb

theorem decimalLE_value (f n : Nat) (h : n < f) :
    (decimalLE f n).foldr (fun d acc => acc * 10 + (d.val - 48)) 0 = n := by
  induction f generalizing n with
  | zero => omega
  | succ f ih =>
    simp only [decimalLE, List.foldr_cons]
    have hd : (digitChar (n % 10)).val - 48 = n % 10 := by
      simp only [digitChar]
      omega
    rw [hd]
    by_cases h0 : n / 10 = 0
    · simp only [h0, if_true, List.foldr_nil]
      omega
    · simp only [h0, if_false]
      rw [ih (n / 10) (by omega)]
      omega

theorem decimal_digits (n : Nat) : ∀ b ∈ decimal n, isDigit b = true := by
  intro b hb
  unfold decimal at hb
  rw [List.mem_reverse] at hb
  exact decimalLE_digits _ _ b hb

theorem decimal_ne_nil (n : Nat) : decimal n ≠ [] := by
  unfold decimal
  simp [decimalLE]

theorem digitsValue_decimal (n : Nat) : digitsValue (decimal n) = n := by
  unfold digitsValue decimal
  rw [List.foldl_reverse]
  exact decimalLE_value (n + 1) n (by omega)

/-- Extraction of an `int` written in decimal and followed by a byte that is
not a digit: the value is the number written, the stream stays good and stands
at the byte behind the number. -/
theorem extractInt_render (ws tail : List Byte) (z : Int) (d : Byte) (old : Int)
    (hws : ∀ a ∈ ws, isSpace a = true) (hd : isDigit d = false)
    (hlo : -2147483648 ≤ z) (hhi : z ≤ 2147483647) :
    extractInt ⟨ws ++ renderInt z ++ d :: tail, false, false, true⟩ old =
      (⟨d :: tail, false, false, true⟩, z) := by
  have hval := digitsValue_decimal z.natAbs
  have hdig := decimal_digits z.natAbs
  have htake : (decimal z.natAbs ++ d :: tail).takeWhile isDigit = decimal z.natAbs :=
    takeWhile_until _ _ _ hdig hd
  have hdrop : (decimal z.natAbs ++ d :: tail).dropWhile isDigit = d :: tail :=
    dropWhile_until _ _ _ hdig hd
  have hne := decimal_ne_nil z.natAbs
  have hemp : (decimal z.natAbs).isEmpty = false := by
    cases hq : decimal z.natAbs with
    | nil => exact absurd hq hne
    | cons _ _ => rfl
  by_cases hz : z < 0
  · have h1 : ws ++ renderInt z ++ d :: tail = ws ++ 45 :: (decimal z.natAbs ++ d :: tail) := by
      simp [renderInt, hz]
    unfold extractInt
    rw [h1, sentry_field ws 45 _ hws (by decide)]
    simp only [if_true, htake, hdrop, hemp, hval]
    have habs : |z| = -z := abs_of_neg hz
    have hm : ¬ (2147483648 < |z|) := by rw [habs]; omega
    have hneg : -|z| = z := by rw [habs]; ring
    simp [hm, hneg]
  · obtain ⟨t, ds, hds⟩ := List.exists_cons_of_ne_nil hne
    have htd : isDigit t = true := hdig t (by rw [hds]; simp)
    have hts : isSpace t = false := isDigit_not_space t htd
    obtain ⟨h45, h43⟩ := isDigit_ne_sign t htd
    have h1 : ws ++ renderInt z ++ d :: tail = ws ++ t :: (ds ++ d :: tail) := by
      simp [renderInt, hz, hds]
    have h2 : t :: (ds ++ d :: tail) = decimal z.natAbs ++ d :: tail := by
      rw [hds]; simp
    unfold extractInt
    rw [h1, sentry_field ws t _ hws hts]
    simp only [if_true, h45, h43, if_false, h2, htake, hdrop, hemp, hval]
    have hpos : (z.natAbs : Int) = z := by omega
    simp [hpos, hhi]

/-! ## Skipping a line, floating-point fields -/

theorem skipLineLoop_line (r tail : List Byte) (sk : Bool) (hr : ∀ b ∈ r, b ≠ 10) :
    ∀ n, r.length + 1 ≤ n →
      skipLineLoop n ⟨r ++ 10 :: tail, false, false, sk⟩ = ⟨tail, false, false, sk⟩ := by
  induction r with
  | nil =>
    intro n hn
    obtain ⟨n, rfl⟩ : ∃ m, n = m + 1 := ⟨n - 1, by simp at hn; omega⟩
    have h10 : (((10 : Byte).val : Nat) : Int) = 10 := by decide
    simp [skipLineLoop, get, sentryRaw, IStream.good, h10]
  | cons b r ih =>
    intro n hn
    obtain ⟨n, rfl⟩ : ∃ m, n = m + 1 := ⟨n - 1, by simp at hn; omega⟩
    have hb : b ≠ 10 := hr b (by simp)
    have hbv : ¬ ((b.val : Int) = 10) := by
      intro h
      apply hb
      apply Fin.ext
      have : b.val = 10 := by exact_mod_cast h
      simpa using this
    have hrec := ih (fun x hx => hr x (by simp [hx])) n (by simp at hn; omega)
    simp only [skipLineLoop, get, sentryRaw, IStream.good, List.cons_append]
    simp [hbv, hrec]

/-- The skip loop discards the rest of the current line, newline included. -/
theorem skipLine_line (r tail : List Byte) (sk : Bool) (hr : ∀ b ∈ r, b ≠ 10) :
    skipLine ⟨r ++ 10 :: tail, false, false, sk⟩ = ⟨tail, false, false, sk⟩ := by
  unfold skipLine
  apply skipLineLoop_line r tail sk hr
  simp

theorem scanFloat_space (c : Byte) (l : List Byte) (m d e sg : Bool) (hc : isSpace c = true) :
    scanFloat (c :: l) m d e sg = ([], c :: l) := by
  have hdig : isDigit c = false := isSpace_not_digit c hc
  have h43 : c ≠ 43 := by intro h; subst h; exact absurd hc (by decide)
  have h45 : c ≠ 45 := by intro h; subst h; exact absurd hc (by decide)
  have h46 : c ≠ 46 := by intro h; subst h; exact absurd hc (by decide)
  have h101 : c ≠ 101 := by intro h; subst h; exact absurd hc (by decide)
  have h69 : c ≠ 69 := by intro h; subst h; exact absurd hc (by decide)
  simp [scanFloat, hdig, h43, h45, h46, h101, h69]

/-- A field that the scanner accepts whole is accepted unchanged when a
whitespace byte follows it. -/
theorem scanFloat_append (c : Byte) (tail : List Byte) (hc : isSpace c = true) :
    ∀ (f : List Byte) (m d e sg : Bool), scanFloat f m d e sg = (f, []) →
      scanFloat (f ++ c :: tail) m d e sg = (f, c :: tail) := by
  intro f
  induction f with
  | nil =>
    intro m d e sg _
    simpa using scanFloat_space c tail m d e sg hc
  | cons x f ih =>
    intro m d e sg h
    simp only [scanFloat] at h
    simp only [List.cons_append, scanFloat]
    split_ifs at h ⊢ with h1 h2 h3 h4
    · simp only [Prod.mk.injEq, List.cons.injEq, true_and] at h
      rw [List.append_eq, ih m d e false (Prod.ext h.1 h.2)]
    · simp only [Prod.mk.injEq, List.cons.injEq, true_and] at h
      rw [List.append_eq, ih true d e false (Prod.ext h.1 h.2)]
    · simp only [Prod.mk.injEq, List.cons.injEq, true_and] at h
      rw [List.append_eq, ih m true e false (Prod.ext h.1 h.2)]
    · simp only [Prod.mk.injEq, List.cons.injEq, true_and] at h
      rw [List.append_eq, ih m d true true (Prod.ext h.1 h.2)]
    · simp at h

/-- Extraction of a `float` whose field is followed by a whitespace byte. -/
theorem extractFloat_field (F : List Byte → Bool) (ws f tail : List Byte) (c : Byte)
    (old : FloatVal) (hws : ∀ a ∈ ws, isSpace a = true) (hf : floatField f = (f, []))
    (hne : f ≠ []) (hF : F f = true) (hc : isSpace c = true) :
    extractFloat F ⟨ws ++ f ++ c :: tail, false, false, true⟩ old =
      (⟨c :: tail, false, false, true⟩, f) := by
  obtain ⟨x, f2, rfl⟩ := List.exists_cons_of_ne_nil hne
  have hx : isSpace x = false := by
    cases hxs : isSpace x
    · rfl
    · unfold floatField at hf
      rw [scanFloat_space x f2 _ _ _ _ hxs] at hf
      simp at hf
  have h1 : ws ++ (x :: f2) ++ c :: tail = ws ++ x :: (f2 ++ c :: tail) := by simp
  have h2 : floatField (x :: (f2 ++ c :: tail)) = (x :: f2, c :: tail) := by
    unfold floatField at hf ⊢
    have := scanFloat_append c tail hc (x :: f2) false false false true hf
    simpa using this
  unfold extractFloat
  rw [h1, sentry_field ws x _ hws hx]
  simp [h2, hF]

/-! ## Passes of the keyword loop over known lines -/

theorem kw_no_space :
    (∀ a ∈ sigBinvox, isSpace a = false) ∧ (∀ a ∈ kwData, isSpace a = false) ∧
    (∀ a ∈ kwDim, isSpace a = false) ∧ (∀ a ∈ kwTranslate, isSpace a = false) ∧
    (∀ a ∈ kwScale, isSpace a = false) := by
  simp only [sigBinvox, kwData, kwDim, kwTranslate, kwScale, List.forall_mem_cons]
  simp only [List.not_mem_nil, false_implies, implies_true, and_true]
  decide

theorem kw_ne_nil :
    sigBinvox ≠ [] ∧ kwData ≠ [] ∧ kwDim ≠ [] ∧ kwTranslate ≠ [] ∧ kwScale ≠ [] := by
  simp [sigBinvox, kwData, kwDim, kwTranslate, kwScale]

theorem isSpace_32 : isSpace (32 : Byte) = true := by decide

theorem isSpace_10 : isSpace (10 : Byte) = true := by decide

theorem space_singleton (d : Byte) (hd : isSpace d = true) : ∀ x ∈ [d], isSpace x = true := by
  intro x hx
  rw [List.mem_singleton] at hx
  rw [hx]
  exact hd

/-- A pass over the token `data`: the loop is done, the stream stands right
behind the token. -/
theorem headerBody_data (F : List Byte → Bool) (ws tail : List Byte) (d : Byte)
    (line : List Byte) (g : Globals) (hws : ∀ a ∈ ws, isSpace a = true)
    (hd : isSpace d = true) :
    headerBody F ⟨⟨ws ++ kwData ++ d :: tail, false, false, true⟩, line, false, g⟩ =
      ⟨⟨d :: tail, false, false, true⟩, kwData, true, g⟩ := by
  unfold headerBody
  simp only [extractString_token ws kwData tail d line hws kw_no_space.2.1 kw_ne_nil.2.1 hd]
  simp

/-- A pass over a line `dim a b c`: the three numbers are stored in the order
depth, height, width. -/
theorem headerBody_dim (F : List Byte → Bool) (ws tail : List Byte) (d : Byte)
    (line : List Byte) (g : Globals) (a b c : Int) (hws : ∀ a ∈ ws, isSpace a = true)
    (hd : isSpace d = true)
    (ha : -2147483648 ≤ a ∧ a ≤ 2147483647) (hb : -2147483648 ≤ b ∧ b ≤ 2147483647)
    (hc : -2147483648 ≤ c ∧ c ≤ 2147483647) :
    headerBody F ⟨⟨ws ++ dimLine a b c ++ d :: tail, false, false, true⟩, line, false, g⟩ =
      ⟨⟨d :: tail, false, false, true⟩, kwDim, false,
        { g with depth := a, height := b, width := c }⟩ := by
  have hsp : ∀ x ∈ [(32 : Byte)], isSpace x = true := space_singleton 32 isSpace_32
  have h32 : isDigit (32 : Byte) = false := by decide
  have hdd : isDigit d = false := isSpace_not_digit d hd
  have h0 : ws ++ dimLine a b c ++ d :: tail =
      ws ++ kwDim ++ 32 :: (renderInt a ++ 32 :: (renderInt b ++ 32 :: (renderInt c ++ d :: tail))) := by
    simp [dimLine]
  have e1 := extractString_token ws kwDim
    (renderInt a ++ 32 :: (renderInt b ++ 32 :: (renderInt c ++ d :: tail))) 32 line hws
    kw_no_space.2.2.1 kw_ne_nil.2.2.1 isSpace_32
  have e2 := extractInt_render [32] (renderInt b ++ 32 :: (renderInt c ++ d :: tail)) a 32
    g.depth hsp h32 ha.1 ha.2
  have e3 := extractInt_render [32] (renderInt c ++ d :: tail) b 32 g.height hsp h32 hb.1 hb.2
  have e4 := extractInt_render [32] tail c d g.width hsp hdd hc.1 hc.2
  simp only [List.singleton_append, List.cons_append, List.nil_append] at e2 e3 e4
  unfold headerBody
  rw [h0]
  simp only [e1]
  have hk : kwDim ≠ kwData := by decide
  simp only [hk, if_false, if_true, e2, e3, e4]

/-- A pass over a line that starts with an unknown keyword: the line is
discarded up to and including its newline and nothing else changes. -/
theorem headerBody_unknown (F : List Byte → Bool) (ws k r tail : List Byte)
    (line : List Byte) (g : Globals) (hws : ∀ a ∈ ws, isSpace a = true)
    (hk : ∀ a ∈ k, isSpace a = false) (hne : k ≠ [])
    (h1 : k ≠ kwData) (h2 : k ≠ kwDim) (h3 : k ≠ kwTranslate) (h4 : k ≠ kwScale)
    (hr : ∀ b ∈ r, b ≠ 10) :
    headerBody F ⟨⟨ws ++ k ++ 32 :: (r ++ 10 :: tail), false, false, true⟩, line, false, g⟩ =
      ⟨⟨tail, false, false, true⟩, k, false, g⟩ := by
  have e1 := extractString_token ws k (r ++ 10 :: tail) 32 line hws hk hne isSpace_32
  have hr2 : ∀ b ∈ (32 : Byte) :: r, b ≠ 10 := by
    intro b hb
    rcases List.mem_cons.mp hb with hb | hb
    · rw [hb]; decide
    · exact hr b hb
  have e2 := skipLine_line (32 :: r) tail true hr2
  simp only [List.cons_append] at e2
  unfold headerBody
  simp only [e1, h1, h2, h3, h4, if_false, e2]

/-- A pass over a line `translate x y z`. -/
theorem headerBody_translate (F : List Byte → Bool) (ws tail : List Byte) (d : Byte)
    (line : List Byte) (g : Globals) (x y z : List Byte) (hws : ∀ a ∈ ws, isSpace a = true)
    (hd : isSpace d = true)
    (hx : floatField x = (x, []) ∧ x ≠ [] ∧ F x = true)
    (hy : floatField y = (y, []) ∧ y ≠ [] ∧ F y = true)
    (hz : floatField z = (z, []) ∧ z ≠ [] ∧ F z = true) :
    headerBody F ⟨⟨ws ++ translateLine x y z ++ d :: tail, false, false, true⟩, line, false, g⟩ =
      ⟨⟨d :: tail, false, false, true⟩, kwTranslate, false,
        { g with tx := x, ty := y, tz := z }⟩ := by
  have hsp : ∀ x ∈ [(32 : Byte)], isSpace x = true := space_singleton 32 isSpace_32
  have h32 : isSpace (32 : Byte) = true := by decide
  have h0 : ws ++ translateLine x y z ++ d :: tail =
      ws ++ kwTranslate ++ 32 :: (x ++ 32 :: (y ++ 32 :: (z ++ d :: tail))) := by
    simp [translateLine]
  have e1 := extractString_token ws kwTranslate (x ++ 32 :: (y ++ 32 :: (z ++ d :: tail))) 32 line
    hws kw_no_space.2.2.2.1 kw_ne_nil.2.2.2.1 isSpace_32
  have e2 := extractFloat_field F [32] x (y ++ 32 :: (z ++ d :: tail)) 32 g.tx hsp hx.1 hx.2.1
    hx.2.2 h32
  have e3 := extractFloat_field F [32] y (z ++ d :: tail) 32 g.ty hsp hy.1 hy.2.1 hy.2.2 h32
  have e4 := extractFloat_field F [32] z tail d g.tz hsp hz.1 hz.2.1 hz.2.2 hd
  simp only [List.singleton_append, List.cons_append, List.nil_append] at e2 e3 e4
  unfold headerBody
  rw [h0]
  simp only [e1]
  have hk1 : kwTranslate ≠ kwData := by decide
  have hk2 : kwTranslate ≠ kwDim := by decide
  simp only [hk1, hk2, if_false, if_true, e2, e3, e4]

/-- A pass over a line `scale x`. -/
theorem headerBody_scale (F : List Byte → Bool) (ws tail : List Byte) (d : Byte)
    (line : List Byte) (g : Globals) (x : List Byte) (hws : ∀ a ∈ ws, isSpace a = true)
    (hd : isSpace d = true) (hx : floatField x = (x, []) ∧ x ≠ [] ∧ F x = true) :
    headerBody F ⟨⟨ws ++ scaleLine x ++ d :: tail, false, false, true⟩, line, false, g⟩ =
      ⟨⟨d :: tail, false, false, true⟩, kwScale, false, { g with scale := x }⟩ := by
  have hsp : ∀ x ∈ [(32 : Byte)], isSpace x = true := space_singleton 32 isSpace_32
  have h0 : ws ++ scaleLine x ++ d :: tail = ws ++ kwScale ++ 32 :: (x ++ d :: tail) := by
    simp [scaleLine]
  have e1 := extractString_token ws kwScale (x ++ d :: tail) 32 line
    hws kw_no_space.2.2.2.2 kw_ne_nil.2.2.2.2 isSpace_32
  have e2 := extractFloat_field F [32] x tail d g.scale hsp hx.1 hx.2.1 hx.2.2 hd
  simp only [List.singleton_append, List.cons_append, List.nil_append] at e2
  unfold headerBody
  rw [h0]
  simp only [e1]
  have hk1 : kwScale ≠ kwData := by decide
  have hk2 : kwScale ≠ kwDim := by decide
  have hk3 : kwScale ≠ kwTranslate := by decide
  simp only [hk1, hk2, hk3, if_false, if_true, e2]

/-! ## The keyword loop -/

theorem headerLoop_pass (F : List Byte → Bool) (n : Nat) (st : HState)
    (hg : st.input.good = true) (hd : st.doneReadingHeader = false) :
    headerLoop F (n + 1) st = headerLoop F n (headerBody F st) := by
  simp [headerLoop, hg, hd]

theorem headerLoop_stop (F : List Byte → Bool) (n : Nat) (st : HState)
    (h : st.input.good = false ∨ st.doneReadingHeader = true) :
    headerLoop F (n + 1) st = some st := by
  rcases h with h | h <;> simp [headerLoop, h]

/-- More fuel does not change a result already reached. -/
theorem headerLoop_mono (F : List Byte → Bool) (k : Nat) :
    ∀ (n : Nat) (st r : HState), headerLoop F n st = some r → headerLoop F (n + k) st = some r := by
  intro n
  induction n with
  | zero =>
    intro st r h
    simp [headerLoop] at h
  | succ n ih =>
    intro st r h
    have hk : n + 1 + k = (n + k) + 1 := by omega
    rw [hk]
    by_cases hc : st.input.good = true ∧ st.doneReadingHeader = false
    · rw [headerLoop_pass F n st hc.1 hc.2] at h
      rw [headerLoop_pass F (n + k) st hc.1 hc.2]
      exact ih _ _ h
    · have hc2 : st.input.good = false ∨ st.doneReadingHeader = true := by
        by_cases hg : st.input.good = true
        · right
          cases hd : st.doneReadingHeader
          · exact absurd ⟨hg, hd⟩ hc
          · rfl
        · left
          simpa using hg
      rw [headerLoop_stop F n st hc2] at h
      rw [headerLoop_stop F (n + k) st hc2]
      exact h

theorem headerLoop_le (F : List Byte → Bool) (n m : Nat) (st r : HState) (hnm : n ≤ m)
    (h : headerLoop F n st = some r) : headerLoop F m st = some r := by
  obtain ⟨k, rfl⟩ := Nat.exists_eq_add_of_le hnm
  exact headerLoop_mono F k n st r h

/-- The start of `read_header` on a text that begins with the signature and a
version number: the keyword loop is entered behind the number. -/
theorem read_header_start (F : List Byte → Bool) (g : Globals) (v : Int) (d : Byte)
    (tail : List Byte) (hd : isSpace d = true)
    (hv : -2147483648 ≤ v ∧ v ≤ 2147483647) :
    read_header F g (IStream.ofBytes (sigBinvox ++ 32 :: (renderInt v ++ d :: tail))) =
      (headerLoop F (tail.length + 3)
        ⟨⟨d :: tail, false, false, true⟩, sigBinvox, false,
          { g with version := v, depth := -1 }⟩).map headerResult := by
  have e1 := extractString_token [] sigBinvox (renderInt v ++ d :: tail) 32 []
    (by simp) kw_no_space.1 kw_ne_nil.1 isSpace_32
  have e2 := extractInt_render [32] tail v d g.version (space_singleton 32 isSpace_32)
    (isSpace_not_digit d hd) hv.1 hv.2
  simp only [List.nil_append, List.singleton_append, List.cons_append] at e1 e2
  unfold read_header IStream.ofBytes
  simp only [e1, ne_eq, not_true_eq_false, if_false, headerEntry, e2, List.length_cons]

/-- The last pass: the token `data` ends the loop. -/
theorem headerLoop_data (F : List Byte → Bool) (n : Nat) (ws tail : List Byte) (d : Byte)
    (line : List Byte) (g : Globals) (hws : ∀ a ∈ ws, isSpace a = true)
    (hd : isSpace d = true) :
    headerLoop F (n + 2) ⟨⟨ws ++ kwData ++ d :: tail, false, false, true⟩, line, false, g⟩ =
      some ⟨⟨d :: tail, false, false, true⟩, kwData, true, g⟩ := by
  rw [headerLoop_pass F (n + 1)
      ⟨⟨ws ++ kwData ++ d :: tail, false, false, true⟩, line, false, g⟩ rfl rfl,
    headerBody_data F ws tail d line g hws hd,
    headerLoop_stop F n ⟨⟨d :: tail, false, false, true⟩, kwData, true, g⟩ (Or.inr rfl)]

/-- The keyword loop over `dim a b c` and `data`. -/
theorem headerLoop_dim_data (F : List Byte → Bool) (n : Nat) (ws tail : List Byte) (d : Byte)
    (line : List Byte) (g : Globals) (a b c : Int) (hws : ∀ a ∈ ws, isSpace a = true)
    (hd : isSpace d = true)
    (ha : -2147483648 ≤ a ∧ a ≤ 2147483647) (hb : -2147483648 ≤ b ∧ b ≤ 2147483647)
    (hc : -2147483648 ≤ c ∧ c ≤ 2147483647) :
    headerLoop F (n + 3)
        ⟨⟨ws ++ dimLine a b c ++ 10 :: (kwData ++ d :: tail), false, false, true⟩, line, false, g⟩ =
      some ⟨⟨d :: tail, false, false, true⟩, kwData, true,
        { g with depth := a, height := b, width := c }⟩ := by
  rw [headerLoop_pass F (n + 2)
      ⟨⟨ws ++ dimLine a b c ++ 10 :: (kwData ++ d :: tail), false, false, true⟩, line, false, g⟩
      rfl rfl,
    headerBody_dim F ws (kwData ++ d :: tail) 10 line g a b c hws isSpace_10 ha hb hc]
  have := headerLoop_data F n [10] tail d kwDim { g with depth := a, height := b, width := c }
    (space_singleton 10 isSpace_10) hd
  simpa using this

/-- Function `read_header` on `#binvox v`, `dim a b c`, `data` followed by a
whitespace byte and anything: it returns true unless `a` is `-1`, has stored
the four numbers, and the stream stands at the byte behind `data`. -/
theorem read_header_plain (F : List Byte → Bool) (g : Globals) (v a b c : Int) (d : Byte)
    (tail : List Byte) (hd : isSpace d = true)
    (hv : -2147483648 ≤ v ∧ v ≤ 2147483647)
    (ha : -2147483648 ≤ a ∧ a ≤ 2147483647) (hb : -2147483648 ≤ b ∧ b ≤ 2147483647)
    (hc : -2147483648 ≤ c ∧ c ≤ 2147483647) :
    read_header F g (IStream.ofBytes (headerText v a b c ++ d :: tail)) =
      some (decide (a ≠ -1), { g with version := v, depth := a, height := b, width := c },
        ⟨d :: tail, false, false, true⟩) := by
  have h0 : headerText v a b c ++ d :: tail =
      sigBinvox ++ 32 :: (renderInt v ++ 10 :: (dimLine a b c ++ 10 :: (kwData ++ d :: tail))) := by
    simp [headerText]
  rw [h0, read_header_start F g v 10 _ isSpace_10 hv]
  have hl := headerLoop_dim_data F 0 [10] tail d sigBinvox { g with version := v, depth := -1 }
    a b c (space_singleton 10 isSpace_10) hd ha hb hc
  simp only [List.singleton_append, List.cons_append, List.nil_append, zero_add] at hl
  rw [headerLoop_le F 3 _ _ _ (by omega) hl]
  by_cases h1 : a = -1
  · simp [headerResult, h1]
  · simp [headerResult, h1]

/-! ## What every extraction does to the stream -/

theorem Reads.refl (s : IStream) : Reads s s := ⟨List.suffix_refl _, id, rfl⟩

theorem Reads.trans {s t u : IStream} (h₁ : Reads s t) (h₂ : Reads t u) : Reads s u :=
  ⟨h₂.1.trans h₁.1, fun h => h₁.2.1 (h₂.2.1 h), h₂.2.2.trans h₁.2.2⟩

theorem Reads.length_le {s t : IStream} (h : Reads s t) : t.rest.length ≤ s.rest.length :=
  h.1.length_le

theorem Reads.not_good {s t : IStream} (h : Reads s t) (hs : s.good = false) : t.good = false := by
  cases ht : t.good
  · rfl
  · rw [h.2.1 ht] at hs
    exact absurd hs (by simp)

/-- The four ways the sentry can go. -/
theorem sentry_cases (s : IStream) :
    (s.good = false ∧ sentry s = ({ s with failbit := true }, false)) ∨
    (s.good = true ∧ s.skipws = false ∧ sentry s = (s, true)) ∨
    (s.good = true ∧ s.skipws = true ∧ s.rest.dropWhile isSpace = [] ∧
      sentry s = ({ s with rest := [], eofbit := true, failbit := true }, false)) ∨
    (s.good = true ∧ s.skipws = true ∧ s.rest.dropWhile isSpace ≠ [] ∧
      sentry s = ({ s with rest := s.rest.dropWhile isSpace }, true)) := by
  cases hg : s.good
  · left
    exact ⟨rfl, by simp [sentry, hg]⟩
  · right
    cases hk : s.skipws
    · left
      exact ⟨rfl, rfl, by simp [sentry, hg, hk]⟩
    · right
      cases hr : s.rest.dropWhile isSpace with
      | nil =>
        left
        refine ⟨rfl, rfl, rfl, ?_⟩
        simp only [sentry, hg, hk, if_true, hr, List.isEmpty_nil]
      | cons t l =>
        right
        refine ⟨rfl, rfl, by simp, ?_⟩
        simp only [sentry, hg, hk, if_true, hr, List.isEmpty_cons]
        simp

theorem sentry_reads (s : IStream) : Reads s (sentry s).1 := by
  rcases sentry_cases s with ⟨_, h⟩ | ⟨_, _, h⟩ | ⟨_, _, _, h⟩ | ⟨hg, _, _, h⟩
  · rw [h]
    exact ⟨List.suffix_refl _, fun h => by simp [IStream.good] at h, rfl⟩
  · rw [h]
    exact Reads.refl s
  · rw [h]
    exact ⟨List.nil_suffix, fun h => by simp [IStream.good] at h, rfl⟩
  · rw [h]
    exact ⟨List.dropWhile_suffix _, fun _ => hg, rfl⟩

/-- A sentry that fails leaves the stream not good. -/
theorem sentry_false (s : IStream) (h : (sentry s).2 = false) : (sentry s).1.good = false := by
  rcases sentry_cases s with ⟨_, e⟩ | ⟨_, _, e⟩ | ⟨_, _, _, e⟩ | ⟨hg, _, _, e⟩
  · rw [e]; simp [IStream.good]
  · rw [e] at h; simp at h
  · rw [e]; simp [IStream.good]
  · rw [e] at h; simp at h

/-- A sentry that succeeds leaves the stream good. -/
theorem sentry_true (s : IStream) (h : (sentry s).2 = true) : (sentry s).1.good = true := by
  rcases sentry_cases s with ⟨_, e⟩ | ⟨hg, _, e⟩ | ⟨_, _, _, e⟩ | ⟨hg, _, _, e⟩
  · rw [e] at h; simp at h
  · rw [e]; exact hg
  · rw [e] at h; simp at h
  · rw [e]; simpa [IStream.good] using hg

/-- On a stream that is not good the sentry fails. -/
theorem sentry_of_not_good (s : IStream) (h : s.good = false) : (sentry s).2 = false := by
  simp [sentry, h]

theorem get_reads (s : IStream) : Reads s (get s).1 := by
  obtain ⟨rest, eof, fail, sk⟩ := s
  cases hg : (IStream.mk rest eof fail sk).good
  · simp only [get, sentryRaw, hg]
    exact ⟨List.suffix_refl _, fun h => by simp [IStream.good] at h, rfl⟩
  · cases rest with
    | nil =>
      simp only [get, sentryRaw, hg]
      exact ⟨List.suffix_refl _, fun h => by simp [IStream.good] at h, rfl⟩
    | cons b r =>
      simp only [get, sentryRaw, hg]
      exact ⟨List.suffix_cons b r, fun h => by simpa [IStream.good] using h, rfl⟩

theorem extractByte_reads (s : IStream) (old : Byte) : Reads s (extractByte s old).1 := by
  have hs := sentry_reads s
  have ht := sentry_true s
  unfold extractByte
  rcases hsn : sentry s with ⟨s1, ok⟩
  rw [hsn] at hs ht
  simp only at hs ht ⊢
  cases ok
  · simpa using hs
  · obtain ⟨rest, eof, fail, sk⟩ := s1
    have hg := ht rfl
    cases rest with
    | nil =>
      simp only [if_true]
      exact hs.trans ⟨List.suffix_refl _, fun h => by simp [IStream.good] at h, rfl⟩
    | cons b r =>
      simp only [if_true]
      exact hs.trans ⟨List.suffix_cons b r, fun _ => hg, rfl⟩

theorem extractString_reads (s : IStream) (old : List Byte) :
    Reads s (extractString s old).1 := by
  have hs := sentry_reads s
  have ht := sentry_true s
  unfold extractString
  rcases hsn : sentry s with ⟨s1, ok⟩
  rw [hsn] at hs ht
  simp only at hs ht ⊢
  cases ok
  · simpa using hs
  · have hg := ht rfl
    simp only [if_true]
    split_ifs with h1
    · exact hs.trans ⟨List.dropWhile_suffix _, fun h => by simp [IStream.good] at h, rfl⟩
    · refine hs.trans ⟨List.dropWhile_suffix _, fun h => hg, rfl⟩

/-- The sign step of the integer extraction leaves a suffix. -/
theorem signStep_suffix (l : List Byte) :
    (match l with
      | [] => ((false, []) : Bool × List Byte)
      | b :: r =>
        if b = 45 then (true, r) else if b = 43 then (false, r) else (false, b :: r)).2 <:+ l := by
  cases l with
  | nil => exact List.suffix_refl _
  | cons b r =>
    simp only
    split_ifs
    · exact List.suffix_cons b r
    · exact List.suffix_cons b r
    · exact List.suffix_refl _

theorem extractInt_reads (s : IStream) (old : Int) : Reads s (extractInt s old).1 := by
  have hs := sentry_reads s
  have ht := sentry_true s
  unfold extractInt
  rcases hsn : sentry s with ⟨s1, ok⟩
  rw [hsn] at hs ht
  simp only at hs ht ⊢
  cases ok
  · simpa using hs
  · have hg := ht rfl
    have hd := (List.dropWhile_suffix isDigit).trans (signStep_suffix s1.rest)
    simp only [if_true]
    split_ifs
    all_goals exact hs.trans ⟨hd, fun _ => hg, rfl⟩

theorem scanFloat_split (xs : List Byte) :
    ∀ (m d e sg : Bool), (scanFloat xs m d e sg).1 ++ (scanFloat xs m d e sg).2 = xs := by
  induction xs with
  | nil => intro m d e sg; simp [scanFloat]
  | cons c r ih =>
    intro m d e sg
    simp only [scanFloat]
    split_ifs
    · simpa using ih m d e false
    · simpa using ih true d e false
    · simpa using ih m true e false
    · simpa using ih m d true true
    · simp

theorem extractFloat_reads (F : List Byte → Bool) (s : IStream) (old : FloatVal) :
    Reads s (extractFloat F s old).1 := by
  have hs := sentry_reads s
  have ht := sentry_true s
  unfold extractFloat
  rcases hsn : sentry s with ⟨s1, ok⟩
  rw [hsn] at hs ht
  simp only at hs ht ⊢
  cases ok
  · simpa using hs
  · have hg := ht rfl
    have hsuf : (floatField s1.rest).2 <:+ s1.rest :=
      ⟨(floatField s1.rest).1, scanFloat_split _ _ _ _ _⟩
    simp only [if_true]
    split_ifs
    · exact hs.trans ⟨hsuf, fun _ => hg, rfl⟩
    · exact hs.trans ⟨hsuf, fun h => by simp [IStream.good] at h, rfl⟩

theorem skipLineLoop_reads (n : Nat) : ∀ s : IStream, Reads s (skipLineLoop n s) := by
  induction n with
  | zero => intro s; exact Reads.refl s
  | succ n ih =>
    intro s
    simp only [skipLineLoop]
    split_ifs
    · exact (get_reads s).trans (ih _)
    · exact get_reads s

theorem skipLine_reads (s : IStream) : Reads s (skipLine s) := skipLineLoop_reads _ s

theorem extractInt_of_not_good (s : IStream) (old : Int) (h : s.good = false) :
    (extractInt s old).2 = old ∧ (extractInt s old).1.good = false := by
  have hr := extractInt_reads s old
  refine ⟨?_, hr.not_good h⟩
  simp [extractInt, sentry, h]

theorem dropWhile_head {p : Byte → Bool} (l : List Byte) (t : Byte) (r : List Byte)
    (h : l.dropWhile p = t :: r) : p t = false := by
  induction l with
  | nil => simp at h
  | cons x l ih =>
    by_cases hx : p x = true
    · rw [List.dropWhile_cons_of_pos hx] at h
      exact ih h
    · rw [List.dropWhile_cons_of_neg hx] at h
      simp only [List.cons.injEq] at h
      rw [← h.1]
      simpa using hx

theorem takeWhile_all {p : Byte → Bool} (l : List Byte) : ∀ a ∈ l.takeWhile p, p a = true := by
  intro a ha
  exact (List.mem_takeWhile_imp ha)

/-- A sentry that succeeds has discarded whitespace only, and with `skipws` set
the stream then stands at a byte that is not whitespace. -/
theorem sentry_ok_split (s : IStream) (h : (sentry s).2 = true) :
    ∃ ws, (∀ a ∈ ws, isSpace a = true) ∧ s.rest = ws ++ (sentry s).1.rest ∧
      (s.skipws = true → ∃ t l, (sentry s).1.rest = t :: l ∧ isSpace t = false) := by
  rcases sentry_cases s with ⟨_, e⟩ | ⟨_, hk, e⟩ | ⟨_, _, _, e⟩ | ⟨_, _, hne, e⟩
  · rw [e] at h; simp at h
  · rw [e]
    exact ⟨[], by simp, by simp, fun h2 => by rw [hk] at h2; simp at h2⟩
  · rw [e] at h; simp at h
  · rw [e]
    refine ⟨s.rest.takeWhile isSpace, takeWhile_all _, ?_, fun _ => ?_⟩
    · simp
    · obtain ⟨t, l, htl⟩ := List.exists_cons_of_ne_nil hne
      exact ⟨t, l, htl, dropWhile_head _ _ _ htl⟩

/-- The string extraction, case by case. -/
theorem extractString_cases (s : IStream) (old : List Byte) :
    ((sentry s).2 = false ∧ extractString s old = ((sentry s).1, old)) ∨
    ((sentry s).2 = true ∧
      (sentry s).1.rest = (extractString s old).2 ++ (extractString s old).1.rest ∧
      (∀ a ∈ (extractString s old).2, isSpace a = false) ∧
      ((extractString s old).1.rest = [] ∨
        ∃ d t, (extractString s old).1.rest = d :: t ∧ isSpace d = true) ∧
      ((extractString s old).1.good = true → (extractString s old).1.rest ≠ []) ∧
      ((extractString s old).1.failbit = false → (extractString s old).2 ≠ []) ∧
      ((extractString s old).2 ≠ [] → (extractString s old).1.failbit = false) ∧
      ((extractString s old).1.rest ≠ [] → (extractString s old).1.eofbit = false)) := by
  have ht := sentry_true s
  unfold extractString
  rcases hsn : sentry s with ⟨s1, ok⟩
  rw [hsn] at ht
  simp only at ht ⊢
  cases ok
  · left
    simp
  · right
    have hg := ht rfl
    have hf : s1.failbit = false := by
      simp only [IStream.good, Bool.and_eq_true, Bool.not_eq_true'] at hg
      exact hg.2
    have he : s1.eofbit = false := by
      simp only [IStream.good, Bool.and_eq_true, Bool.not_eq_true'] at hg
      exact hg.1
    have hdrop : s1.rest.dropWhile (fun b => !isSpace b) = [] ∨
        ∃ d t, s1.rest.dropWhile (fun b => !isSpace b) = d :: t ∧ isSpace d = true := by
      cases hq : s1.rest.dropWhile (fun b => !isSpace b) with
      | nil => left; rfl
      | cons d t =>
        right
        refine ⟨d, t, rfl, ?_⟩
        have := dropWhile_head (p := fun b => !isSpace b) _ _ _ hq
        simpa using this
    have htk : ∀ a ∈ s1.rest.takeWhile (fun b => !isSpace b), isSpace a = false := by
      intro a ha
      have := takeWhile_all (p := fun b => !isSpace b) _ a ha
      simpa using this
    simp only [if_true, true_and]
    split_ifs with h1
    · refine ⟨by simp, htk, hdrop, ?_, ?_, ?_, ?_⟩
      · intro h; simp [IStream.good] at h
      · intro h; simp at h
      · intro h
        exfalso
        apply h
        simpa using h1
      · intro h
        simp only [ne_eq] at h
        simp [he, h]
    · refine ⟨by simp, htk, hdrop, ?_, ?_, ?_, ?_⟩
      · intro h
        simp only [IStream.good, Bool.and_eq_true, Bool.not_eq_true', Bool.or_eq_false_iff,
          List.isEmpty_eq_false] at h
        intro hc
        exact h.1.2 hc
      · intro _
        simpa using h1
      · intro _
        exact hf
      · intro h
        simp only [ne_eq] at h
        simp [he, h]

/-! ## One pass of the keyword loop, in general -/

theorem headerBody_line (F : List Byte → Bool) (st : HState) :
    (headerBody F st).line = (extractString st.input st.line).2 := by
  unfold headerBody
  rcases extractString st.input st.line with ⟨i1, line⟩
  simp only
  split_ifs <;> rfl

theorem headerBody_done (F : List Byte → Bool) (st : HState) :
    (headerBody F st).doneReadingHeader =
      (st.doneReadingHeader || decide ((extractString st.input st.line).2 = kwData)) := by
  unfold headerBody
  rcases extractString st.input st.line with ⟨i1, line⟩
  simp only
  split_ifs with h1 <;> simp [h1]

theorem headerBody_data_input (F : List Byte → Bool) (st : HState)
    (h : (extractString st.input st.line).2 = kwData) :
    (headerBody F st).input = (extractString st.input st.line).1 ∧ (headerBody F st).g = st.g := by
  unfold headerBody
  rcases hx : extractString st.input st.line with ⟨i1, line⟩
  rw [hx] at h
  simp only at h
  simp [h]

theorem headerBody_reads (F : List Byte → Bool) (st : HState) :
    Reads (extractString st.input st.line).1 (headerBody F st).input := by
  unfold headerBody
  rcases extractString st.input st.line with ⟨i1, line⟩
  simp only
  split_ifs
  · exact Reads.refl _
  · exact ((extractInt_reads _ _).trans (extractInt_reads _ _)).trans (extractInt_reads _ _)
  · exact ((extractFloat_reads F _ _).trans (extractFloat_reads F _ _)).trans
      (extractFloat_reads F _ _)
  · exact extractFloat_reads F _ _
  · exact skipLine_reads _

theorem headerBody_reads_input (F : List Byte → Bool) (st : HState) :
    Reads st.input (headerBody F st).input :=
  (extractString_reads _ _).trans (headerBody_reads F st)

/-- The pass changes `depth` only when it dispatches `dim` on a good stream. -/
theorem headerBody_depth (F : List Byte → Bool) (st : HState)
    (h : (extractString st.input st.line).2 ≠ kwDim ∨
      (extractString st.input st.line).1.good = false) :
    (headerBody F st).g.depth = st.g.depth := by
  unfold headerBody
  rcases hx : extractString st.input st.line with ⟨i1, line⟩
  rw [hx] at h
  simp only at h ⊢
  split_ifs with h1 h2 h3 h4
  · rfl
  · rcases h with h | h
    · exact absurd h2 h
    · exact (extractInt_of_not_good i1 st.g.depth h).1
  · rfl
  · rfl
  · rfl

/-- A pass on a good stream either leaves the stream not good or consumes input. -/
theorem headerBody_progress (F : List Byte → Bool) (st : HState) :
    (headerBody F st).input.good = false ∨
      (headerBody F st).input.rest.length < st.input.rest.length := by
  have hb := headerBody_reads F st
  rcases extractString_cases st.input st.line with ⟨hs, he⟩ | ⟨hs, h1, _, _, _, h5, _, _⟩
  · left
    apply hb.not_good
    rw [he]
    exact sentry_false _ hs
  · by_cases hf : (extractString st.input st.line).1.failbit = false
    · right
      have hne := h5 hf
      have hlen : (extractString st.input st.line).1.rest.length < (sentry st.input).1.rest.length := by
        rw [h1, List.length_append]
        have := List.length_pos.mpr hne
        omega
      have h2 := (sentry_reads st.input).length_le
      have h3 := hb.length_le
      omega
    · left
      apply hb.not_good
      have : (extractString st.input st.line).1.failbit = true := by simpa using hf
      simp [IStream.good, this]

/-! ## The keyword loop as an iteration -/

/-- The result of the loop is the state after some number of passes, each of
them entered with the guard true, and the guard is false in the result. -/
theorem headerLoop_iterate (F : List Byte → Bool) :
    ∀ (n : Nat) (st r : HState), headerLoop F n st = some r →
      ∃ k, r = (headerBody F)^[k] st ∧ headerGuard r = false ∧
        ∀ j < k, headerGuard ((headerBody F)^[j] st) = true := by
  intro n
  induction n with
  | zero => intro st r h; simp [headerLoop] at h
  | succ n ih =>
    intro st r h
    by_cases hc : headerGuard st = true
    · have hc2 : (st.input.good && !st.doneReadingHeader) = true := hc
      simp only [headerLoop, hc2, if_true] at h
      obtain ⟨k, hk1, hk2, hk3⟩ := ih _ _ h
      refine ⟨k + 1, ?_, hk2, ?_⟩
      · rw [Function.iterate_succ_apply]; exact hk1
      · intro j hj
        cases j with
        | zero => exact hc
        | succ j =>
          rw [Function.iterate_succ_apply]
          exact hk3 j (by omega)
    · have hc2 : (st.input.good && !st.doneReadingHeader) = false := by
        simpa [headerGuard] using hc
      simp only [headerLoop, hc2] at h
      simp only [Bool.false_eq_true, if_false, Option.some.injEq] at h
      refine ⟨0, by simp [h], ?_, by simp⟩
      rw [← h]
      simpa using hc

/-- The keyword loop ends: fuel for every unread byte and two more is enough. -/
theorem headerLoop_total (F : List Byte → Bool) :
    ∀ (n : Nat) (st : HState), st.input.rest.length + 2 ≤ n → ∃ r, headerLoop F n st = some r := by
  intro n
  induction n with
  | zero => intro st h; omega
  | succ n ih =>
    intro st h
    by_cases hg : st.input.good = true ∧ st.doneReadingHeader = false
    · rw [headerLoop_pass F n st hg.1 hg.2]
      rcases headerBody_progress F st with hp | hp
      · obtain ⟨m, rfl⟩ : ∃ m, n = m + 1 := ⟨n - 1, by omega⟩
        exact ⟨_, headerLoop_stop F m _ (Or.inl hp)⟩
      · exact ih _ (by omega)
    · refine ⟨st, headerLoop_stop F n st ?_⟩
      by_cases hg1 : st.input.good = true
      · right
        cases hd : st.doneReadingHeader
        · exact absurd ⟨hg1, hd⟩ hg
        · rfl
      · left
        simpa using hg1

/-- Function `read_header` always returns. -/
theorem read_header_total (F : List Byte → Bool) (g : Globals) (input : IStream) :
    ∃ r, read_header F g input = some r := by
  unfold read_header
  rcases extractString input [] with ⟨i1, line⟩
  simp only
  split_ifs with h
  · exact ⟨_, rfl⟩
  · obtain ⟨r, hr⟩ := headerLoop_total F _ (headerEntry g i1 line) (le_refl _)
    exact ⟨headerResult r, by rw [hr]; rfl⟩

/-! ## What a successful `read_header` has done -/

theorem iterate_reads (F : List Byte → Bool) (st : HState) :
    ∀ k, Reads st.input ((headerBody F)^[k] st).input := by
  intro k
  induction k with
  | zero => exact Reads.refl _
  | succ k ih =>
    rw [Function.iterate_succ_apply']
    exact ih.trans (headerBody_reads_input F _)

/-- The line variable holds `data` only once the loop is done. -/
theorem iterate_line (F : List Byte → Bool) (st : HState)
    (h0 : st.line = kwData → st.doneReadingHeader = true) :
    ∀ k, ((headerBody F)^[k] st).line = kwData →
      ((headerBody F)^[k] st).doneReadingHeader = true := by
  intro k
  induction k with
  | zero => exact h0
  | succ k _ =>
    rw [Function.iterate_succ_apply']
    intro h
    rw [headerBody_line] at h
    rw [headerBody_done]
    simp [h]

theorem passState_zero_of_sig (F : List Byte → Bool) (g : Globals) (input : IStream)
    (h : (extractString input []).2 = sigBinvox) :
    (passState F g input 0).line = sigBinvox ∧
      (passState F g input 0).doneReadingHeader = false ∧
      (passState F g input 0).g.depth = -1 ∧
      Reads input (passState F g input 0).input := by
  unfold passState
  simp only [Function.iterate_zero, id_eq]
  exact ⟨h, rfl, rfl, (extractString_reads input []).trans
    (extractInt_reads (extractString input []).1 g.version)⟩

theorem read_header_eq (F : List Byte → Bool) (g : Globals) (input : IStream) :
    read_header F g input =
      if (extractString input []).2 ≠ sigBinvox then some (false, g, (extractString input []).1)
      else (headerLoop F ((passState F g input 0).input.rest.length + 2)
        (passState F g input 0)).map headerResult := by
  unfold read_header passState
  rcases extractString input [] with ⟨i1, line⟩
  rfl

/-- When `read_header` returns true, some pass of the keyword loop, entered
with the guard true after passes that were all entered with the guard true,
has extracted the token `data` (its sentry succeeded); the variables and the
stream on return are those of that pass right behind the token. -/
theorem read_header_true (F : List Byte → Bool) (g g2 : Globals) (input s2 : IStream)
    (h : read_header F g input = some (true, g2, s2)) :
    (extractString input []).2 = sigBinvox ∧
    ∃ k, headerGuard (passState F g input k) = true ∧
      (sentry (passState F g input k).input).2 = true ∧
      (extractString (passState F g input k).input (passState F g input k).line).2 = kwData ∧
      g2 = (passState F g input k).g ∧
      s2 = (extractString (passState F g input k).input (passState F g input k).line).1 ∧
      g2.depth ≠ -1 ∧
      ∀ j < k, headerGuard (passState F g input j) = true := by
  rw [read_header_eq] at h
  by_cases hsig : (extractString input []).2 = sigBinvox
  · refine ⟨hsig, ?_⟩
    simp only [hsig, ne_eq, not_true_eq_false, if_false] at h
    obtain ⟨h01, h02, _, _⟩ := passState_zero_of_sig F g input hsig
    rcases hl : headerLoop F ((passState F g input 0).input.rest.length + 2)
      (passState F g input 0) with _ | r
    · rw [hl] at h; simp at h
    · rw [hl] at h
      simp only [Option.map_some', Option.some.injEq] at h
      have hdone : r.doneReadingHeader = true ∧ r.g.depth ≠ -1 ∧ g2 = r.g ∧ s2 = r.input := by
        unfold headerResult at h
        split_ifs at h with h1 h2
        · simp at h
        · simp at h
        · simp only [Prod.mk.injEq, true_and] at h
          refine ⟨by simpa using h1, h2, h.1.symm, h.2.symm⟩
      obtain ⟨k, hk1, hk2, hk3⟩ := headerLoop_iterate F _ _ _ hl
      cases k with
      | zero =>
        simp only [Function.iterate_zero, id_eq] at hk1
        rw [hk1, h02] at hdone
        simp at hdone
      | succ k =>
        have hst : (headerBody F)^[k] (passState F g input 0) = passState F g input k := by
          unfold passState
          rw [← Function.iterate_add_apply]
          simp
        have hpass : ∀ j, (headerBody F)^[j] (passState F g input 0) = passState F g input j := by
          intro j
          unfold passState
          rw [← Function.iterate_add_apply]
          simp
        rw [Function.iterate_succ_apply', hst] at hk1
        have hgk : headerGuard (passState F g input k) = true := by
          rw [← hpass k]; exact hk3 k (by omega)
        have hnd : (passState F g input k).doneReadingHeader = false := by
          simp only [headerGuard, Bool.and_eq_true, Bool.not_eq_true'] at hgk
          exact hgk.2
        have hd2 := headerBody_done F (passState F g input k)
        rw [← hk1, hdone.1, hnd] at hd2
        have htok : (extractString (passState F g input k).input
            (passState F g input k).line).2 = kwData := by
          simpa using hd2.symm
        have hline : (passState F g input k).line ≠ kwData := by
          intro hc
          have := iterate_line F (passState F g input 0)
            (fun hq => by rw [h01] at hq; exact absurd hq (by decide)) k
          rw [hpass k] at this
          rw [this hc] at hnd
          simp at hnd
        have hsen : (sentry (passState F g input k).input).2 = true := by
          rcases extractString_cases (passState F g input k).input (passState F g input k).line
            with ⟨_, he⟩ | ⟨hs, _⟩
          · rw [he] at htok
            exact absurd htok hline
          · exact hs
        have hbi := headerBody_data_input F (passState F g input k) htok
        refine ⟨k, hgk, hsen, htok, ?_, ?_, by rw [hdone.2.2.1]; exact hdone.2.1, ?_⟩
        · rw [hdone.2.2.1, hk1, hbi.2]
        · rw [hdone.2.2.2, hk1, hbi.1]
        · intro j hj
          rw [← hpass j]
          exact hk3 j (by omega)
  · simp only [ne_eq, hsig, not_false_eq_true, if_true, Option.some.injEq, Prod.mk.injEq] at h
    simp at h

theorem passState_add (F : List Byte → Bool) (g : Globals) (input : IStream) (j k : Nat) :
    passState F g input (j + k) = (headerBody F)^[k] (passState F g input j) := by
  unfold passState
  rw [← Function.iterate_add_apply, Nat.add_comm]

theorem passState_succ (F : List Byte → Bool) (g : Globals) (input : IStream) (j : Nat) :
    passState F g input (j + 1) = headerBody F (passState F g input j) := by
  rw [passState_add]
  rfl

/-- Once the guard is false it stays false, however often the body were run. -/
theorem headerGuard_persist (F : List Byte → Bool) (st : HState) (h : headerGuard st = false) :
    ∀ k, headerGuard ((headerBody F)^[k] st) = false := by
  intro k
  induction k with
  | zero => exact h
  | succ k ih =>
    rw [Function.iterate_succ_apply']
    have hr := headerBody_reads_input F ((headerBody F)^[k] st)
    have hd := headerBody_done F ((headerBody F)^[k] st)
    simp only [headerGuard, Bool.and_eq_false_iff, Bool.not_eq_false'] at ih ⊢
    rcases ih with ih | ih
    · left
      exact hr.not_good ih
    · right
      rw [hd, ih]
      rfl

theorem readsToken_guard (st : HState) (tok : List Byte) (h : headerGuard st = false) :
    readsToken st tok = false := by
  unfold readsToken
  unfold headerGuard at h
  rw [h]
  rfl

/-- From some pass on no token is read any more, when the guard is false there. -/
theorem readsToken_after (F : List Byte → Bool) (g : Globals) (input : IStream) (j : Nat)
    (tok : List Byte) (h : headerGuard (passState F g input j) = false) :
    ∀ k, j ≤ k → readsToken (passState F g input k) tok = false := by
  intro k hk
  obtain ⟨m, rfl⟩ := Nat.exists_eq_add_of_le hk
  rw [passState_add]
  exact readsToken_guard _ _ (headerGuard_persist F _ h m)

/-- As long as no pass reads `dim`, `depth` keeps the value `-1` it was given
before the loop. -/
theorem depth_unset (F : List Byte → Bool) (g : Globals) (input : IStream)
    (hsig : (extractString input []).2 = sigBinvox) (k : Nat)
    (hg : ∀ j < k, headerGuard (passState F g input j) = true)
    (hr : ∀ j < k, readsToken (passState F g input j) kwDim = false) :
    (passState F g input k).g.depth = -1 := by
  induction k with
  | zero => exact (passState_zero_of_sig F g input hsig).2.2.1
  | succ k ih =>
    have h1 := ih (fun j hj => hg j (by omega)) (fun j hj => hr j (by omega))
    have h2 := hg k (by omega)
    have h3 := hr k (by omega)
    rw [passState_succ, headerBody_depth, h1]
    unfold readsToken at h3
    unfold headerGuard at h2
    rw [h2] at h3
    simp only [Bool.true_and, Bool.and_eq_false_iff, beq_eq_false_iff_ne, ne_eq] at h3
    rcases h3 with h3 | h3
    · right
      rcases extractString_cases (passState F g input k).input (passState F g input k).line
        with ⟨hs, he⟩ | ⟨hs, _⟩
      · rw [he]
        exact sentry_false _ hs
      · rw [hs] at h3
        simp at h3
    · left
      exact h3

/-! ## Properties of `read_header` -/

/-- C5 (truncated header is a failure): if no pass of the keyword loop reads
the token `data` (a pass reads a token when it is entered with the guard true
and its string extraction succeeds), then `read_header` returns false.  This
covers a stream that ends, and a read that fails, before `data`; a failed read
that leaves a stale keyword in `line` to be dispatched again is not a read of a
token. -/
theorem truncated_header_fails (F : List Byte → Bool) (g : Globals) (input : IStream)
    (h : ∀ k, readsToken (passState F g input k) kwData = false) :
    ∃ g2 s2, read_header F g input = some (false, g2, s2) := by
  obtain ⟨⟨b, g2, s2⟩, hr⟩ := read_header_total F g input
  cases b
  · exact ⟨g2, s2, hr⟩
  · obtain ⟨_, k, hk1, hk2, hk3, _⟩ := read_header_true F g g2 input s2 hr
    have := h k
    unfold readsToken at this
    unfold headerGuard at hk1
    rw [hk1, hk2, hk3] at this
    simp at this

/-- C5 witness: the text `#binvox 1`, `dim 1 2 3` ends behind the `dim` line.
The next read of a token fails at the end of the input and leaves the stale
`dim` in `line`; `read_header` returns false. -/
theorem truncated_header_fails_witness :
    ∃ g2 s2, read_header (fun _ => true) Globals.initial
      (IStream.ofBytes (sigBinvox ++ [32, 49, 10] ++ kwDim ++ [32, 49, 32, 50, 32, 51, 10])) =
        some (false, g2, s2) :=
  truncated_header_fails (fun _ => true) Globals.initial
    (IStream.ofBytes (sigBinvox ++ [32, 49, 10] ++ kwDim ++ [32, 49, 32, 50, 32, 51, 10]))
    (fun k => by
      rcases k with _ | _ | k
      · decide
      · decide
      · exact readsToken_after _ _ _ 2 _ (by decide) (k + 1 + 1) (by omega))

/-- C6 (missing dimensions is a failure): if no pass of the keyword loop reads
the token `dim`, then `read_header` returns false, whatever the variables held
before the call. -/
theorem missing_dimensions_fails (F : List Byte → Bool) (g : Globals) (input : IStream)
    (h : ∀ k, readsToken (passState F g input k) kwDim = false) :
    ∃ g2 s2, read_header F g input = some (false, g2, s2) := by
  obtain ⟨⟨b, g2, s2⟩, hr⟩ := read_header_total F g input
  cases b
  · exact ⟨g2, s2, hr⟩
  · obtain ⟨hsig, k, _, _, _, hk4, _, hk6, hk7⟩ := read_header_true F g g2 input s2 hr
    have := depth_unset F g input hsig k hk7 (fun j _ => h j)
    rw [hk4] at hk6
    exact absurd this hk6

/-- C6 witness: `#binvox 1`, `data` with the dimensions 5, 5, 5 left in the
variables by an earlier call. -/
theorem missing_dimensions_fails_witness :
    ∃ g2 s2, read_header (fun _ => true)
      { Globals.initial with depth := 5, height := 5, width := 5 }
      (IStream.ofBytes (sigBinvox ++ [32, 49, 10] ++ kwData ++ [10])) = some (false, g2, s2) :=
  missing_dimensions_fails (fun _ => true)
    { Globals.initial with depth := 5, height := 5, width := 5 }
    (IStream.ofBytes (sigBinvox ++ [32, 49, 10] ++ kwData ++ [10]))
    (fun k => by
      rcases k with _ | k
      · decide
      · exact readsToken_after _ _ _ 1 _ (by decide) (k + 1) (by omega))

/-- C7 (bad signature is a failure): if the first whitespace-delimited token of
the file is not exactly `#binvox`, then `read_header` returns false with every
variable unchanged, and the stream stands right behind that first token:
nothing further has been read. -/
theorem bad_signature_fails (F : List Byte → Bool) (g : Globals) (bs : List Byte)
    (h : firstToken bs ≠ sigBinvox) :
    ∃ s2, read_header F g (IStream.ofBytes bs) = some (false, g, s2) ∧
      s2.rest = afterFirstToken bs := by
  rw [read_header_eq]
  have hx : (extractString (IStream.ofBytes bs) []).2 = firstToken bs ∧
      (extractString (IStream.ofBytes bs) []).1.rest = afterFirstToken bs := by
    unfold firstToken afterFirstToken
    cases hd : bs.dropWhile isSpace with
    | nil => simp [extractString, sentry, IStream.ofBytes, IStream.good, hd]
    | cons t l =>
      simp only [extractString, sentry, IStream.ofBytes, IStream.good, hd]
      simp only [Bool.not_false, Bool.and_self, if_true, List.isEmpty_cons, Bool.false_eq_true,
        if_false]
      split_ifs <;> simp
  rw [hx.1]
  simp only [ne_eq, h, not_false_eq_true, if_true]
  exact ⟨_, rfl, hx.2⟩

/-- C7 witness: the token `#binvox2` merely starts with the signature. -/
theorem bad_signature_fails_witness :
    ∃ s2, read_header (fun _ => true) Globals.initial
        (IStream.ofBytes (sigBinvox ++ [50, 32, 49, 10])) = some (false, Globals.initial, s2) ∧
      s2.rest = afterFirstToken (sigBinvox ++ [50, 32, 49, 10]) :=
  bad_signature_fails (fun _ => true) Globals.initial (sigBinvox ++ [50, 32, 49, 10]) (by decide)

/-- C9 (header field extraction): on the text `#binvox v`, `dim a b c`, `data`
and a newline, with `v`, `a`, `b`, `c` in the range of `int` and `a` not `-1`,
`read_header` returns true and leaves `version = v`, `depth = a`, `height = b`,
`width = c`; the stream is good and stands at the newline behind `data`. -/
theorem header_field_extraction (F : List Byte → Bool) (g : Globals) (v a b c : Int)
    (hv : -2147483648 ≤ v ∧ v ≤ 2147483647)
    (ha : -2147483648 ≤ a ∧ a ≤ 2147483647) (hb : -2147483648 ≤ b ∧ b ≤ 2147483647)
    (hc : -2147483648 ≤ c ∧ c ≤ 2147483647) (hne : a ≠ -1) :
    read_header F g (IStream.ofBytes (headerText v a b c ++ [10])) =
      some (true, { g with version := v, depth := a, height := b, width := c },
        ⟨[10], false, false, true⟩) := by
  rw [read_header_plain F g v a b c 10 [] isSpace_10 hv ha hb hc]
  simp [hne]

/-- C9 witness: `#binvox 1`, `dim 2 3 4`, `data`. -/
theorem header_field_extraction_witness :
    read_header (fun _ => true) Globals.initial
        (IStream.ofBytes (headerText 1 2 3 4 ++ [10])) =
      some (true, { Globals.initial with version := 1, depth := 2, height := 3, width := 4 },
        ⟨[10], false, false, true⟩) :=
  header_field_extraction (fun _ => true) Globals.initial 1 2 3 4 (by decide) (by decide)
    (by decide) (by decide) (by decide)

/-- C10, the claim refuted: on `#binvox 1`, `dim 1 1 1`, `data`, a newline and
the payload byte 7, `read_header` returns true with the stream standing at the
newline: the unread bytes are the newline and the 7, not the 7 alone. -/
theorem cursor_after_newline_refuted :
    read_header (fun _ => true) Globals.initial
        (IStream.ofBytes (headerText 1 1 1 1 ++ [10, 7])) =
      some (true, { Globals.initial with version := 1, depth := 1, height := 1, width := 1 },
        ⟨[10, 7], false, false, true⟩) ∧
    ([10, 7] : List Byte) ≠ [7] := by
  constructor
  · rfl
  · decide

/-- C10 as amended (stream position after the header): when `read_header`
returns true, the bytes read so far end with the token `data` and the stream
stands right behind that token, still skipping whitespace and without
`failbit`.  When the next byte is a newline the stream is good, and the one
byte that `read_binvox` extracts after unsetting `skipws` is that newline, which
leaves the stream at the first payload byte. -/
theorem cursor_after_data_token (F : List Byte → Bool) (g g2 : Globals) (bs : List Byte)
    (s2 : IStream) (h : read_header F g (IStream.ofBytes bs) = some (true, g2, s2)) :
    (∃ pre, bs = pre ++ kwData ++ s2.rest) ∧ s2.skipws = true ∧ s2.failbit = false ∧
    ∀ p, s2.rest = 10 :: p →
      s2 = ⟨10 :: p, false, false, true⟩ ∧
      extractByte s2.unsetSkipws 0 = (⟨p, false, false, false⟩, 10) := by
  obtain ⟨hsig, k, _, hk2, hk3, _, hk5, _, _⟩ := read_header_true F g g2 _ s2 h
  have hr0 := (passState_zero_of_sig F g _ hsig).2.2.2
  have hrk : Reads (IStream.ofBytes bs) (passState F g (IStream.ofBytes bs) k).input := by
    have := iterate_reads F (passState F g (IStream.ofBytes bs) 0) k
    rw [← passState_add, Nat.zero_add] at this
    exact hr0.trans this
  obtain ⟨ws, _, hws, _⟩ := sentry_ok_split _ hk2
  rcases extractString_cases (passState F g (IStream.ofBytes bs) k).input
      (passState F g (IStream.ofBytes bs) k).line with ⟨hs, _⟩ | ⟨_, h1, _, _, _, _, h6, h7⟩
  · rw [hs] at hk2
    simp at hk2
  · rw [hk3, ← hk5] at h1
    rw [hk3, ← hk5] at h6
    rw [← hk5] at h7
    have hsk : s2.skipws = true := by
      have h2 := (extractString_reads (passState F g (IStream.ofBytes bs) k).input
        (passState F g (IStream.ofBytes bs) k).line)
      rw [← hk5] at h2
      rw [h2.2.2, hrk.2.2]
      rfl
    have hfail : s2.failbit = false := h6 kw_ne_nil.2.1
    refine ⟨?_, hsk, hfail, ?_⟩
    · obtain ⟨pre0, hpre⟩ := hrk.1
      refine ⟨pre0 ++ ws, ?_⟩
      have : (IStream.ofBytes bs).rest = bs := rfl
      rw [this] at hpre
      rw [← hpre, hws, h1]
      simp
    · intro p hp
      have heof : s2.eofbit = false := h7 (by rw [hp]; simp)
      obtain ⟨rest, eof, fail, sk⟩ := s2
      simp only at hp hsk hfail heof
      subst hp hsk hfail heof
      exact ⟨rfl, rfl⟩

/-- C10 witness: after the header of the file `#binvox 1`, `dim 1 1 1`, `data`,
newline, 7, the consumed bytes end with `data`. -/
theorem cursor_after_data_token_witness :
    (∃ pre, headerText 1 1 1 1 ++ [10, 7] =
      pre ++ kwData ++ (IStream.mk [10, 7] false false true).rest) ∧
    (IStream.mk [10, 7] false false true).skipws = true ∧
    (IStream.mk [10, 7] false false true).failbit = false ∧
    ∀ p, (IStream.mk [10, 7] false false true).rest = 10 :: p →
      IStream.mk [10, 7] false false true = ⟨10 :: p, false, false, true⟩ ∧
      extractByte (IStream.mk [10, 7] false false true).unsetSkipws 0 =
        (⟨p, false, false, false⟩, 10) :=
  cursor_after_data_token (fun _ => true) Globals.initial
    { Globals.initial with version := 1, depth := 1, height := 1, width := 1 }
    (headerText 1 1 1 1 ++ [10, 7]) ⟨[10, 7], false, false, true⟩ (by rfl)

/-! ## Properties of the payload decoder -/

/-- The start of the decode stage: `skipws` is unset and one byte is read. -/
theorem decodePayload_start (G : Int) (buf : List (Option Byte)) (lead : Byte)
    (body : List Byte) (sk : Bool) :
    decodePayload G buf ⟨lead :: body, false, false, sk⟩ =
      decodeLoop G (body.length + 2)
        { input := ⟨body, false, false, false⟩, voxels := buf, value := lead, count := 0,
          index := 0, end_index := 0, nr_voxels := 0, writes := [] } := by
  simp [decodePayload, extractByte, sentry, IStream.unsetSkipws, IStream.good]

/-- The decode stage on pairs that fill the grid exactly, followed by anything. -/
theorem decodePayload_fills (G : Int) (hG : G ≤ 2147483647) (buf : List (Option Byte))
    (lead : Byte) (ps : List (Byte × Byte)) (tail : List Byte) (sk : Bool)
    (hbuf : (buf.length : Int) = G) (hexp : (expand ps).length = buf.length) :
    ∃ st, decodePayload G buf ⟨lead :: (encode ps ++ tail), false, false, sk⟩ = some (Exit.ret true, st) ∧
      st.voxels = (expand ps).map some ∧ st.index = G ∧
      st.nr_voxels = (countNonzero (expand ps) : Int) ∧
      st.writes = indexRun 0 buf.length ∧ st.input.good = true := by
  rw [decodePayload_start]
  obtain ⟨st, h1, h2, h3, _, h5, h6, h7, _⟩ :=
    decodeLoop_fills G hG ps ((encode ps ++ tail).length + 2) [] buf tail
      { input := ⟨encode ps ++ tail, false, false, false⟩, voxels := buf, value := lead,
        count := 0, index := 0, end_index := 0, nr_voxels := 0, writes := [] }
      rfl rfl rfl rfl rfl rfl hexp.symm (by simpa using hbuf) (le_refl _) (le_refl _)
      (by rw [List.length_append, encode_length]; omega)
  refine ⟨st, h1, by simpa using h2, h3, by simpa using h5, by simpa using h6, h7⟩

/-- C1 (round trip of the payload decoder): for a grid `g` whose length fits
the `int` grid size, any run-length pairs `ps` that expand to `g`, and a buffer
of the grid size, decoding one leading byte followed by the pairs returns true
and leaves the buffer equal to `g` byte for byte: its length is the grid size
and every value byte is stored as it is. -/
theorem payload_round_trip (g : List Byte) (ps : List (Byte × Byte)) (lead : Byte)
    (buf : List (Option Byte)) (sk : Bool) (hn : (g.length : Int) ≤ INT_MAX)
    (hbuf : buf.length = g.length) (hexp : expand ps = g) :
    ∃ st, decodePayload (g.length : Int) buf ⟨lead :: encode ps, false, false, sk⟩ =
        some (Exit.ret true, st) ∧
      st.voxels = g.map some ∧ st.voxels.length = g.length ∧ st.index = (g.length : Int) := by
  obtain ⟨st, h1, h2, h3, _⟩ := decodePayload_fills (g.length : Int) hn buf lead ps [] sk
    (by rw [hbuf]) (by rw [hexp, hbuf])
  rw [List.append_nil] at h1
  refine ⟨st, h1, ?_, ?_, h3⟩
  · rw [h2, hexp]
  · rw [h2, hexp, List.length_map]

/-- C1 witness: the grid 7, 7, 7 encoded as the single pair (7, 3); the value 7
is stored as 7, not as 1. -/
theorem payload_round_trip_witness :
    ∃ st, decodePayload 3 [none, none, none] ⟨10 :: encode [(7, 3)], false, false, true⟩ =
        some (Exit.ret true, st) ∧
      st.voxels = [some 7, some 7, some 7] ∧ st.voxels.length = 3 ∧ st.index = 3 :=
  payload_round_trip [7, 7, 7] [(7, 3)] 10 [none, none, none] true (by decide) rfl rfl

/-- On a stream that ends before the next pair is complete the decode loop
stops with `true`; the filled index stays where it was. -/
theorem decodeLoop_input_ends (G : Int) (n : Nat) (st : DState) (tail : List Byte)
    (hgood : st.input.good = true) (hsk : st.input.skipws = false)
    (hrest : st.input.rest = tail) (htail : tail.length ≤ 1) :
    ∃ st2, decodeLoop G (n + 2) st = some (Exit.ret true, st2) ∧ st2.index = st.index ∧
      st2.voxels = st.voxels ∧ st2.writes = st.writes := by
  have he : st.input.eofbit = false := by
    simp only [IStream.good, Bool.and_eq_true, Bool.not_eq_true'] at hgood
    exact hgood.1
  have hf : st.input.failbit = false := by
    simp only [IStream.good, Bool.and_eq_true, Bool.not_eq_true'] at hgood
    exact hgood.2
  by_cases hlt : st.end_index < G
  · match tail, htail with
    | [], _ =>
      refine ⟨{ st with input := ⟨[], true, true, false⟩ }, ?_, rfl, rfl, rfl⟩
      simp [decodeLoop, extractByte, sentry, IStream.good, he, hf, hsk, hlt, hrest]
    | [v], _ =>
      refine ⟨{ st with input := ⟨[], true, true, false⟩, value := v }, ?_, rfl, rfl, rfl⟩
      simp [decodeLoop, extractByte, sentry, IStream.good, he, hf, hsk, hlt, hrest]
  · refine ⟨st, ?_, rfl, rfl, rfl⟩
    simp [decodeLoop, hlt]

/-- A truncated payload is accepted: when the input ends (possibly on a lone
value byte) behind runs that stop short of the grid end, the decode stage
returns true with the filled index below the grid size and the buffer
untouched from that index on. -/
theorem truncated_payload_accepted (G : Int) (hG : G ≤ 2147483647) (buf : List (Option Byte))
    (lead : Byte) (ps : List (Byte × Byte)) (tail : List Byte) (sk : Bool)
    (hbuf : (buf.length : Int) = G) (hlt : (expand ps).length < buf.length)
    (htail : tail.length ≤ 1) :
    ∃ st, decodePayload G buf ⟨lead :: (encode ps ++ tail), false, false, sk⟩ = some (Exit.ret true, st) ∧
      st.index = ((expand ps).length : Int) ∧ st.index < G ∧
      st.voxels = (expand ps).map some ++ buf.drop (expand ps).length := by
  rw [decodePayload_start]
  have hfuel : (encode ps ++ tail).length + 2 = ps.length + ((ps.length + tail.length) + 2) := by
    rw [List.length_append, encode_length]
    omega
  rw [hfuel]
  obtain ⟨st2, h1, h2, h3, h4, h5, h6, h7⟩ :=
    decodeLoop_runs G hG ps ((ps.length + tail.length) + 2) [] buf tail
      { input := ⟨encode ps ++ tail, false, false, false⟩, voxels := buf, value := lead,
        count := 0, index := 0, end_index := 0, nr_voxels := 0, writes := [] }
      rfl rfl rfl rfl rfl rfl hlt (by simpa using hbuf) (le_refl _) (le_refl _)
  rw [h1]
  simp only [List.length_nil, Nat.cast_zero, zero_add, List.nil_append] at h2 h3 h4 h5 h6 h7
  obtain ⟨st3, e1, e2, e3, _⟩ := decodeLoop_input_ends G (ps.length + tail.length) st2 tail
    (by rw [h2]; rfl) (by rw [h2]) (by rw [h2]) htail
  refine ⟨st3, e1, by rw [e2, h4], ?_, by rw [e3, h3]⟩
  rw [e2, h4, ← hbuf]
  exact_mod_cast hlt

/-- C2, the code at two truncated files.  The file `#binvox 1`, `dim 2 2 2`,
`data` with the payload 1, 4 fills 4 of 8 voxels and then ends; the file
`#binvox 1`, `dim 1 1 1`, `data` with the payload 1 ends on a lone value byte.
In both cases `read_binvox` returns true with the filled index below the grid
size and voxels left indeterminate. -/
theorem truncated_payload_returns_true :
    (∃ g2 st, read_binvox (fun _ => true) Globals.initial (headerText 1 2 2 2 ++ [10, 1, 4]) =
        Outcome.returned true g2 (some st) ∧
      g2.gridsize = 8 ∧ st.index = 4 ∧
      g2.voxels = [some 1, some 1, some 1, some 1, none, none, none, none]) ∧
    (∃ g2 st, read_binvox (fun _ => true) Globals.initial (headerText 1 1 1 1 ++ [10, 1]) =
        Outcome.returned true g2 (some st) ∧
      g2.gridsize = 1 ∧ st.index = 0 ∧ g2.voxels = [none]) :=
  ⟨⟨_, _, rfl, rfl, rfl, rfl⟩, ⟨_, _, rfl, rfl, rfl, rfl⟩⟩

/-- A run that would pass the end of the grid is rejected as long as the sum of
the filled index and the count fits an `int`: the decode stage returns false at
that pair, the buffer holds the runs before it and is untouched from the
filled index on, no index is written for the pair, and the stream stands right
behind the pair. -/
theorem run_overflow_rejected (G : Int) (buf : List (Option Byte)) (lead v c : Byte)
    (ps : List (Byte × Byte)) (tail : List Byte) (sk : Bool)
    (hbuf : (buf.length : Int) = G) (hlt : (expand ps).length < buf.length)
    (hov : buf.length < (expand ps).length + c.val)
    (hfit : ((expand ps).length : Int) + (c.val : Int) ≤ 2147483647) :
    ∃ st, decodePayload G buf ⟨lead :: (encode ps ++ v :: c :: tail), false, false, sk⟩ =
        some (Exit.ret false, st) ∧
      st.voxels = (expand ps).map some ++ buf.drop (expand ps).length ∧
      st.index = ((expand ps).length : Int) ∧
      st.writes = indexRun 0 (expand ps).length ∧
      st.input.rest = tail := by
  have hG : G ≤ 2147483647 := by omega
  rw [decodePayload_start]
  have hfuel : (encode ps ++ v :: c :: tail).length + 2 = ps.length + (ps.length + tail.length + 3 + 1) := by
    rw [List.length_append, encode_length]
    simp only [List.length_cons]
    omega
  rw [hfuel]
  obtain ⟨st2, h1, h2, h3, h4, h5, h6, h7⟩ :=
    decodeLoop_runs G hG ps (ps.length + tail.length + 3 + 1) [] buf (v :: c :: tail)
      { input := ⟨encode ps ++ v :: c :: tail, false, false, false⟩, voxels := buf, value := lead,
        count := 0, index := 0, end_index := 0, nr_voxels := 0, writes := [] }
      rfl rfl rfl rfl rfl rfl hlt (by simpa using hbuf) (le_refl _) (le_refl _)
  rw [h1]
  simp only [List.length_nil, Nat.cast_zero, zero_add, List.nil_append] at h2 h3 h4 h5 h6 h7
  have hgood : st2.input.good = true := by rw [h2]; rfl
  have hsk : st2.input.skipws = false := by rw [h2]
  have hrest : st2.input.rest = v :: c :: tail := by rw [h2]
  have hlt2 : st2.end_index < G := by
    rw [h5, h4, ← hbuf]
    exact_mod_cast hlt
  rw [decodeLoop_pair G _ st2 v c tail hgood hsk hrest hlt2]
  have hw : wrap32 (st2.index + (c.val : Int)) = st2.index + (c.val : Int) := by
    apply wrap32_of_range
    · rw [h4]; omega
    · rw [h4]; exact hfit
  have hgt : st2.index + (c.val : Int) > G := by
    rw [h4, ← hbuf]
    have : ((buf.length : Nat) : Int) < (((expand ps).length + c.val : Nat) : Int) := by
      exact_mod_cast hov
    push_cast at this
    omega
  rw [hw, if_pos hgt]
  refine ⟨_, rfl, h3, h4, h7, ?_⟩
  simp [h2]

/-- The example of the specification: the payload 1, 5, 0, 1 against a grid of
4 voxels is rejected at the first pair; nothing is written and the second pair
is left unread. -/
theorem run_overflow_rejected_example :
    ∃ st, decodePayload 4 [none, none, none, none] ⟨[10, 1, 5, 0, 1], false, false, true⟩ =
        some (Exit.ret false, st) ∧
      st.voxels = [none, none, none, none] ∧ st.index = 0 ∧ st.writes = [] ∧
      st.input.rest = [0, 1] :=
  run_overflow_rejected 4 [none, none, none, none] 10 1 5 [] [0, 1] true rfl (by decide)
    (by decide) (by decide)

theorem expand_replicate_length (k : Nat) (v c : Byte) :
    (expand (List.replicate k (v, c))).length = k * c.val := by
  induction k with
  | zero => simp [expand]
  | succ k ih =>
    rw [List.replicate_succ, expand_length_cons, ih]
    simp only
    ring

/-- Function `read_binvox` behind a header that was read and gives a grid size
that is not negative: the buffer is allocated and the decode stage runs. -/
theorem read_binvox_of_header (F : List Byte → Bool) (g g1 : Globals) (file : List Byte)
    (input : IStream) (G : Int)
    (hh : read_header F g (IStream.ofBytes file) = some (true, g1, input))
    (hG : wrap32 (wrap32 (g1.width * g1.height) * g1.depth) = G) (h0 : 0 ≤ G) :
    read_binvox F g file =
      match decodePayload G (List.replicate G.toNat none) input with
      | none => Outcome.stuck
      | some (Exit.ret ret, st) =>
        Outcome.returned ret { g1 with gridsize := G, voxels := st.voxels } (some st)
      | some (Exit.storeFault i, st) =>
        Outcome.storeFault i { g1 with gridsize := G, voxels := st.voxels } st := by
  unfold read_binvox
  rw [hh]
  simp only [hG, not_lt.mpr h0, if_false]

/-- A pair whose count carries the sum of filled index and count past the
largest `int` is not rejected: the sum wraps to a negative number, the test
against the grid size passes, nothing is written, and the wrapped sum becomes
the filled index.  If the input ends there the decode stage returns true. -/
theorem decodeLoop_wrapped_run (G : Int) (n : Nat) (st : DState) (v c : Byte)
    (hgood : st.input.good = true) (hsk : st.input.skipws = false)
    (hrest : st.input.rest = [v, c]) (hend : st.end_index = st.index)
    (hlt : st.index < G) (hw : wrap32 (st.index + (c.val : Int)) < st.index) :
    ∃ st2, decodeLoop G (n + 3) st = some (Exit.ret true, st2) ∧
      st2.index = wrap32 (st.index + (c.val : Int)) ∧ st2.voxels = st.voxels ∧
      st2.writes = st.writes ∧ st2.input.rest = [] := by
  have hlt2 : st.end_index < G := by rw [hend]; exact hlt
  have hnot : ¬ (wrap32 (st.index + (c.val : Int)) > G) := by omega
  have hk : (wrap32 (st.index + (c.val : Int)) - st.index).toNat = 0 := by
    apply Int.toNat_eq_zero.mpr
    omega
  have hlt3 : wrap32 (st.index + (c.val : Int)) < G := by omega
  have he : st.input.eofbit = false := by
    simp only [IStream.good, Bool.and_eq_true, Bool.not_eq_true'] at hgood
    exact hgood.1
  have hf : st.input.failbit = false := by
    simp only [IStream.good, Bool.and_eq_true, Bool.not_eq_true'] at hgood
    exact hgood.2
  rw [decodeLoop_pair G (n + 2) st v c [] hgood hsk hrest hlt2, if_neg hnot, hk]
  simp only [fillRun]
  refine ⟨{ input := ⟨[], true, true, false⟩, voxels := st.voxels, value := v, count := c,
            index := wrap32 (st.index + (c.val : Int)),
            end_index := wrap32 (st.index + (c.val : Int)),
            nr_voxels := if v ≠ 0 then wrap32 (st.nr_voxels + (c.val : Int)) else st.nr_voxels,
            writes := st.writes }, ?_, rfl, rfl, rfl, rfl⟩
  simp [decodeLoop, extractByte, sentry, IStream.good, he, hf, hsk, hlt3]

/-- The decode stage on runs that stop short of the grid end, followed by a
last pair whose count wraps the filled index: it returns true. -/
theorem decodePayload_wrapped_run (G : Int) (hG : G ≤ 2147483647) (buf : List (Option Byte))
    (lead v c : Byte) (ps : List (Byte × Byte)) (sk : Bool)
    (hbuf : (buf.length : Int) = G) (hlt : (expand ps).length < buf.length)
    (hw : wrap32 (((expand ps).length : Int) + (c.val : Int)) < ((expand ps).length : Int)) :
    ∃ st, decodePayload G buf ⟨lead :: (encode ps ++ [v, c]), false, false, sk⟩ =
        some (Exit.ret true, st) ∧
      st.index = wrap32 (((expand ps).length : Int) + (c.val : Int)) ∧ st.input.rest = [] := by
  rw [decodePayload_start]
  have hfuel : (encode ps ++ [v, c]).length + 2 = ps.length + (ps.length + 1 + 3) := by
    rw [List.length_append, encode_length]
    simp only [List.length_cons, List.length_nil]
    omega
  rw [hfuel]
  obtain ⟨st2, h1, h2, h3, h4, h5, h6, h7⟩ :=
    decodeLoop_runs G hG ps (ps.length + 1 + 3) [] buf [v, c]
      { input := ⟨encode ps ++ [v, c], false, false, false⟩, voxels := buf, value := lead,
        count := 0, index := 0, end_index := 0, nr_voxels := 0, writes := [] }
      rfl rfl rfl rfl rfl rfl hlt (by simpa using hbuf) (le_refl _) (le_refl _)
  rw [h1]
  simp only [List.length_nil, Nat.cast_zero, zero_add, List.nil_append] at h2 h3 h4 h5 h6 h7
  have hgood : st2.input.good = true := by rw [h2]; rfl
  have hsk : st2.input.skipws = false := by rw [h2]
  have hrest : st2.input.rest = [v, c] := by rw [h2]
  have hlt2 : st2.index < G := by
    rw [h4, ← hbuf]
    exact_mod_cast hlt
  obtain ⟨st3, e1, e2, _, _, e5⟩ := decodeLoop_wrapped_run G (ps.length + 1) st2 v c hgood hsk
    hrest h5 hlt2 (by rw [h4]; exact hw)
  exact ⟨st3, e1, by rw [e2, h4], e5⟩

/-- C3, the code at a grid of the largest size.  The file `#binvox 1`,
`dim 2147483647 1 1`, `data` holds 8421504 pairs (1, 255), which fill the
indices below 2147483520, and then one more pair (1, 255).  For that pair the
sum 2147483520 + 255 is above the grid size 2147483647, but in `int` it wraps to
-2147483521; the run is not rejected and `read_binvox` returns true with the
filled index negative. -/
theorem run_overflow_wraps :
    ∃ g2 st, read_binvox (fun _ => true) Globals.initial
        (headerText 1 2147483647 1 1 ++
          10 :: (encode (List.replicate 8421504 (1, 255)) ++ [1, 255])) =
        Outcome.returned true g2 (some st) ∧
      g2.gridsize = 2147483647 ∧ st.index = -2147483521 ∧ st.input.rest = [] := by
  have hh := read_header_plain (fun _ => true) Globals.initial 1 2147483647 1 1 10
    (encode (List.replicate 8421504 (1, 255)) ++ [1, 255]) isSpace_10
    (by decide) (by decide) (by decide) (by decide)
  have hd : decide ((2147483647 : Int) ≠ -1) = true := by decide
  rw [hd] at hh
  have hG : wrap32 (wrap32 ((1 : Int) * 1) * 2147483647) = 2147483647 := by decide
  have hlen : (expand (List.replicate 8421504 ((1 : Byte), (255 : Byte)))).length = 2147483520 := by
    rw [expand_replicate_length]
    rfl
  have h255 : (((255 : Byte).val : Nat) : Int) = 255 := by decide
  obtain ⟨st, e1, e2, e3⟩ := decodePayload_wrapped_run 2147483647 (le_refl _)
    (List.replicate (Int.toNat 2147483647) none) 10 1 255 (List.replicate 8421504 (1, 255)) true
    (by rw [List.length_replicate]; rfl)
    (by rw [List.length_replicate, hlen]; decide)
    (by rw [hlen, h255]; decide)
  rw [read_binvox_of_header _ _ _ _ _ 2147483647 hh hG (by decide), e1]
  refine ⟨_, _, rfl, rfl, ?_, e3⟩
  rw [e2, hlen, h255]
  decide

/-! ## Unknown keywords -/

/-- C8, the claim refuted for an integer outside the range of `int`: on
`#binvox 1`, `foo 1 2 3`, `dim 2147483648 1 1`, `data` the extraction of the
depth fails and `read_header` returns false. -/
theorem unknown_keyword_big_dim_fails :
    ∃ g2 s2, read_header (fun _ => true) Globals.initial
        (IStream.ofBytes (unknownText [102, 111, 111] [49, 32, 50, 32, 51] 2147483648 1 1 ++ [10])) =
      some (false, g2, s2) :=
  ⟨_, _, rfl⟩

/-- C8 as amended (unknown keywords are skipped line-wise): for a token `k`
that is none of `data`, `dim`, `translate`, `scale`, a rest-of-line text `r`
without newline, and `a`, `b`, `c` in the range of `int` with `a` not `-1`,
`read_header` on `#binvox 1`, `k r`, `dim a b c`, `data`, newline returns true
with `depth = a`, `height = b`, `width = c`; variables and stream on return are
the same as for the header without the line `k r`. -/
theorem unknown_keyword_skipped (F : List Byte → Bool) (g : Globals) (k r : List Byte)
    (a b c : Int) (hk : isToken k = true) (hr : isLineText r = true)
    (h1 : k ≠ kwData) (h2 : k ≠ kwDim) (h3 : k ≠ kwTranslate) (h4 : k ≠ kwScale)
    (ha : -2147483648 ≤ a ∧ a ≤ 2147483647) (hb : -2147483648 ≤ b ∧ b ≤ 2147483647)
    (hc : -2147483648 ≤ c ∧ c ≤ 2147483647) (hne : a ≠ -1) :
    read_header F g (IStream.ofBytes (unknownText k r a b c ++ [10])) =
        some (true, { g with version := 1, depth := a, height := b, width := c },
          ⟨[10], false, false, true⟩) ∧
    read_header F g (IStream.ofBytes (headerText 1 a b c ++ [10])) =
      read_header F g (IStream.ofBytes (unknownText k r a b c ++ [10])) := by
  have hv : (-2147483648 : Int) ≤ 1 ∧ (1 : Int) ≤ 2147483647 := by decide
  have hplain := read_header_plain F g 1 a b c 10 [] isSpace_10 hv ha hb hc
  have hd : decide (a ≠ -1) = true := by simpa using hne
  rw [hd] at hplain
  have hkne : k ≠ [] := by
    intro h
    rw [h] at hk
    simp [isToken] at hk
  have hks : ∀ x ∈ k, isSpace x = false := by
    intro x hx
    simp only [isToken, Bool.and_eq_true, List.all_eq_true, Bool.not_eq_true'] at hk
    exact hk.2 x hx
  have hrl : ∀ x ∈ r, x ≠ 10 := by
    intro x hx
    simp only [isLineText, List.all_eq_true, bne_iff_ne, ne_eq] at hr
    exact hr x hx
  have hmain : read_header F g (IStream.ofBytes (unknownText k r a b c ++ [10])) =
      some (true, { g with version := 1, depth := a, height := b, width := c },
        ⟨[10], false, false, true⟩) := by
    have h0 : unknownText k r a b c ++ [10] =
        sigBinvox ++ 32 :: (renderInt 1 ++
          10 :: (k ++ 32 :: (r ++ 10 :: (dimLine a b c ++ 10 :: (kwData ++ [10]))))) := by
      simp [unknownText]
    rw [h0, read_header_start F g 1 10 _ isSpace_10 hv]
    have hl : headerLoop F 4
        ⟨⟨10 :: (k ++ 32 :: (r ++ 10 :: (dimLine a b c ++ 10 :: (kwData ++ [10])))),
            false, false, true⟩, sigBinvox, false, { g with version := 1, depth := -1 }⟩ =
        some ⟨⟨[10], false, false, true⟩, kwData, true,
          { g with version := 1, depth := a, height := b, width := c }⟩ := by
      rw [headerLoop_pass F 3
        ⟨⟨10 :: (k ++ 32 :: (r ++ 10 :: (dimLine a b c ++ 10 :: (kwData ++ [10])))),
            false, false, true⟩, sigBinvox, false, { g with version := 1, depth := -1 }⟩ rfl rfl]
      have e1 := headerBody_unknown F [10] k r (dimLine a b c ++ 10 :: (kwData ++ [10]))
        sigBinvox { g with version := 1, depth := -1 } (space_singleton 10 isSpace_10) hks hkne
        h1 h2 h3 h4 hrl
      simp only [List.singleton_append, List.cons_append, List.nil_append] at e1
      rw [e1]
      have e2 := headerLoop_dim_data F 0 [] [] 10 k { g with version := 1, depth := -1 } a b c
        (by simp) isSpace_10 ha hb hc
      simp only [List.nil_append, zero_add] at e2
      exact e2
    rw [headerLoop_le F 4 _ _ _ (by simp only [List.length_append, List.length_cons]; omega) hl]
    simp [headerResult, hne]
  exact ⟨hmain, by rw [hmain, hplain]⟩

/-- C8 witness: the unknown line `foo 1 2 3` in front of `dim 2 3 4`. -/
theorem unknown_keyword_skipped_witness :
    read_header (fun _ => true) Globals.initial
        (IStream.ofBytes (unknownText [102, 111, 111] [49, 32, 50, 32, 51] 2 3 4 ++ [10])) =
        some (true, { Globals.initial with version := 1, depth := 2, height := 3, width := 4 },
          ⟨[10], false, false, true⟩) ∧
    read_header (fun _ => true) Globals.initial (IStream.ofBytes (headerText 1 2 3 4 ++ [10])) =
      read_header (fun _ => true) Globals.initial
        (IStream.ofBytes (unknownText [102, 111, 111] [49, 32, 50, 32, 51] 2 3 4 ++ [10])) :=
  unknown_keyword_skipped (fun _ => true) Globals.initial [102, 111, 111] [49, 32, 50, 32, 51]
    2 3 4 (by decide) (by decide) (by decide) (by decide) (by decide) (by decide)
    (by decide) (by decide) (by decide) (by decide)

/-! ## A whole well-formed file -/

/-- The keyword loop over an optional `scale` line and `data`. -/
theorem headerLoop_scale_data (F : List Byte → Bool) (n : Nat) (sc : Option (List Byte))
    (p : List Byte) (line : List Byte) (g : Globals) (hsc : scaleOk F sc) :
    headerLoop F (n + 3)
        ⟨⟨10 :: (optScale sc ++ kwData ++ 10 :: p), false, false, true⟩, line, false, g⟩ =
      some ⟨⟨10 :: p, false, false, true⟩, kwData, true, withScale g sc⟩ := by
  cases sc with
  | none =>
    have := headerLoop_data F (n + 1) [10] p 10 line g (space_singleton 10 isSpace_10) isSpace_10
    simpa [optScale, withScale] using this
  | some x =>
    have e1 := headerBody_scale F [10] (kwData ++ 10 :: p) 10 line g x
      (space_singleton 10 isSpace_10) isSpace_10 hsc
    have e2 := headerLoop_data F n [10] p 10 kwScale { g with scale := x }
      (space_singleton 10 isSpace_10) isSpace_10
    simp only [List.singleton_append, List.cons_append, List.nil_append] at e1 e2
    rw [headerLoop_pass F (n + 2)
      ⟨⟨10 :: (optScale (some x) ++ kwData ++ 10 :: p), false, false, true⟩, line, false, g⟩
      rfl rfl]
    have h0 : (10 : Byte) :: (optScale (some x) ++ kwData ++ 10 :: p) =
        10 :: (scaleLine x ++ 10 :: (kwData ++ 10 :: p)) := by
      simp [optScale]
    rw [h0, e1, e2]
    rfl

/-- The keyword loop over optional `translate` and `scale` lines and `data`. -/
theorem headerLoop_translate_scale_data (F : List Byte → Bool) (n : Nat)
    (tr : Option (List Byte × List Byte × List Byte)) (sc : Option (List Byte))
    (p : List Byte) (line : List Byte) (g : Globals) (htr : translateOk F tr)
    (hsc : scaleOk F sc) :
    headerLoop F (n + 4)
        ⟨⟨10 :: (optTranslate tr ++ optScale sc ++ kwData ++ 10 :: p), false, false, true⟩,
          line, false, g⟩ =
      some ⟨⟨10 :: p, false, false, true⟩, kwData, true, withScale (withTranslate g tr) sc⟩ := by
  cases tr with
  | none =>
    have := headerLoop_scale_data F (n + 1) sc p line g hsc
    simpa [optTranslate, withTranslate] using this
  | some t =>
    obtain ⟨x, y, z⟩ := t
    have e1 := headerBody_translate F [10] (optScale sc ++ kwData ++ 10 :: p) 10 line g x y z
      (space_singleton 10 isSpace_10) isSpace_10 htr.1 htr.2.1 htr.2.2
    have e2 := headerLoop_scale_data F n sc p kwTranslate { g with tx := x, ty := y, tz := z } hsc
    simp only [List.singleton_append, List.cons_append, List.nil_append] at e1
    rw [headerLoop_pass F (n + 3)
      ⟨⟨10 :: (optTranslate (some (x, y, z)) ++ optScale sc ++ kwData ++ 10 :: p),
        false, false, true⟩, line, false, g⟩ rfl rfl]
    have h0 : (10 : Byte) :: (optTranslate (some (x, y, z)) ++ optScale sc ++ kwData ++ 10 :: p) =
        10 :: (translateLine x y z ++ 10 :: (optScale sc ++ kwData ++ 10 :: p)) := by
      simp [optTranslate]
    rw [h0, e1, e2]
    rfl

/-- Function `read_header` on the header of a whole file. -/
theorem read_header_file (F : List Byte → Bool) (g : Globals) (v d h w : Int)
    (tr : Option (List Byte × List Byte × List Byte)) (sc : Option (List Byte))
    (p : List Byte)
    (hv : -2147483648 ≤ v ∧ v ≤ 2147483647)
    (hd : -2147483648 ≤ d ∧ d ≤ 2147483647) (hh : -2147483648 ≤ h ∧ h ≤ 2147483647)
    (hw : -2147483648 ≤ w ∧ w ≤ 2147483647) (hne : d ≠ -1)
    (htr : translateOk F tr) (hsc : scaleOk F sc) :
    read_header F g (IStream.ofBytes (fileText v d h w tr sc p)) =
      some (true,
        withScale (withTranslate { g with version := v, depth := d, height := h, width := w } tr) sc,
        ⟨10 :: p, false, false, true⟩) := by
  have h0 : fileText v d h w tr sc p =
      sigBinvox ++ 32 :: (renderInt v ++ 10 :: (dimLine d h w ++
        10 :: (optTranslate tr ++ optScale sc ++ kwData ++ 10 :: p))) := by
    simp [fileText]
  rw [h0, read_header_start F g v 10 _ isSpace_10 hv]
  have hl : headerLoop F 5
      ⟨⟨10 :: (dimLine d h w ++ 10 :: (optTranslate tr ++ optScale sc ++ kwData ++ 10 :: p)),
          false, false, true⟩, sigBinvox, false, { g with version := v, depth := -1 }⟩ =
      some ⟨⟨10 :: p, false, false, true⟩, kwData, true,
        withScale (withTranslate { g with version := v, depth := d, height := h, width := w } tr)
          sc⟩ := by
    rw [headerLoop_pass F 4
      ⟨⟨10 :: (dimLine d h w ++ 10 :: (optTranslate tr ++ optScale sc ++ kwData ++ 10 :: p)),
          false, false, true⟩, sigBinvox, false, { g with version := v, depth := -1 }⟩ rfl rfl]
    have e1 := headerBody_dim F [10] (optTranslate tr ++ optScale sc ++ kwData ++ 10 :: p) 10
      sigBinvox { g with version := v, depth := -1 } d h w (space_singleton 10 isSpace_10)
      isSpace_10 hd hh hw
    simp only [List.singleton_append, List.cons_append, List.nil_append] at e1
    rw [e1]
    exact headerLoop_translate_scale_data F 0 tr sc p kwDim _ htr hsc
  rw [headerLoop_le F 5 _ _ _ (by simp only [List.length_append, List.length_cons]; omega) hl]
  have hdep : (withScale
      (withTranslate { g with version := v, depth := d, height := h, width := w } tr) sc).depth
      = d := by
    cases tr <;> cases sc <;> rfl
  simp [headerResult, hdep, hne]

theorem withScale_withTranslate_dims (g : Globals)
    (tr : Option (List Byte × List Byte × List Byte)) (sc : Option (List Byte)) :
    (withScale (withTranslate g tr) sc).depth = g.depth ∧
    (withScale (withTranslate g tr) sc).height = g.height ∧
    (withScale (withTranslate g tr) sc).width = g.width ∧
    (withScale (withTranslate g tr) sc).version = g.version := by
  cases tr <;> cases sc <;> exact ⟨rfl, rfl, rfl, rfl⟩

/-- With a grid size of zero the decode stage reads its one leading byte and
returns true at once. -/
theorem decodePayload_empty_grid (buf : List (Option Byte)) (lead : Byte) (body : List Byte)
    (sk : Bool) :
    decodePayload 0 buf ⟨lead :: body, false, false, sk⟩ =
      some (Exit.ret true,
        { input := ⟨body, false, false, false⟩, voxels := buf, value := lead,
          count := 0, index := 0, end_index := 0, nr_voxels := 0, writes := [] }) := by
  rw [decodePayload_start, decodeLoop_exit _ _ _ (by rfl)]

/-- C4, the claim refuted for dimensions whose product does not fit an `int`:
the file `#binvox 1`, `dim 65536 65536 1`, `data` with 33554432 pairs (1, 128)
has positive dimensions and counts that sum to 65536 * 65536 * 1, but the grid
size computed in `int` is 0; `read_binvox` returns true with an empty grid and
without a single store, while the expansion of the pairs is not empty. -/
theorem overflowing_dims_refuted :
    (∃ g2 st, read_binvox (fun _ => true) Globals.initial
        (fileText 1 65536 65536 1 none none (encode (List.replicate 33554432 (1, 128)))) =
        Outcome.returned true g2 (some st) ∧
      g2.gridsize = 0 ∧ g2.voxels = [] ∧ st.writes = []) ∧
    ((expand (List.replicate 33554432 ((1 : Byte), (128 : Byte)))).length : Int) =
      65536 * 65536 * 1 ∧
    (expand (List.replicate 33554432 ((1 : Byte), (128 : Byte)))).map some ≠
      ([] : List (Option Byte)) := by
  have hlen : (expand (List.replicate 33554432 ((1 : Byte), (128 : Byte)))).length =
      4294967296 := by
    rw [expand_replicate_length]
    rfl
  refine ⟨?_, ?_, ?_⟩
  · have hh := read_header_file (fun _ => true) Globals.initial 1 65536 65536 1 none none
      (encode (List.replicate 33554432 (1, 128))) (by decide) (by decide) (by decide) (by decide)
      (by decide) trivial trivial
    have hG : wrap32 (wrap32 ((1 : Int) * 65536) * 65536) = 0 := by decide
    rw [read_binvox_of_header _ _ _ _ _ 0 hh hG (le_refl _), decodePayload_empty_grid]
    exact ⟨_, _, rfl, rfl, rfl, rfl⟩
  · rw [hlen]
    decide
  · intro h
    have := congrArg List.length h
    rw [List.length_map, hlen] at this
    simp at this

/-- C4 as amended (end-to-end decode of a well-formed file): for a file made of
`#binvox v`, `dim d h w` with positive `d`, `h`, `w` whose product fits an
`int`, an optional `translate` line and an optional `scale` line with
well-formed literals, `data`, one newline, and run-length pairs whose counts
sum to `d*h*w`, `read_binvox` returns true; the grid is the expansion of the
pairs, whatever bytes (whitespace included) the pairs hold, the reported count
is the number of nonzero voxels, and each index was stored to once, in order. -/
theorem end_to_end_decode (F : List Byte → Bool) (g : Globals) (v d h w : Int)
    (tr : Option (List Byte × List Byte × List Byte)) (sc : Option (List Byte))
    (ps : List (Byte × Byte))
    (hv : -2147483648 ≤ v ∧ v ≤ 2147483647) (hd : 0 < d) (hh : 0 < h) (hw : 0 < w)
    (hfit : d * h * w ≤ 2147483647) (htr : translateOk F tr) (hsc : scaleOk F sc)
    (hsum : ((expand ps).length : Int) = d * h * w) :
    ∃ g2 st, read_binvox F g (fileText v d h w tr sc (encode ps)) =
        Outcome.returned true g2 (some st) ∧
      g2.voxels = (expand ps).map some ∧
      g2.version = v ∧ g2.depth = d ∧ g2.height = h ∧ g2.width = w ∧
      g2.gridsize = d * h * w ∧
      st.index = d * h * w ∧
      st.nr_voxels = (countNonzero (expand ps) : Int) ∧
      st.writes = indexRun 0 (expand ps).length := by
  have hhw : 0 < h * w := mul_pos hh hw
  have hdh : 0 < d * h := mul_pos hd hh
  have hdw : 0 < d * w := mul_pos hd hw
  have hdle : d ≤ d * h * w := by nlinarith
  have hhle : h ≤ d * h * w := by nlinarith
  have hwle : w ≤ d * h * w := by nlinarith
  have hwh : w * h ≤ d * h * w := by nlinarith
  have hwh0 : 0 < w * h := mul_pos hw hh
  have hhdr := read_header_file F g v d h w tr sc (encode ps) hv ⟨by omega, by omega⟩
    ⟨by omega, by omega⟩ ⟨by omega, by omega⟩ (by omega) htr hsc
  obtain ⟨e1, e2, e3, e4⟩ := withScale_withTranslate_dims
    { g with version := v, depth := d, height := h, width := w } tr sc
  have hG : wrap32 (wrap32 ((withScale (withTranslate
      { g with version := v, depth := d, height := h, width := w } tr) sc).width *
      (withScale (withTranslate
      { g with version := v, depth := d, height := h, width := w } tr) sc).height) *
      (withScale (withTranslate
      { g with version := v, depth := d, height := h, width := w } tr) sc).depth) =
      d * h * w := by
    rw [e1, e2, e3]
    simp only
    rw [wrap32_of_range (w * h) (by omega) (by omega)]
    have : w * h * d = d * h * w := by ring
    rw [this]
    exact wrap32_of_range _ (by omega) hfit
  have h0 : (0 : Int) ≤ d * h * w := by omega
  rw [read_binvox_of_header F g _ _ _ (d * h * w) hhdr hG h0]
  have hbl : ((List.replicate (d * h * w).toNat (none : Option Byte)).length : Int) =
      d * h * w := by
    rw [List.length_replicate]
    exact Int.toNat_of_nonneg h0
  have hel : (expand ps).length = (List.replicate (d * h * w).toNat (none : Option Byte)).length := by
    rw [List.length_replicate, ← hsum]
    simp
  obtain ⟨st, r1, r2, r3, r4, r5, _⟩ := decodePayload_fills (d * h * w) hfit
    (List.replicate (d * h * w).toNat none) 10 ps [] true hbl hel
  rw [List.append_nil] at r1
  rw [r1]
  refine ⟨_, st, rfl, r2, e4, e1, e2, e3, rfl, r3, r4, ?_⟩
  rw [r5, hel]

/-- C4 witness: `#binvox 1`, `dim 2 2 2`, `translate 0 0 0`, `scale 1`, `data`
and the payload 0, 4, 1, 4 give a grid of length 8, four 0 then four 1, and a
reported count of 4. -/
theorem end_to_end_decode_witness :
    ∃ g2 st, read_binvox (fun _ => true) Globals.initial
        (fileText 1 2 2 2 (some ([48], [48], [48])) (some [49]) (encode [(0, 4), (1, 4)])) =
        Outcome.returned true g2 (some st) ∧
      g2.voxels = [some 0, some 0, some 0, some 0, some 1, some 1, some 1, some 1] ∧
      g2.version = 1 ∧ g2.depth = 2 ∧ g2.height = 2 ∧ g2.width = 2 ∧
      g2.gridsize = 2 * 2 * 2 ∧
      st.index = 2 * 2 * 2 ∧
      st.nr_voxels = 4 ∧
      st.writes = indexRun 0 8 :=
  end_to_end_decode (fun _ => true) Globals.initial 1 2 2 2 (some ([48], [48], [48]))
    (some [49]) [(0, 4), (1, 4)] (by decide) (by decide) (by decide) (by decide) (by decide)
    ⟨⟨rfl, by decide, rfl⟩, ⟨rfl, by decide, rfl⟩, ⟨rfl, by decide, rfl⟩⟩
    ⟨rfl, by decide, rfl⟩ (by decide)

/-! ## Further worked inputs -/

/-- On the empty stream `read_header` returns false at the signature test; the
failed extraction has set `eofbit` and `failbit`. -/
theorem read_header_empty_stream (F : List Byte → Bool) (g : Globals) :
    read_header F g (IStream.ofBytes []) = some (false, g, ⟨[], true, true, true⟩) :=
  rfl

/-- A version that is not a number ends `read_header` before the keyword loop
runs: on `#binvox x`, `dim 1 1 1`, `data` it returns false. -/
theorem read_header_bad_version :
    ∃ g2 s2, read_header (fun _ => true) Globals.initial
        (IStream.ofBytes (sigBinvox ++ [32, 120, 10] ++ dimLine 1 1 1 ++ 10 :: kwData ++ [10])) =
      some (false, g2, s2) :=
  ⟨_, _, rfl⟩

/-- Payload bytes that are whitespace characters are decoded like any other
byte: the pairs (0x20, 4), (0x0A, 4) fill a grid of 8 voxels with four times
0x20 and four times 0x0A. -/
theorem whitespace_payload_decoded :
    ∃ g2 st, read_binvox (fun _ => true) Globals.initial
        (fileText 1 2 2 2 none none [32, 4, 10, 4]) = Outcome.returned true g2 (some st) ∧
      g2.voxels = [some 32, some 32, some 32, some 32, some 10, some 10, some 10, some 10] ∧
      st.nr_voxels = 8 :=
  ⟨_, _, rfl, rfl, rfl⟩

/-! ## Grid size and dimensions -/

/-- C11, the code at three headers with positive dimensions whose exact product
is above 2147483647.  For `dim 42949673 100 1` (product 4294967300) the grid
size computed in `int` is 4: a buffer of 4 bytes is allocated, the payload 1, 4
is decoded into it and `read_binvox` returns true.  For `dim 65536 65536 1`
(product 4294967296) the grid size is 0 and `read_binvox` returns true with an
empty grid.  For `dim 65536 32768 1` (product 2147483648) the grid size is
-2147483648 and the allocation throws.  In no case does `read_binvox` return
false. -/
theorem grid_size_overflow_not_rejected :
    (∃ g2 st, read_binvox (fun _ => true) Globals.initial
        (fileText 1 42949673 100 1 none none [1, 4]) = Outcome.returned true g2 (some st) ∧
      g2.gridsize = 4 ∧ g2.voxels = [some 1, some 1, some 1, some 1] ∧
      (2147483647 : Int) < 42949673 * 100 * 1) ∧
    (∃ g2 st, read_binvox (fun _ => true) Globals.initial
        (fileText 1 65536 65536 1 none none []) = Outcome.returned true g2 (some st) ∧
      g2.gridsize = 0 ∧ g2.voxels = [] ∧ (2147483647 : Int) < 65536 * 65536 * 1) ∧
    (∃ g2, read_binvox (fun _ => true) Globals.initial
        (fileText 1 65536 32768 1 none none []) = Outcome.badAlloc g2 ∧
      g2.gridsize = -2147483648 ∧ (2147483647 : Int) < 65536 * 32768 * 1) :=
  ⟨⟨_, _, rfl, rfl, rfl, by decide⟩, ⟨_, _, rfl, rfl, rfl, by decide⟩, ⟨_, rfl, rfl, by decide⟩⟩

/-- C12, the claim refuted: on `#binvox 1`, `dim 0 -5 0`, `data` the function
`read_header` returns true with `depth = 0`, `height = -5`, `width = 0`, none of
them positive. -/
theorem nonpositive_dims_accepted :
    read_header (fun _ => true) Globals.initial (IStream.ofBytes (headerText 1 0 (-5) 0 ++ [10])) =
      some (true, { Globals.initial with version := 1, depth := 0, height := -5, width := 0 },
        ⟨[10], false, false, true⟩) ∧
    ¬ ((0 : Int) < 0) ∧ ¬ ((0 : Int) < -5) :=
  ⟨rfl, by decide, by decide⟩

/-- An `int` extraction that leaves the stream good has not used the old value
of the variable: value and stream come from the input alone. -/
theorem extractInt_good_indep (s : IStream) (old old2 : Int)
    (h : (extractInt s old).1.good = true) :
    extractInt s old2 = extractInt s old := by
  unfold extractInt at h ⊢
  rcases hs : sentry s with ⟨s1, ok⟩
  rw [hs] at h
  cases ok
  · have := sentry_false s (by rw [hs])
    rw [hs] at this
    simp only [Bool.false_eq_true, if_false] at h
    rw [this] at h
    exact absurd h (by simp)
  · rfl

/-- A pass that extracts the token `dim` stores the three integers extracted
behind it into `depth`, `height` and `width`, in this order. -/
theorem headerBody_dim_values (F : List Byte → Bool) (st : HState)
    (h : (extractString st.input st.line).2 = kwDim) :
    (headerBody F st).g.depth =
        (extractInt (extractString st.input st.line).1 st.g.depth).2 ∧
      (headerBody F st).g.height =
        (extractInt (extractInt (extractString st.input st.line).1 st.g.depth).1
          st.g.height).2 ∧
      (headerBody F st).g.width =
        (extractInt (extractInt (extractInt (extractString st.input st.line).1 st.g.depth).1
          st.g.height).1 st.g.width).2 ∧
      (headerBody F st).input =
        (extractInt (extractInt (extractInt (extractString st.input st.line).1 st.g.depth).1
          st.g.height).1 st.g.width).1 := by
  unfold headerBody
  rcases hx : extractString st.input st.line with ⟨i1, line⟩
  rw [hx] at h
  simp only at h ⊢
  subst h
  have hne : kwDim ≠ kwData := by decide
  simp [hne]

/-- The pass changes `depth`, `height` and `width` only when it dispatches
`dim` on a good stream. -/
theorem headerBody_dims_kept (F : List Byte → Bool) (st : HState)
    (h : (extractString st.input st.line).2 ≠ kwDim ∨
      (extractString st.input st.line).1.good = false) :
    (headerBody F st).g.depth = st.g.depth ∧ (headerBody F st).g.height = st.g.height ∧
      (headerBody F st).g.width = st.g.width := by
  unfold headerBody
  rcases hx : extractString st.input st.line with ⟨i1, line⟩
  rw [hx] at h
  simp only at h ⊢
  split_ifs with h1 h2 h3 h4
  · exact ⟨rfl, rfl, rfl⟩
  · rcases h with h | h
    · exact absurd h2 h
    · have a := extractInt_of_not_good i1 st.g.depth h
      have b := extractInt_of_not_good _ st.g.height a.2
      have c := extractInt_of_not_good _ st.g.width b.2
      exact ⟨a.1, b.1, c.1⟩
  · exact ⟨rfl, rfl, rfl⟩
  · exact ⟨rfl, rfl, rfl⟩
  · exact ⟨rfl, rfl, rfl⟩

/-- After `K` passes that were all entered with the guard true, either no pass
has read `dim` and `depth` is still `-1`, or `depth`, `height` and `width` are
what the last pass that read `dim` left in them. -/
theorem last_dim_pass (F : List Byte → Bool) (g : Globals) (input : IStream)
    (hsig : (extractString input []).2 = sigBinvox) (K : Nat)
    (hg : ∀ j < K, headerGuard (passState F g input j) = true) :
    (passState F g input K).g.depth = -1 ∨
      ∃ k, k < K ∧ readsToken (passState F g input k) kwDim = true ∧
        (passState F g input K).g.depth = (passState F g input (k + 1)).g.depth ∧
        (passState F g input K).g.height = (passState F g input (k + 1)).g.height ∧
        (passState F g input K).g.width = (passState F g input (k + 1)).g.width := by
  induction K with
  | zero => exact Or.inl (passState_zero_of_sig F g input hsig).2.2.1
  | succ K ih =>
    have hK := hg K (by omega)
    cases hr : readsToken (passState F g input K) kwDim
    · have hkept : (passState F g input (K + 1)).g.depth = (passState F g input K).g.depth ∧
          (passState F g input (K + 1)).g.height = (passState F g input K).g.height ∧
          (passState F g input (K + 1)).g.width = (passState F g input K).g.width := by
        rw [passState_succ]
        apply headerBody_dims_kept
        unfold readsToken at hr
        unfold headerGuard at hK
        rw [hK] at hr
        simp only [Bool.true_and, Bool.and_eq_false_iff, beq_eq_false_iff_ne, ne_eq] at hr
        rcases hr with hr | hr
        · right
          rcases extractString_cases (passState F g input K).input (passState F g input K).line
            with ⟨hs, he⟩ | ⟨hs, _⟩
          · rw [he]
            exact sentry_false _ hs
          · rw [hs] at hr
            simp at hr
        · left
          exact hr
      rcases ih (fun j hj => hg j (by omega)) with h1 | ⟨k, hk, hk1, hk2, hk3, hk4⟩
      · left
        rw [hkept.1, h1]
      · right
        exact ⟨k, by omega, hk1, by rw [hkept.1, hk2], by rw [hkept.2.1, hk3],
          by rw [hkept.2.2, hk4]⟩
    · right
      exact ⟨K, by omega, hr, rfl, rfl, rfl⟩

/-- C12 as amended (header dimension invariant): when `read_header` returns
true, `depth` is not `-1`, and some pass of the keyword loop has read the token
`dim` and extracted three integers behind it, each extraction leaving the
stream good; `depth`, `height` and `width` on return are these three integers,
in this order, whatever the three variables held before the extraction.  (The
values are not tested for being positive.) -/
theorem header_dims_read (F : List Byte → Bool) (g g2 : Globals) (input s2 : IStream)
    (h : read_header F g input = some (true, g2, s2)) :
    g2.depth ≠ -1 ∧
    ∃ k i1, readsToken (passState F g input k) kwDim = true ∧
      i1 = (extractString (passState F g input k).input (passState F g input k).line).1 ∧
      ∀ o1 o2 o3 : Int,
        (extractInt i1 o1).1.good = true ∧
        (extractInt (extractInt i1 o1).1 o2).1.good = true ∧
        (extractInt (extractInt (extractInt i1 o1).1 o2).1 o3).1.good = true ∧
        g2.depth = (extractInt i1 o1).2 ∧
        g2.height = (extractInt (extractInt i1 o1).1 o2).2 ∧
        g2.width = (extractInt (extractInt (extractInt i1 o1).1 o2).1 o3).2 := by
  obtain ⟨hsig, K, hgK, _, _, hg2, _, hdep, hall⟩ := read_header_true F g g2 input s2 h
  refine ⟨hdep, ?_⟩
  rcases last_dim_pass F g input hsig K hall with h1 | ⟨k, hk, hr, hd, hh, hw⟩
  · rw [hg2] at hdep
    exact absurd h1 hdep
  · have hguard : headerGuard (passState F g input (k + 1)) = true := by
      rcases Nat.lt_or_ge (k + 1) K with h1 | h1
      · exact hall (k + 1) h1
      · have : k + 1 = K := by omega
        rw [this]
        exact hgK
    have hgood : (passState F g input (k + 1)).input.good = true := by
      simp only [headerGuard, Bool.and_eq_true] at hguard
      exact hguard.1
    have htok : (extractString (passState F g input k).input
        (passState F g input k).line).2 = kwDim := by
      unfold readsToken at hr
      simp only [Bool.and_eq_true, beq_iff_eq] at hr
      exact hr.2
    obtain ⟨b1, b2, b3, b4⟩ := headerBody_dim_values F (passState F g input k) htok
    rw [← passState_succ] at b1 b2 b3 b4
    rw [b4] at hgood
    have hgood2 := (extractInt_reads _ _).2.1 hgood
    have hgood1 := (extractInt_reads _ _).2.1 hgood2
    refine ⟨k, _, hr, rfl, ?_⟩
    intro o1 o2 o3
    have e1 := extractInt_good_indep _ _ o1 hgood1
    rw [← e1] at hgood2 hgood b2 b3
    have e2 := extractInt_good_indep _ _ o2 hgood2
    rw [← e2] at hgood b3
    have e3 := extractInt_good_indep _ _ o3 hgood
    rw [← e1] at hgood1 b1
    rw [← e2] at hgood2 b2
    rw [← e3] at hgood b3
    rw [hg2, hd, hh, hw, b1, b2, b3]
    exact ⟨hgood1, hgood2, hgood, rfl, rfl, rfl⟩

/-- C12 witness: `#binvox 1`, `dim 0 -5 0`, `data`. -/
theorem header_dims_read_witness :
    (0 : Int) ≠ -1 ∧
    ∃ k i1, readsToken (passState (fun _ => true) Globals.initial
        (IStream.ofBytes (headerText 1 0 (-5) 0 ++ [10])) k) kwDim = true ∧
      i1 = (extractString
        (passState (fun _ => true) Globals.initial
          (IStream.ofBytes (headerText 1 0 (-5) 0 ++ [10])) k).input
        (passState (fun _ => true) Globals.initial
          (IStream.ofBytes (headerText 1 0 (-5) 0 ++ [10])) k).line).1 ∧
      ∀ o1 o2 o3 : Int,
        (extractInt i1 o1).1.good = true ∧
        (extractInt (extractInt i1 o1).1 o2).1.good = true ∧
        (extractInt (extractInt (extractInt i1 o1).1 o2).1 o3).1.good = true ∧
        (0 : Int) = (extractInt i1 o1).2 ∧
        (-5 : Int) = (extractInt (extractInt i1 o1).1 o2).2 ∧
        (0 : Int) = (extractInt (extractInt (extractInt i1 o1).1 o2).1 o3).2 :=
  header_dims_read (fun _ => true) Globals.initial
    { Globals.initial with version := 1, depth := 0, height := -5, width := 0 }
    (IStream.ofBytes (headerText 1 0 (-5) 0 ++ [10])) ⟨[10], false, false, true⟩ (by rfl)

/-! ## The text output -/

/-- C14, the code at two grids that are not cubes.  For `dim 1 1 2` (depth 1,
height 1, width 2) there is one depth-slice of two voxels, but the loop writes
two markers, `x-coord: 0` and `x-coord: 1`, the second one in front of voxel 1.
For `dim 2 1 1` (depth 2, width 1) there are two depth-slices of one voxel
each, but the loop writes the single marker `x-coord: 0` and none in front of
voxel 1.  The markers stand at the multiples of `depth*height`, not of
`width*height`. -/
theorem slice_markers_misplaced :
    (∃ g, main (fun _ => true) (fileText 1 1 1 2 none none [1, 2]) =
      MainResult.wrote g
        [Out.xcoord 0, Out.voxel (some 49), Out.xcoord 1, Out.voxel (some 49), Out.endl,
          Out.endl]) ∧
    (∃ g, main (fun _ => true) (fileText 1 2 1 1 none none [1, 2]) =
      MainResult.wrote g
        [Out.xcoord 0, Out.voxel (some 49), Out.endl, Out.voxel (some 49), Out.endl,
          Out.endl]) :=
  ⟨⟨_, rfl⟩, ⟨_, rfl⟩⟩

/-- Reduction to `int` changes a number by a multiple of 2^32. -/
theorem wrap32_sub (x : Int) : ∃ q : Int, wrap32 x = x - 4294967296 * q := by
  refine ⟨(x + 2147483648) / 4294967296, ?_⟩
  unfold wrap32
  omega

theorem wrap32_eq_zero_iff (x : Int) : wrap32 x = 0 ↔ (4294967296 : Int) ∣ x := by
  constructor
  · intro h
    obtain ⟨q, hq⟩ := wrap32_sub x
    rw [h] at hq
    exact ⟨q, by omega⟩
  · intro h
    obtain ⟨q, hq⟩ := h
    unfold wrap32
    omega

/-- The grid size computed by `read_binvox` is 0 as soon as one of the divisors
used by the output loop is 0. -/
theorem gridsize_zero_of_divisor_zero (d h w : Int)
    (hz : wrap32 (d * h) = 0 ∨ w = 0 ∨ wrap32 (d * w) = 0) :
    wrap32 (wrap32 (w * h) * d) = 0 := by
  obtain ⟨q, hq⟩ := wrap32_sub (w * h)
  rw [wrap32_eq_zero_iff, hq]
  rcases hz with hz | hz | hz
  · obtain ⟨r, hr⟩ := (wrap32_eq_zero_iff _).mp hz
    refine ⟨w * r - q * d, ?_⟩
    have : (w * h - 4294967296 * q) * d = w * (d * h) - 4294967296 * (q * d) := by ring
    rw [this, hr]
    ring
  · subst hz
    refine ⟨- q * d, ?_⟩
    ring
  · obtain ⟨r, hr⟩ := (wrap32_eq_zero_iff _).mp hz
    refine ⟨h * r - q * d, ?_⟩
    have : (w * h - 4294967296 * q) * d = h * (d * w) - 4294967296 * (q * d) := by ring
    rw [this, hr]
    ring

/-- With divisors that are not 0, a pass of the output loop can only fail in
the read of the voxel. -/
theorem outputBody_eq (g : Globals) (i : Int) (h1 : wrap32 (g.depth * g.height) ≠ 0)
    (h2 : g.width ≠ 0) (h3 : wrap32 (g.depth * g.width) ≠ 0) :
    outputBody g i =
      match readVoxel g.voxels i with
      | Except.ok cell =>
        Except.ok (marksAt g i ++ [Out.voxel (cell.map voxelChar)] ++ endlsAt g i)
      | Except.error f => Except.error f := by
  unfold outputBody marksAt endlsAt
  simp only [cmod, cdiv, h1, h2, h3, if_false, bind, Except.bind, pure, Except.pure]
  cases readVoxel g.voxels i with
  | error f => split_ifs <;> rfl
  | ok cell => split_ifs <;> simp

theorem outputLoop_no_div_fault (g : Globals) (h1 : wrap32 (g.depth * g.height) ≠ 0)
    (h2 : g.width ≠ 0) (h3 : wrap32 (g.depth * g.width) ≠ 0) :
    ∀ (k : Nat) (i : Int), outputLoop g k i ≠ Except.error Fault.divByZero := by
  intro k
  induction k with
  | zero => intro i h; simp [outputLoop, pure, Except.pure] at h
  | succ k ih =>
    intro i h
    simp only [outputLoop, outputBody_eq g i h1 h2 h3, bind, Except.bind] at h
    unfold readVoxel at h
    split_ifs at h with hb
    · simp only at h
      have := ih (i + 1)
      cases hr : outputLoop g k (i + 1) with
      | error f =>
        rw [hr] at h this
        simp only [Except.error.injEq] at h
        exact this (by rw [h])
      | ok r =>
        rw [hr] at h
        simp [pure, Except.pure] at h
    · simp at h

/-- With the grid size computed as `read_binvox` does and positive, none of the
divisors of the output loop is 0. -/
theorem divisors_ne_zero (g : Globals)
    (hdim : g.gridsize = wrap32 (wrap32 (g.width * g.height) * g.depth))
    (hpos : 0 < g.gridsize) :
    wrap32 (g.depth * g.height) ≠ 0 ∧ g.width ≠ 0 ∧ wrap32 (g.depth * g.width) ≠ 0 ∧ True := by
  have hne : wrap32 (wrap32 (g.width * g.height) * g.depth) ≠ 0 := by
    rw [← hdim]; omega
  exact ⟨fun hz => hne (gridsize_zero_of_divisor_zero _ _ _ (Or.inl hz)),
    fun hz => hne (gridsize_zero_of_divisor_zero _ _ _ (Or.inr (Or.inl hz))),
    fun hz => hne (gridsize_zero_of_divisor_zero _ _ _ (Or.inr (Or.inr hz))), trivial⟩

/-- C18 (no division by zero in the text output loop): for all values of
`depth`, `height` and `width`, with `gridsize` the product computed in `int` as
`read_binvox` does, whenever the loop body runs (`gridsize > 0`) the divisors
`depth*height`, `width` and `depth*width` are not 0, and the loop is not
stopped by a division by zero. -/
theorem no_division_by_zero (g : Globals)
    (hdim : g.gridsize = wrap32 (wrap32 (g.width * g.height) * g.depth))
    (hpos : 0 < g.gridsize) :
    wrap32 (g.depth * g.height) ≠ 0 ∧ g.width ≠ 0 ∧ wrap32 (g.depth * g.width) ≠ 0 ∧
      writeVoxels g ≠ Except.error Fault.divByZero := by
  have hne : wrap32 (wrap32 (g.width * g.height) * g.depth) ≠ 0 := by
    rw [← hdim]; omega
  have h1 : wrap32 (g.depth * g.height) ≠ 0 := fun hz =>
    hne (gridsize_zero_of_divisor_zero _ _ _ (Or.inl hz))
  have h2 : g.width ≠ 0 := fun hz =>
    hne (gridsize_zero_of_divisor_zero _ _ _ (Or.inr (Or.inl hz)))
  have h3 : wrap32 (g.depth * g.width) ≠ 0 := fun hz =>
    hne (gridsize_zero_of_divisor_zero _ _ _ (Or.inr (Or.inr hz)))
  exact ⟨h1, h2, h3, outputLoop_no_div_fault g h1 h2 h3 _ _⟩

/-- C18 witness: the dimensions 42949673, 100, 1, whose product 4294967300 is
reduced to the grid size 4. -/
theorem no_division_by_zero_witness :
    wrap32 ((42949673 : Int) * 100) ≠ 0 ∧ (1 : Int) ≠ 0 ∧ wrap32 ((42949673 : Int) * 1) ≠ 0 ∧
      writeVoxels { Globals.initial with depth := 42949673, height := 100, width := 1,
                                         gridsize := 4 } ≠ Except.error Fault.divByZero :=
  no_division_by_zero
    { Globals.initial with depth := 42949673, height := 100, width := 1, gridsize := 4 }
    (by decide) (by decide)

theorem voxelsOf_append (a b : List Out) : voxelsOf (a ++ b) = voxelsOf a ++ voxelsOf b := by
  induction a with
  | nil => rfl
  | cons x a ih => cases x <;> simp [voxelsOf, ih]

theorem voxelsOf_marksAt (g : Globals) (i : Int) : voxelsOf (marksAt g i) = [] := by
  unfold marksAt
  split_ifs <;> rfl

theorem voxelsOf_endlsAt (g : Globals) (i : Int) : voxelsOf (endlsAt g i) = [] := by
  unfold endlsAt
  split_ifs <;> rfl

/-- The read of a voxel inside a buffer that is fully decoded. -/
theorem readVoxel_decoded (grid : List Byte) (i : Nat) (hi : i < grid.length) :
    readVoxel (grid.map some) (i : Int) = Except.ok (some grid[i]) := by
  unfold readVoxel
  have hc : (0 : Int) ≤ (i : Int) ∧ (i : Int) < ((grid.map some).length : Int) := by
    rw [List.length_map]
    constructor
    · omega
    · exact_mod_cast hi
  rw [if_pos hc]
  simp [hi]

/-- The output loop over a fully decoded buffer: the passes `i`, ..., `i+k-1`
write the characters of the voxels `i`, ..., `i+k-1`, in that order. -/
theorem outputLoop_voxels (g : Globals) (grid : List Byte) (hvox : g.voxels = grid.map some)
    (h1 : wrap32 (g.depth * g.height) ≠ 0) (h2 : g.width ≠ 0)
    (h3 : wrap32 (g.depth * g.width) ≠ 0) :
    ∀ (k i : Nat), i + k ≤ grid.length →
      ∃ out, outputLoop g k (i : Int) = Except.ok out ∧
        voxelsOf out = ((grid.drop i).take k).map (fun v => some (voxelChar v)) := by
  intro k
  induction k with
  | zero =>
    intro i _
    exact ⟨[], rfl, by simp [voxelsOf]⟩
  | succ k ih =>
    intro i hik
    have hi : i < grid.length := by omega
    obtain ⟨r, hr1, hr2⟩ := ih (i + 1) (by omega)
    have hcast : ((i : Int) + 1) = ((i + 1 : Nat) : Int) := by push_cast; rfl
    refine ⟨marksAt g i ++ [Out.voxel (some (voxelChar grid[i]))] ++ endlsAt g i ++ r, ?_, ?_⟩
    · simp only [outputLoop, outputBody_eq g i h1 h2 h3, hvox, readVoxel_decoded grid i hi,
        bind, Except.bind, hcast, hr1, pure, Except.pure, Option.map_some']
    · rw [voxelsOf_append, voxelsOf_append, voxelsOf_append, voxelsOf_marksAt, voxelsOf_endlsAt,
        hr2, List.drop_eq_getElem_cons hi, List.take_succ_cons, List.map_cons]
      rfl

/-- C15 (voxel characters in the text output): for a decoded grid of `n` bytes,
with `gridsize = n` the product of the dimensions computed in `int`, the output
loop runs to its end and writes exactly `n` voxel characters in flat index
order, the `i`-th being the byte `(voxels[i] + 48) mod 256` (followed by one
space): 0 is written as `0`, 1 as `1`, and any other value `v` as the character
with code `v + 48`. -/
theorem voxel_characters (g : Globals) (grid : List Byte) (hvox : g.voxels = grid.map some)
    (hsize : g.gridsize = (grid.length : Int))
    (hdim : g.gridsize = wrap32 (wrap32 (g.width * g.height) * g.depth)) :
    ∃ out, writeVoxels g = Except.ok out ∧
      voxelsOf out = grid.map (fun v => some (voxelChar v)) ∧
      (voxelsOf out).length = grid.length ∧
      voxelChar 0 = 48 ∧ voxelChar 1 = 49 ∧ ∀ v : Byte, (voxelChar v).val = (v.val + 48) % 256 := by
  have hk : g.gridsize.toNat = grid.length := by rw [hsize]; simp
  have hfix : voxelChar 0 = 48 ∧ voxelChar 1 = 49 ∧
      ∀ v : Byte, (voxelChar v).val = (v.val + 48) % 256 := ⟨rfl, rfl, fun _ => rfl⟩
  by_cases hz : grid = []
  · subst hz
    refine ⟨[], ?_, rfl, rfl, hfix⟩
    unfold writeVoxels
    rw [hk]
    rfl
  · have hpos : 0 < g.gridsize := by
      rw [hsize]
      have := List.length_pos.mpr hz
      exact_mod_cast this
    obtain ⟨h1, h2, h3, _⟩ := divisors_ne_zero g hdim hpos
    obtain ⟨out, ho1, ho2⟩ := outputLoop_voxels g grid hvox h1 h2 h3 grid.length 0 (by omega)
    refine ⟨out, ?_, ?_, ?_, hfix⟩
    · unfold writeVoxels
      rw [hk]
      exact ho1
    · rw [ho2]
      simp
    · rw [ho2]
      simp

/-- C15 witness: the grid 0, 1, 7 with the dimensions 1, 1, 3 is written as the
characters `0`, `1`, `7`. -/
theorem voxel_characters_witness :
    ∃ out,
      writeVoxels
          { Globals.initial with
            depth := 1, height := 1, width := 3, gridsize := 3,
            voxels := [some 0, some 1, some 7] } = Except.ok out ∧
      voxelsOf out = [some 48, some 49, some 55] ∧
      (voxelsOf out).length = 3 ∧
      voxelChar 0 = 48 ∧ voxelChar 1 = 49 ∧ ∀ v : Byte, (voxelChar v).val = (v.val + 48) % 256 :=
  voxel_characters
    { Globals.initial with depth := 1, height := 1, width := 3, gridsize := 3,
                           voxels := [some 0, some 1, some 7] }
    [0, 1, 7] rfl rfl (by decide)

/-! ## Termination of the decode loop -/

/-- A byte extraction that leaves the stream good has consumed a byte. -/
theorem extractByte_good (s : IStream) (old : Byte) (h : (extractByte s old).1.good = true) :
    s.good = true ∧ (extractByte s old).1.rest.length + 1 ≤ s.rest.length := by
  have hs := sentry_reads s
  unfold extractByte at h ⊢
  rcases hsn : sentry s with ⟨s1, ok⟩
  rw [hsn] at hs h
  simp only at hs h ⊢
  cases ok
  · simp only [Bool.false_eq_true, if_false] at h
    have := sentry_false s (by rw [hsn])
    rw [hsn] at this
    simp only at this
    rw [this] at h
    exact absurd h (by simp)
  · obtain ⟨rest, eof, fail, sk⟩ := s1
    cases rest with
    | nil =>
      simp only [if_true] at h
      simp [IStream.good] at h
    | cons b r =>
      simp only [if_true] at h ⊢
      have hl := hs.length_le
      simp only [List.length_cons] at hl
      exact ⟨hs.2.1 (by simpa [IStream.good] using h), by omega⟩

/-- The two extractions of a pass of the decode loop either leave the stream
not good or have consumed two bytes. -/
theorem decode_pass_progress (st : DState) :
    (extractByte (extractByte st.input st.value).1 st.count).1.good = false ∨
      (extractByte (extractByte st.input st.value).1 st.count).1.rest.length + 2 ≤
        st.input.rest.length := by
  cases hg : (extractByte (extractByte st.input st.value).1 st.count).1.good
  · left; rfl
  · right
    obtain ⟨h1, h2⟩ := extractByte_good _ _ hg
    obtain ⟨_, h4⟩ := extractByte_good _ _ h1
    omega

/-- On a stream that is not good the decode loop stops at once. -/
theorem decodeLoop_not_good (G : Int) (n : Nat) (st : DState) (h : st.input.good = false) :
    decodeLoop G (n + 1) st = some (Exit.ret true, st) :=
  decodeLoop_exit G n st (by simp [h])

/-- The decode loop ends (it is left by `return` or by its condition, or it
stops at a store outside the buffer): fuel for every unread byte and two more
is enough, whatever the grid size and the state. -/
theorem decodeLoop_total (G : Int) :
    ∀ (n : Nat) (st : DState), st.input.rest.length + 2 ≤ n → ∃ r, decodeLoop G n st = some r := by
  intro n
  induction n with
  | zero => intro st h; omega
  | succ n ih =>
    intro st hlen
    by_cases hguard : (decide (st.end_index < G) && st.input.good) = true
    · have hp := decode_pass_progress st
      rcases h1 : extractByte st.input st.value with ⟨i1, value⟩
      rw [h1] at hp
      simp only at hp
      rcases h2 : extractByte i1 st.count with ⟨i2, count⟩
      rw [h2] at hp
      simp only at hp
      by_cases hg2 : i2.good = true
      · have hlen2 : i2.rest.length + 2 ≤ st.input.rest.length := by
          rcases hp with hp | hp
          · rw [hg2] at hp; exact absurd hp (by simp)
          · exact hp
        by_cases hov : wrap32 (st.index + (count.val : Int)) > G
        · refine ⟨(Exit.ret false,
              { st with
                input := i2, value := value, count := count,
                end_index := wrap32 (st.index + (count.val : Int)) }), ?_⟩
          simp only [decodeLoop, hguard, h1, h2, hg2, hov, if_true]
        · rcases hf : fillRun value (wrap32 (st.index + (count.val : Int)) - st.index).toNat
              st.index st.voxels st.writes with i | p
          · refine ⟨(Exit.storeFault i,
                { st with
                  input := i2, value := value, count := count,
                  end_index := wrap32 (st.index + (count.val : Int)) }), ?_⟩
            simp only [decodeLoop, hguard, h1, h2, hg2, hov, hf, if_true, if_false]
          · obtain ⟨r, hr⟩ := ih
              { input := i2,
                voxels := p.1,
                value := value, count := count,
                index := wrap32 (st.index + (count.val : Int)),
                end_index := wrap32 (st.index + (count.val : Int)),
                nr_voxels :=
                  if value ≠ 0 then wrap32 (st.nr_voxels + (count.val : Int)) else st.nr_voxels,
                writes := p.2 }
              (by simp only; omega)
            exact ⟨r, by
              simp only [decodeLoop, hguard, h1, h2, hg2, hov, hf, if_true, if_false]
              exact hr⟩
      · obtain ⟨m, rfl⟩ : ∃ m, n = m + 1 := ⟨n - 1, by omega⟩
        refine ⟨(Exit.ret true, { st with input := i2, value := value, count := count }), ?_⟩
        have hstep : decodeLoop G (m + 1 + 1) st =
            decodeLoop G (m + 1) { st with input := i2, value := value, count := count } := by
          simp only [decodeLoop, hguard, h1, h2, hg2, if_true, Bool.false_eq_true, if_false]
        rw [hstep]
        exact decodeLoop_not_good G m _ (by simpa using hg2)
    · exact ⟨_, decodeLoop_exit G n st (by simpa using hguard)⟩

/-- The decode stage always ends. -/
theorem decodePayload_total (G : Int) (buf : List (Option Byte)) (input : IStream) :
    ∃ r, decodePayload G buf input = some r := by
  unfold decodePayload
  rcases extractByte input.unsetSkipws 0 with ⟨i1, value⟩
  exact decodeLoop_total G _ _ (le_refl _)

/-- C17 (termination of the decode loop): for every grid size, buffer and
stream the decode stage ends; from any state the loop ends within the fuel of
two plus the number of unread bytes (and with any more); each pass either
leaves the stream not good or has consumed two bytes; and any number `k` of
pairs with count 0, which never advance the filled index, is decoded to the end
of the input, where the loop is left with `true`. -/
theorem decode_loop_terminates (G : Int) (buf : List (Option Byte)) (input : IStream)
    (st : DState) (m k : Nat) :
    (∃ r, decodePayload G buf input = some r) ∧
    (∃ r, decodeLoop G (st.input.rest.length + 2 + m) st = some r) ∧
    ((extractByte (extractByte st.input st.value).1 st.count).1.good = false ∨
      (extractByte (extractByte st.input st.value).1 st.count).1.rest.length + 2 ≤
        st.input.rest.length) ∧
    (∃ st2, decodePayload 1 [none]
        ⟨10 :: (encode (List.replicate k (5, 0)) ++ []), false, false, true⟩ = some (Exit.ret true, st2) ∧
      st2.index = 0) := by
  refine ⟨decodePayload_total G buf input, decodeLoop_total G _ st (by omega),
    decode_pass_progress st, ?_⟩
  obtain ⟨st2, h1, h2, _⟩ := truncated_payload_accepted 1 (by decide) [none] 10
    (List.replicate k (5, 0)) [] true rfl
    (by rw [expand_replicate_length]; simp) (by simp)
  refine ⟨st2, h1, ?_⟩
  rw [h2, expand_replicate_length]
  simp

/-! ## The decode loop beyond the range of `int` -/

theorem wrap32_range (x : Int) : -2147483648 ≤ wrap32 x ∧ wrap32 x ≤ 2147483647 := by
  unfold wrap32
  omega

/-- A fill loop that ends without a fault has appended the indices of its run
to the trace and kept the size of the buffer. -/
theorem fillRun_ok (v : Byte) (k : Nat) :
    ∀ (i : Int) (buf : List (Option Byte)) (tr : List Int)
      (p : List (Option Byte) × List Int), fillRun v k i buf tr = Except.ok p →
      p.2 = tr ++ indexRun i k ∧ p.1.length = buf.length := by
  induction k with
  | zero =>
    intro i buf tr p h
    simp only [fillRun, Except.ok.injEq] at h
    subst h
    simp [indexRun]
  | succ k ih =>
    intro i buf tr p h
    simp only [fillRun] at h
    unfold store at h
    split_ifs at h with hb
    simp only at h
    obtain ⟨h1, h2⟩ := ih _ _ _ p h
    rw [h1, h2, indexRun_succ]
    simp

/-- A fill loop whose first store is outside the buffer stops at that store. -/
theorem fillRun_fault (v : Byte) (k : Nat) (i : Int) (buf : List (Option Byte)) (tr : List Int)
    (hi : ¬ (0 ≤ i ∧ i < (buf.length : Int))) :
    fillRun v (k + 1) i buf tr = Except.error i := by
  simp only [fillRun, store, if_neg hi]

theorem countNonzero_expand_replicate (k : Nat) (v c : Byte) :
    countNonzero (expand (List.replicate k (v, c))) = if v ≠ 0 then k * c.val else 0 := by
  induction k with
  | zero => simp [expand, countNonzero]
  | succ k ih =>
    rw [List.replicate_succ]
    simp only [expand, countNonzero_append, countNonzero_replicate, ih]
    by_cases hv : v = 0
    · simp [hv]
    · simp only [ne_eq, hv, not_false_eq_true, if_true]
      ring

/-- A pass over a pair whose count wraps the filled index: no store, the
wrapped sum becomes the filled index, and the count is added to `nr_voxels`. -/
theorem decodeLoop_pair_wrapped (G : Int) (n : Nat) (st : DState) (v c : Byte) (r : List Byte)
    (hgood : st.input.good = true) (hsk : st.input.skipws = false)
    (hrest : st.input.rest = v :: c :: r) (hend : st.end_index = st.index)
    (hlt : st.index < G) (hw : wrap32 (st.index + (c.val : Int)) < st.index) :
    decodeLoop G (n + 1) st =
      decodeLoop G n
        { input := { st.input with rest := r }, voxels := st.voxels, value := v, count := c,
          index := wrap32 (st.index + (c.val : Int)),
          end_index := wrap32 (st.index + (c.val : Int)),
          nr_voxels := if v ≠ 0 then wrap32 (st.nr_voxels + (c.val : Int)) else st.nr_voxels,
          writes := st.writes } := by
  have hlt2 : st.end_index < G := by rw [hend]; exact hlt
  have hnot : ¬ (wrap32 (st.index + (c.val : Int)) > G) := by omega
  have hk : (wrap32 (st.index + (c.val : Int)) - st.index).toNat = 0 := by
    apply Int.toNat_eq_zero.mpr
    omega
  rw [decodeLoop_pair G n st v c r hgood hsk hrest hlt2, if_neg hnot, hk]
  rfl

/-- On a stream that ends before the next pair is complete the decode loop
stops with `true` and leaves index, counters, buffer and trace as they are. -/
theorem decodeLoop_input_ends_state (G : Int) (n : Nat) (st : DState) (tail : List Byte)
    (hgood : st.input.good = true) (hsk : st.input.skipws = false)
    (hrest : st.input.rest = tail) (htail : tail.length ≤ 1) :
    ∃ st2, decodeLoop G (n + 2) st = some (Exit.ret true, st2) ∧ st2.index = st.index ∧
      st2.end_index = st.end_index ∧ st2.nr_voxels = st.nr_voxels ∧
      st2.voxels = st.voxels ∧ st2.writes = st.writes := by
  have he : st.input.eofbit = false := by
    simp only [IStream.good, Bool.and_eq_true, Bool.not_eq_true'] at hgood
    exact hgood.1
  have hf : st.input.failbit = false := by
    simp only [IStream.good, Bool.and_eq_true, Bool.not_eq_true'] at hgood
    exact hgood.2
  by_cases hlt : st.end_index < G
  · match tail, htail with
    | [], _ =>
      refine ⟨{ st with input := ⟨[], true, true, false⟩ }, ?_, rfl, rfl, rfl, rfl, rfl⟩
      simp [decodeLoop, extractByte, sentry, IStream.good, he, hf, hsk, hlt, hrest]
    | [v], _ =>
      refine ⟨{ st with input := ⟨[], true, true, false⟩, value := v }, ?_, rfl, rfl, rfl, rfl,
        rfl⟩
      simp [decodeLoop, extractByte, sentry, IStream.good, he, hf, hsk, hlt, hrest]
  · refine ⟨st, ?_, rfl, rfl, rfl, rfl, rfl⟩
    simp [decodeLoop, hlt]

/-- The decode stage on runs that stop short of the grid end, followed by a
last pair with a nonzero value whose count wraps the filled index: it returns
true, and both the filled index and `nr_voxels` are wrapped sums. -/
theorem decodePayload_wrapped_count (G : Int) (hG : G ≤ 2147483647)
    (buf : List (Option Byte)) (lead v c : Byte) (ps : List (Byte × Byte)) (sk : Bool)
    (hbuf : (buf.length : Int) = G) (hlt : (expand ps).length < buf.length) (hv : v ≠ 0)
    (hw : wrap32 (((expand ps).length : Int) + (c.val : Int)) < ((expand ps).length : Int)) :
    ∃ st, decodePayload G buf ⟨lead :: (encode ps ++ [v, c]), false, false, sk⟩ =
        some (Exit.ret true, st) ∧
      st.index = wrap32 (((expand ps).length : Int) + (c.val : Int)) ∧
      st.end_index = st.index ∧
      st.nr_voxels = wrap32 ((countNonzero (expand ps) : Int) + (c.val : Int)) ∧
      st.voxels = (expand ps).map some ++ buf.drop (expand ps).length := by
  rw [decodePayload_start]
  have hfuel : (encode ps ++ [v, c]).length + 2 = ps.length + ((ps.length + 1) + 2 + 1) := by
    rw [List.length_append, encode_length]
    simp only [List.length_cons, List.length_nil]
    omega
  rw [hfuel]
  obtain ⟨st2, h1, h2, h3, h4, h5, h6, h7⟩ :=
    decodeLoop_runs G hG ps ((ps.length + 1) + 2 + 1) [] buf [v, c]
      { input := ⟨encode ps ++ [v, c], false, false, false⟩, voxels := buf, value := lead,
        count := 0, index := 0, end_index := 0, nr_voxels := 0, writes := [] }
      rfl rfl rfl rfl rfl rfl hlt (by simpa using hbuf) (le_refl _) (le_refl _)
  rw [h1]
  simp only [List.length_nil, Nat.cast_zero, zero_add, List.nil_append] at h2 h3 h4 h5 h6 h7
  have hlt2 : st2.index < G := by
    rw [h4, ← hbuf]
    exact_mod_cast hlt
  rw [decodeLoop_pair_wrapped G _ st2 v c [] (by rw [h2]; rfl) (by rw [h2]) (by rw [h2]) h5 hlt2
    (by rw [h4]; exact hw)]
  obtain ⟨st3, e1, e2, e3, e4, e5, _⟩ := decodeLoop_input_ends_state G (ps.length + 1)
    { input := { st2.input with rest := [] }, voxels := st2.voxels, value := v, count := c,
      index := wrap32 (st2.index + (c.val : Int)),
      end_index := wrap32 (st2.index + (c.val : Int)),
      nr_voxels := if v ≠ 0 then wrap32 (st2.nr_voxels + (c.val : Int)) else st2.nr_voxels,
      writes := st2.writes } []
    (by rw [h2]; rfl) (by rw [h2]) rfl (by simp)
  refine ⟨st3, e1, ?_, ?_, ?_, ?_⟩
  · rw [e2, h4]
  · rw [e3, e2]
  · rw [e4]
    simp only [ne_eq, hv, not_false_eq_true, if_true, h6]
  · rw [e5, h3]

/-- The decode stage on runs that stop short of the grid end, followed by a
pair whose count wraps the filled index to a negative number and by one more
pair with a count that is not 0: the first store of that last pair goes to the
negative filled index, outside the buffer, and the run stops there. -/
theorem decodePayload_wrapped_store (G : Int) (hG : G ≤ 2147483647)
    (buf : List (Option Byte)) (lead v c v2 c2 : Byte) (ps : List (Byte × Byte)) (sk : Bool)
    (hbuf : (buf.length : Int) = G) (hlt : (expand ps).length < buf.length)
    (hw : wrap32 (((expand ps).length : Int) + (c.val : Int)) < 0) (hc2 : 0 < c2.val) :
    ∃ st, decodePayload G buf ⟨lead :: (encode ps ++ [v, c, v2, c2]), false, false, sk⟩ =
        some (Exit.storeFault (wrap32 (((expand ps).length : Int) + (c.val : Int))), st) ∧
      st.index = wrap32 (((expand ps).length : Int) + (c.val : Int)) ∧
      st.value = v2 ∧ st.count = c2 ∧
      st.writes = indexRun 0 (expand ps).length ∧
      st.voxels.length = buf.length := by
  rw [decodePayload_start]
  have hfuel : (encode ps ++ [v, c, v2, c2]).length + 2 =
      ps.length + ((ps.length + 2) + 2 + 1 + 1) := by
    rw [List.length_append, encode_length]
    simp only [List.length_cons, List.length_nil]
    omega
  rw [hfuel]
  obtain ⟨st2, h1, h2, h3, h4, h5, h6, h7⟩ :=
    decodeLoop_runs G hG ps ((ps.length + 2) + 2 + 1 + 1) [] buf [v, c, v2, c2]
      { input := ⟨encode ps ++ [v, c, v2, c2], false, false, false⟩, voxels := buf,
        value := lead, count := 0, index := 0, end_index := 0, nr_voxels := 0, writes := [] }
      rfl rfl rfl rfl rfl rfl hlt (by simpa using hbuf) (le_refl _) (le_refl _)
  rw [h1]
  simp only [List.length_nil, Nat.cast_zero, zero_add, List.nil_append] at h2 h3 h4 h5 h6 h7
  have hlt2 : st2.index < G := by
    rw [h4, ← hbuf]
    exact_mod_cast hlt
  have hc255 : (c.val : Int) ≤ 255 := by
    have := c.isLt
    omega
  have hc2255 : (c2.val : Int) ≤ 255 := by
    have := c2.isLt
    omega
  have hlen0 : (0 : Int) ≤ ((expand ps).length : Int) := by omega
  have hlo := (wrap32_range (((expand ps).length : Int) + (c.val : Int))).1
  have hbig : (2147483392 : Int) < G := by
    unfold wrap32 at hw
    have hlt3 : ((expand ps).length : Int) < G := by rw [← hbuf]; exact_mod_cast hlt
    omega
  have he1 : wrap32 (st2.index + (c.val : Int)) =
      wrap32 (((expand ps).length : Int) + (c.val : Int)) := by rw [h4]
  rw [decodeLoop_pair_wrapped G _ st2 v c [v2, c2] (by rw [h2]; rfl) (by rw [h2]) (by rw [h2])
    h5 hlt2 (by rw [he1, h4]; omega)]
  have hw2 : wrap32 (wrap32 (st2.index + (c.val : Int)) + (c2.val : Int)) =
      wrap32 (st2.index + (c.val : Int)) + (c2.val : Int) := by
    rw [he1]
    apply wrap32_of_range <;> omega
  have hstep := decodeLoop_pair G (ps.length + 2 + 2)
    { input := { st2.input with rest := [v2, c2] }, voxels := st2.voxels, value := v, count := c,
      index := wrap32 (st2.index + (c.val : Int)),
      end_index := wrap32 (st2.index + (c.val : Int)),
      nr_voxels := if v ≠ 0 then wrap32 (st2.nr_voxels + (c.val : Int)) else st2.nr_voxels,
      writes := st2.writes } v2 c2 [] (by rw [h2]; rfl) (by rw [h2]) rfl
    (by simp only; rw [he1]; omega)
  simp only [hw2] at hstep
  have hnot : ¬ (wrap32 (st2.index + (c.val : Int)) + (c2.val : Int) > G) := by
    rw [he1]; omega
  rw [if_neg hnot] at hstep
  have hk : (wrap32 (st2.index + (c.val : Int)) + (c2.val : Int) -
      wrap32 (st2.index + (c.val : Int))).toNat = c2.val := by
    have : wrap32 (st2.index + (c.val : Int)) + (c2.val : Int) -
        wrap32 (st2.index + (c.val : Int)) = ((c2.val : Nat) : Int) := by ring
    rw [this, Int.toNat_ofNat]
  rw [hk] at hstep
  obtain ⟨k, hk2⟩ : ∃ k, c2.val = k + 1 := ⟨c2.val - 1, by omega⟩
  have hfault : fillRun v2 c2.val (wrap32 (st2.index + (c.val : Int))) st2.voxels st2.writes =
      Except.error (wrap32 (st2.index + (c.val : Int))) := by
    rw [hk2]
    exact fillRun_fault v2 k (wrap32 (st2.index + (c.val : Int))) st2.voxels st2.writes
      (by rw [he1]; omega)
  rw [hfault] at hstep
  simp only [] at hstep
  rw [hstep]
  refine ⟨{ st2 with
      input := { st2.input with rest := [] }, value := v2, count := c2,
      index := wrap32 (st2.index + (c.val : Int)),
      end_index := wrap32 (st2.index + (c.val : Int)) + (c2.val : Int),
      nr_voxels := if v ≠ 0 then wrap32 (st2.nr_voxels + (c.val : Int)) else st2.nr_voxels },
    by rw [he1], he1, rfl, rfl, h7, ?_⟩
  simp only
  rw [h3]
  simp only [List.length_append, List.length_map, List.length_drop]
  omega

/-- C13, the code at a grid of the largest size.  The file `#binvox 1`,
`dim 2147483647 1 1`, `data` holds 8421504 pairs (1, 255) and then one more pair
(1, 255).  The sums 2147483520 + 255 for the filled index and for `nr_voxels`
do not fit an `int`: `read_binvox` returns true with `nr_voxels = -2147483521`
and the filled index `-2147483521`, so the count is negative, while no voxel
lies below the filled index and 2147483520 nonzero voxels have been stored. -/
theorem nr_voxels_wraps :
    ∃ g2 st, read_binvox (fun _ => true) Globals.initial
        (headerText 1 2147483647 1 1 ++
          10 :: (encode (List.replicate 8421504 (1, 255)) ++ [1, 255])) =
        Outcome.returned true g2 (some st) ∧
      st.nr_voxels = -2147483521 ∧ st.index = -2147483521 ∧ st.end_index = st.index ∧
      countNonzero (expand (List.replicate 8421504 (1, 255))) = 2147483520 := by
  have hh := read_header_plain (fun _ => true) Globals.initial 1 2147483647 1 1 10
    (encode (List.replicate 8421504 (1, 255)) ++ [1, 255]) isSpace_10
    (by decide) (by decide) (by decide) (by decide)
  have hd : decide ((2147483647 : Int) ≠ -1) = true := by decide
  rw [hd] at hh
  have hG : wrap32 (wrap32 ((1 : Int) * 1) * 2147483647) = 2147483647 := by decide
  have hlen : (expand (List.replicate 8421504 ((1 : Byte), (255 : Byte)))).length = 2147483520 := by
    rw [expand_replicate_length]
    rfl
  have hcnt : countNonzero (expand (List.replicate 8421504 ((1 : Byte), (255 : Byte)))) =
      2147483520 := by
    rw [countNonzero_expand_replicate, if_pos (by decide)]
    rfl
  have h255 : (((255 : Byte).val : Nat) : Int) = 255 := by decide
  obtain ⟨st, e1, e2, e3, e4, _⟩ := decodePayload_wrapped_count 2147483647 (le_refl _)
    (List.replicate (Int.toNat 2147483647) none) 10 1 255 (List.replicate 8421504 (1, 255)) true
    (by rw [List.length_replicate]; rfl)
    (by rw [List.length_replicate, hlen]; decide)
    (by decide)
    (by rw [hlen, h255]; decide)
  rw [read_binvox_of_header _ _ _ _ _ 2147483647 hh hG (by decide), e1]
  refine ⟨_, _, rfl, ?_, ?_, e3, hcnt⟩
  · rw [e4, hcnt, h255]
    decide
  · rw [e2, hlen, h255]
    decide

/-- A call of `read_binvox` that stores outside the buffer ends the run of
`main` in that fault. -/
theorem main_of_storeFault (F : List Byte → Bool) (file : List Byte) (i : Int) (g : Globals)
    (st : DState) (h : read_binvox F Globals.initial file = Outcome.storeFault i g st) :
    main F file = MainResult.crashed Fault.outOfBounds := by
  unfold main
  rw [h]

/-- C16, the code at a grid of the largest size.  The file `#binvox 1`,
`dim 2147483647 1 1`, `data` holds 8421504 pairs (1, 255), then the pair
(1, 255), which wraps the filled index to -2147483521, and then the pair (1, 1).
At the start of the pass for that last pair the filled index is -2147483521,
which is not between 0 and the grid size, and the pass executes the store
`voxels[-2147483521] = 1`, outside the buffer of 2147483647 cells: the call of
`read_binvox` does not return, and the run of `main` ends in that fault. -/
theorem store_out_of_bounds :
    ∃ g2 st, read_binvox (fun _ => true) Globals.initial
        (headerText 1 2147483647 1 1 ++
          10 :: (encode (List.replicate 8421504 (1, 255)) ++ [1, 255, 1, 1])) =
        Outcome.storeFault (-2147483521) g2 st ∧
      g2.gridsize = 2147483647 ∧ st.voxels.length = 2147483647 ∧
      st.index = -2147483521 ∧ st.value = 1 ∧ st.count = 1 ∧
      st.writes = indexRun 0 2147483520 ∧
      main (fun _ => true)
        (headerText 1 2147483647 1 1 ++
          10 :: (encode (List.replicate 8421504 (1, 255)) ++ [1, 255, 1, 1])) =
        MainResult.crashed Fault.outOfBounds := by
  have hh := read_header_plain (fun _ => true) Globals.initial 1 2147483647 1 1 10
    (encode (List.replicate 8421504 (1, 255)) ++ [1, 255, 1, 1]) isSpace_10
    (by decide) (by decide) (by decide) (by decide)
  have hd : decide ((2147483647 : Int) ≠ -1) = true := by decide
  rw [hd] at hh
  have hG : wrap32 (wrap32 ((1 : Int) * 1) * 2147483647) = 2147483647 := by decide
  have hlen : (expand (List.replicate 8421504 ((1 : Byte), (255 : Byte)))).length = 2147483520 := by
    rw [expand_replicate_length]
    rfl
  have h255 : (((255 : Byte).val : Nat) : Int) = 255 := by decide
  have hwv : wrap32 ((2147483520 : Nat) + (255 : Int)) = -2147483521 := by decide
  have hidx : wrap32 (((expand (List.replicate 8421504 ((1 : Byte), (255 : Byte)))).length : Int) +
      (((255 : Byte).val : Nat) : Int)) = -2147483521 := by
    rw [hlen, h255]
    exact hwv
  obtain ⟨st, e1, e2, e3, e4, e5, e6⟩ := decodePayload_wrapped_store 2147483647 (le_refl _)
    (List.replicate (Int.toNat 2147483647) none) 10 1 255 1 1
    (List.replicate 8421504 (1, 255)) true
    (by rw [List.length_replicate]; rfl)
    (by rw [List.length_replicate, hlen]; decide)
    (by rw [hidx]; decide)
    (by decide)
  rw [hidx] at e1 e2
  rw [hlen] at e5
  have hrb := read_binvox_of_header _ _ _ _ _ 2147483647 hh hG (by decide)
  rw [e1] at hrb
  have hmain : main (fun _ => true)
        (headerText 1 2147483647 1 1 ++
          10 :: (encode (List.replicate 8421504 (1, 255)) ++ [1, 255, 1, 1])) =
        MainResult.crashed Fault.outOfBounds := by
    exact main_of_storeFault _ _ _ _ _ hrb
  exact ⟨_, _, hrb, rfl, by rw [e6, List.length_replicate]; rfl, e2, e3, e4, e5, hmain⟩

/-! ## The decode loop within the range of `int` -/

theorem nonzeroCells_append (a b : List (Option Byte)) :
    nonzeroCells (a ++ b) = nonzeroCells a + nonzeroCells b := by
  simp [nonzeroCells]

theorem nonzeroCells_replicate (k : Nat) (v : Byte) :
    nonzeroCells (List.replicate k (some v)) = if v ≠ 0 then k else 0 := by
  unfold nonzeroCells
  by_cases h : v = 0
  · subst h
    simp [List.filter_replicate]
  · simp [h, List.filter_replicate]

theorem nonzeroCells_le (a : List (Option Byte)) : nonzeroCells a ≤ a.length := by
  unfold nonzeroCells
  exact List.length_filter_le _ _

/-- The fill loop over a run that lies inside the buffer, by position: it ends
without a fault. -/
theorem fillRun_in_buffer (v : Byte) (k i : Nat) (buf : List (Option Byte)) (tr : List Int)
    (h : i + k ≤ buf.length) :
    fillRun v k (i : Int) buf tr =
      Except.ok (buf.take i ++ List.replicate k (some v) ++ buf.drop (i + k),
        tr ++ indexRun (i : Int) k) := by
  have hpre : (buf.take i).length = i := by rw [List.length_take]; omega
  have hmid : ((buf.drop i).take k).length = k := by
    rw [List.length_take, List.length_drop]; omega
  have hsplit : buf = buf.take i ++ (buf.drop i).take k ++ buf.drop (i + k) := by
    rw [List.append_assoc, ← List.drop_drop, List.take_append_drop, List.take_append_drop]
  have := fillRun_inside v ((buf.drop i).take k) (buf.take i) (buf.drop (i + k)) tr
  rw [← hsplit, hmid, hpre] at this
  exact this

/-- From a state with the invariant, the fill loop of a run that is not
rejected ends without a fault, and the state behind the run has the invariant. -/
theorem InBounds_step (G : Int) (hG : G ≤ 2147483392) (st : DState) (h : InBounds G st)
    (i2 : IStream) (value count : Byte)
    (hov : ¬ wrap32 (st.index + (count.val : Int)) > G) :
    ∃ p, fillRun value (wrap32 (st.index + (count.val : Int)) - st.index).toNat
        st.index st.voxels st.writes = Except.ok p ∧
      InBounds G
        { input := i2,
          voxels := p.1,
          value := value, count := count,
          index := wrap32 (st.index + (count.val : Int)),
          end_index := wrap32 (st.index + (count.val : Int)),
          nr_voxels :=
            if value ≠ 0 then wrap32 (st.nr_voxels + (count.val : Int)) else st.nr_voxels,
          writes := p.2 } := by
  obtain ⟨h0, h1, hlen, hwr, hnr⟩ := h
  have hc : (count.val : Int) < 256 := by have := count.isLt; omega
  have hc0 : (0 : Int) ≤ (count.val : Int) := by omega
  have hw : wrap32 (st.index + (count.val : Int)) = st.index + (count.val : Int) :=
    wrap32_of_range _ (by omega) (by omega)
  rw [hw] at hov ⊢
  have hk : (st.index + (count.val : Int) - st.index).toNat = count.val := by
    rw [add_sub_cancel_left]; exact Int.toNat_natCast _
  rw [hk]
  have hidx : st.index = ((st.index.toNat : Nat) : Int) := (Int.toNat_of_nonneg h0).symm
  have hfit : st.index.toNat + count.val ≤ st.voxels.length := by
    rw [hlen]; omega
  have hpre : (st.voxels.take st.index.toNat).length = st.index.toNat := by
    rw [List.length_take]; omega
  have hto : (st.index + (count.val : Int)).toNat = st.index.toNat + count.val := by omega
  have hfill : fillRun value count.val st.index st.voxels st.writes =
      Except.ok (st.voxels.take st.index.toNat ++ List.replicate count.val (some value) ++
        st.voxels.drop (st.index.toNat + count.val),
        st.writes ++ indexRun st.index count.val) := by
    have := fillRun_in_buffer value count.val st.index.toNat st.voxels st.writes hfit
    rw [← hidx] at this
    exact this
  refine ⟨_, hfill, by simp only; omega, by simp only; omega, ?_, ?_, ?_⟩
  · simp only [List.length_append, List.length_take, List.length_replicate, List.length_drop]
    omega
  · simp only
    rw [hwr, hto, indexRun_append, zero_add, ← hidx]
  · simp only
    rw [hto]
    have htake : (st.voxels.take st.index.toNat ++ List.replicate count.val (some value) ++
        st.voxels.drop (st.index.toNat + count.val)).take (st.index.toNat + count.val) =
        st.voxels.take st.index.toNat ++ List.replicate count.val (some value) := by
      rw [List.take_append_of_le_length (by simp [hpre])]
      rw [List.take_of_length_le (by simp [hpre])]
    rw [htake, nonzeroCells_append, nonzeroCells_replicate]
    have hle := nonzeroCells_le (st.voxels.take st.index.toNat)
    rw [hpre] at hle
    by_cases hv : value = 0
    · simp [hv, hnr]
    · simp only [hv, ne_eq, not_false_eq_true, if_true]
      rw [wrap32_of_range _ (by omega) (by omega), hnr]
      push_cast
      rfl

/-- As long as the grid size is at most 2147483392 (so that no sum
`index + count` leaves the range of `int`), the decode loop started in a state
with the invariant never stores outside the buffer: it is left by `return` in
a state with the invariant; and when it is left because its condition became
false, `end_index` equals `index` if it did at the start. -/
theorem decodeLoop_in_bounds (G : Int) (hG : G ≤ 2147483392) :
    ∀ (n : Nat) (st : DState) (e : Exit) (st2 : DState),
      InBounds G st → st.end_index = st.index → decodeLoop G n st = some (e, st2) →
      (∃ ret, e = Exit.ret ret) ∧ InBounds G st2 ∧
        (e = Exit.ret true → st2.end_index = st2.index) := by
  intro n
  induction n with
  | zero => intro st e st2 _ _ h; simp [decodeLoop] at h
  | succ n ih =>
    intro st e st2 hinv hend h
    by_cases hguard : (decide (st.end_index < G) && st.input.good) = true
    · rcases h1 : extractByte st.input st.value with ⟨i1, value⟩
      rcases h2 : extractByte i1 st.count with ⟨i2, count⟩
      by_cases hg2 : i2.good = true
      · by_cases hov : wrap32 (st.index + (count.val : Int)) > G
        · simp only [decodeLoop, hguard, h1, h2, hg2, hov, if_true, Option.some.injEq,
            Prod.mk.injEq] at h
          obtain ⟨hr, hs⟩ := h
          subst hs
          refine ⟨⟨false, hr.symm⟩, hinv, ?_⟩
          intro hc
          rw [← hr] at hc
          exact absurd hc (by simp)
        · obtain ⟨p, hf, hinv2⟩ := InBounds_step G hG st hinv i2 value count hov
          simp only [decodeLoop, hguard, h1, h2, hg2, hov, hf, if_true, if_false] at h
          exact ih _ e st2 hinv2 rfl h
      · simp only [decodeLoop, hguard, h1, h2, hg2, if_true, Bool.false_eq_true, if_false] at h
        exact ih { st with input := i2, value := value, count := count } e st2 hinv hend h
    · rw [decodeLoop_exit G n st (by simpa using hguard)] at h
      simp only [Option.some.injEq, Prod.mk.injEq] at h
      obtain ⟨hr, hs⟩ := h
      subst hs
      exact ⟨⟨true, hr.symm⟩, hinv, fun _ => hend⟩

/-- Every run of the decode stage on a grid of at most 2147483392 voxels,
whatever the stream holds: no store falls outside the buffer (the stage is
left by `return`), the filled index ends between 0 and the grid size, the
stores went to the indices 0, 1, ... below the filled index, each once and in
increasing order, `nr_voxels` is the number of nonzero cells below the filled
index, and if the stage returns true then `end_index` equals `index`. -/
theorem decodePayload_in_bounds (G : Int) (h0 : 0 ≤ G) (hG : G ≤ 2147483392)
    (buf : List (Option Byte)) (hbuf : buf.length = G.toNat) (input : IStream)
    (e : Exit) (st : DState) (h : decodePayload G buf input = some (e, st)) :
    (∃ ret, e = Exit.ret ret) ∧
      0 ≤ st.index ∧ st.index ≤ G ∧ st.voxels.length = buf.length ∧
      st.writes = indexRun 0 st.index.toNat ∧
      (∀ i ∈ st.writes, 0 ≤ i ∧ i < G) ∧
      st.nr_voxels = (nonzeroCells (st.voxels.take st.index.toNat) : Int) ∧
      (e = Exit.ret true → st.end_index = st.index) := by
  unfold decodePayload at h
  simp only at h
  rcases h1 : extractByte input.unsetSkipws 0 with ⟨i1, value⟩
  rw [h1] at h
  simp only at h
  obtain ⟨hret, ⟨a, b, c, d, e2⟩, f⟩ := decodeLoop_in_bounds G hG _ _ e st
    ⟨le_refl _, h0, hbuf, by simp [indexRun], by simp [nonzeroCells]⟩ rfl h
  refine ⟨hret, a, b, by rw [c, hbuf], d, ?_, e2, f⟩
  intro i hi
  rw [d] at hi
  unfold indexRun at hi
  simp only [List.mem_map, List.mem_range] at hi
  obtain ⟨j, hj, rfl⟩ := hi
  omega

/-- Every call of `read_binvox` that reaches the decode stage with a grid of at
most 2147483392 voxels, whatever the file holds, does not end in a store
outside the buffer. -/
theorem read_binvox_no_store_fault (F : List Byte → Bool) (g : Globals) (file : List Byte)
    (i : Int) (g2 : Globals) (st : DState) (hG : g2.gridsize ≤ 2147483392) :
    read_binvox F g file ≠ Outcome.storeFault i g2 st := by
  intro h
  unfold read_binvox at h
  rcases hh : read_header F g (IStream.ofBytes file) with _ | ⟨r, g1, input⟩
  · rw [hh] at h
    simp at h
  · rw [hh] at h
    cases r
    · simp at h
    · simp only at h
      by_cases hneg : wrap32 (wrap32 (g1.width * g1.height) * g1.depth) < 0
      · rw [if_pos hneg] at h
        simp at h
      · rw [if_neg hneg] at h
        rcases hd : decodePayload (wrap32 (wrap32 (g1.width * g1.height) * g1.depth))
            (List.replicate (wrap32 (wrap32 (g1.width * g1.height) * g1.depth)).toNat none)
            input with _ | ⟨e, st1⟩
        · rw [hd] at h
          simp at h
        · rw [hd] at h
          cases e with
          | ret b => simp at h
          | storeFault j =>
            simp only [Outcome.storeFault.injEq] at h
            obtain ⟨_, hg2, _⟩ := h
            subst hg2
            simp only at hG
            obtain ⟨⟨ret, hret⟩, _⟩ := decodePayload_in_bounds _ (not_lt.mp hneg) hG _
              (List.length_replicate _ _) input _ st1 hd
            simp at hret

/-- Every call of `read_binvox` that returns from the decode stage with a grid
of at most 2147483392 voxels, whatever the file holds: the stores went to the
indices 0, 1, ... below the filled index, each once and in increasing order
and all inside the buffer, the filled index ends between 0 and the grid size,
and `nr_voxels` is the number of nonzero cells below it. -/
theorem read_binvox_in_bounds (F : List Byte → Bool) (g : Globals) (file : List Byte)
    (ret : Bool) (g2 : Globals) (st : DState)
    (h : read_binvox F g file = Outcome.returned ret g2 (some st))
    (hG : g2.gridsize ≤ 2147483392) :
    0 ≤ st.index ∧ st.index ≤ g2.gridsize ∧ g2.voxels.length = g2.gridsize.toNat ∧
      st.writes = indexRun 0 st.index.toNat ∧
      (∀ i ∈ st.writes, 0 ≤ i ∧ i < g2.gridsize) ∧
      st.nr_voxels = (nonzeroCells (g2.voxels.take st.index.toNat) : Int) ∧
      (ret = true → st.end_index = st.index) := by
  unfold read_binvox at h
  rcases hh : read_header F g (IStream.ofBytes file) with _ | ⟨r, g1, input⟩
  · rw [hh] at h
    simp at h
  · rw [hh] at h
    cases r
    · simp at h
    · simp only at h
      by_cases hneg : wrap32 (wrap32 (g1.width * g1.height) * g1.depth) < 0
      · rw [if_pos hneg] at h
        simp at h
      · rw [if_neg hneg] at h
        rcases hd : decodePayload (wrap32 (wrap32 (g1.width * g1.height) * g1.depth))
            (List.replicate (wrap32 (wrap32 (g1.width * g1.height) * g1.depth)).toNat none)
            input with _ | ⟨e, st1⟩
        · rw [hd] at h
          simp at h
        · rw [hd] at h
          cases e with
          | storeFault j => simp at h
          | ret r2 =>
            simp only [Outcome.returned.injEq, Option.some.injEq] at h
            obtain ⟨hr, hg2, hst⟩ := h
            subst hr hg2 hst
            simp only at hG ⊢
            obtain ⟨_, a, b, c, d, e, f, k⟩ := decodePayload_in_bounds _ (not_lt.mp hneg) hG _
              (List.length_replicate _ _) input _ st1 hd
            refine ⟨a, b, by rw [c, List.length_replicate], d, e, f, ?_⟩
            intro hr2
            exact k (by rw [hr2])

/-! ## The markers of the voxel text -/

theorem markersOf_append (a b : List Out) (c : Nat) :
    markersOf (a ++ b) c = markersOf a c ++ markersOf b (c + (voxelsOf a).length) := by
  induction a generalizing c with
  | nil => simp [markersOf, voxelsOf]
  | cons x a ih =>
    cases x with
    | xcoord q => simp [markersOf, voxelsOf, ih]
    | voxel v =>
      have h := ih (c + 1)
      have e : c + 1 + (voxelsOf a).length = c + ((voxelsOf a).length + 1) := by omega
      rw [e] at h
      simpa only [List.cons_append, markersOf, voxelsOf, List.length_cons] using h
    | endl => simp [markersOf, voxelsOf, ih]

theorem markersOf_endlsAt (g : Globals) (i : Int) (c : Nat) : markersOf (endlsAt g i) c = [] := by
  unfold endlsAt
  split_ifs <;> rfl

/-- The marker of pass `i`, for a positive slice divisor `s`. -/
theorem markersOf_marksAt (g : Globals) (s i c : Nat) (hs : wrap32 (g.depth * g.height) = (s : Int)) :
    markersOf (marksAt g (i : Int)) c = if i % s = 0 then [(((i / s : Nat) : Int), c)] else [] := by
  unfold marksAt
  rw [hs]
  have h1 : (i : Int).tmod (s : Int) = ((i % s : Nat) : Int) := by
    rw [Int.tmod_eq_emod (by omega) (by omega)]
    simp
  have h2 : (i : Int).tdiv (s : Int) = ((i / s : Nat) : Int) := by
    rw [Int.tdiv_eq_ediv (by omega) (by omega)]
    simp
  rw [h1, h2]
  by_cases h : i % s = 0
  · rw [if_pos (by rw [h]; rfl), if_pos h]
    rfl
  · have : ¬ ((i % s : Nat) : Int) = 0 := by exact_mod_cast h
    rw [if_neg this, if_neg h]
    rfl

/-- The markers of the output loop over a fully decoded buffer, for a positive
slice divisor `s = depth*height`: the passes `i`, ..., `i+k-1` write a marker
exactly in front of the voxels whose index is a multiple of `s`, and the marker
in front of voxel `j` carries the number `j / s`. -/
theorem outputLoop_markers (g : Globals) (grid : List Byte) (hvox : g.voxels = grid.map some)
    (s : Nat) (hs : wrap32 (g.depth * g.height) = (s : Int)) (hpos : 0 < s)
    (h2 : g.width ≠ 0) (h3 : wrap32 (g.depth * g.width) ≠ 0) :
    ∀ (k i : Nat), i + k ≤ grid.length →
      ∃ out, outputLoop g k (i : Int) = Except.ok out ∧
        markersOf out i =
          ((List.range' i k).filter (fun j => j % s = 0)).map
            (fun j => (((j / s : Nat) : Int), j)) := by
  have h1 : wrap32 (g.depth * g.height) ≠ 0 := by rw [hs]; omega
  intro k
  induction k with
  | zero =>
    intro i _
    exact ⟨[], rfl, by simp [markersOf]⟩
  | succ k ih =>
    intro i hik
    have hi : i < grid.length := by omega
    obtain ⟨r, hr1, hr2⟩ := ih (i + 1) (by omega)
    have hcast : ((i : Int) + 1) = ((i + 1 : Nat) : Int) := by push_cast; rfl
    refine ⟨marksAt g i ++ [Out.voxel (some (voxelChar grid[i]))] ++ endlsAt g i ++ r, ?_, ?_⟩
    · simp only [outputLoop, outputBody_eq g i h1 h2 h3, hvox, readVoxel_decoded grid i hi,
        bind, Except.bind, hcast, hr1, pure, Except.pure, Option.map_some']
    · rw [markersOf_append, markersOf_append, markersOf_append, markersOf_endlsAt,
        voxelsOf_append, voxelsOf_append, voxelsOf_marksAt, voxelsOf_endlsAt,
        markersOf_marksAt g s i i hs, List.range'_succ, List.filter_cons]
      simp only [voxelsOf, markersOf, List.nil_append, List.append_nil, List.length_cons,
        List.length_nil, Nat.zero_add, hr2, decide_eq_true_eq]
      by_cases h : i % s = 0
      · simp [h]
      · simp [h]

/-- The multiples of `s` below `s * w`. -/
theorem multiples_below (s : Nat) (hs : 0 < s) (w : Nat) :
    (List.range' 0 (s * w)).filter (fun j => j % s = 0) = (List.range w).map (fun N => N * s) := by
  induction w with
  | zero => simp
  | succ w ih =>
    have hsplit : s * (w + 1) = s * w + ((s - 1) + 1) := by
      rw [Nat.mul_succ]; omega
    have happ : List.range' 0 (s * w + ((s - 1) + 1)) =
        List.range' 0 (s * w) ++ List.range' (0 + s * w) ((s - 1) + 1) := by
      rw [List.range'_append_1, Nat.add_comm]
    rw [hsplit, happ, List.range'_succ, List.filter_append, ih,
      List.filter_cons, List.range_succ, List.map_append]
    have hmul : (0 + s * w) % s = 0 := by simp
    have hnil : (List.range' (0 + s * w + 1) (s - 1)).filter (fun j => j % s = 0) = [] := by
      rw [List.filter_eq_nil_iff]
      intro j hj
      rw [List.mem_range'_1] at hj
      have h1 : j % s = (j - s * w) % s := by
        conv_lhs => rw [show j = (j - s * w) + s * w by omega]
        simp
      have h2 : (j - s * w) % s = j - s * w := Nat.mod_eq_of_lt (by omega)
      simp only [decide_eq_true_eq]
      omega
    simp only [hmul, decide_True, if_true, hnil, List.map_cons, List.map_nil]
    congr 2
    rw [Nat.zero_add, Nat.mul_comm]

/-- The markers of the voxel text for every grid with positive dimensions whose
product fits `int`: the loop writes `width` markers, and the marker
`x-coord: N` stands in front of the voxel with index `N * (depth*height)`. -/
theorem writeVoxels_markers (g : Globals) (grid : List Byte) (hvox : g.voxels = grid.map some)
    (hd : 0 < g.depth) (hh : 0 < g.height) (hw : 0 < g.width)
    (hfit : g.depth * g.height * g.width ≤ 2147483647)
    (hsize : g.gridsize = (grid.length : Int))
    (hdim : (grid.length : Int) = g.depth * g.height * g.width) :
    ∃ out, writeVoxels g = Except.ok out ∧
      markersOf out 0 =
        (List.range g.width.toNat).map
          (fun (N : Nat) => ((N : Int), N * (g.depth * g.height).toNat)) := by
  have hdh : 0 < g.depth * g.height := Int.mul_pos hd hh
  have hdw : 0 < g.depth * g.width := Int.mul_pos hd hw
  have hle1 : g.depth * g.height ≤ g.depth * g.height * g.width :=
    le_mul_of_one_le_right (le_of_lt hdh) (by omega)
  have hle2 : g.depth * g.width ≤ g.depth * g.height * g.width := by
    have : g.depth * g.width ≤ g.depth * g.width * g.height :=
      le_mul_of_one_le_right (le_of_lt hdw) (by omega)
    calc g.depth * g.width ≤ g.depth * g.width * g.height := this
      _ = g.depth * g.height * g.width := by ring
  have hs : wrap32 (g.depth * g.height) = (((g.depth * g.height).toNat : Nat) : Int) := by
    rw [wrap32_of_range _ (by omega) (by omega), Int.toNat_of_nonneg (le_of_lt hdh)]
  have h3 : wrap32 (g.depth * g.width) ≠ 0 := by
    rw [wrap32_of_range _ (by omega) (by omega)]
    omega
  have hspos : 0 < (g.depth * g.height).toNat := by omega
  have hlen : grid.length = (g.depth * g.height).toNat * g.width.toNat := by
    have : ((grid.length : Nat) : Int) =
        (((g.depth * g.height).toNat * g.width.toNat : Nat) : Int) := by
      push_cast
      rw [Int.toNat_of_nonneg (le_of_lt hdh), Int.toNat_of_nonneg (le_of_lt hw), hdim]
    exact_mod_cast this
  obtain ⟨out, ho1, ho2⟩ := outputLoop_markers g grid hvox _ hs hspos (by omega) h3
    grid.length 0 (by omega)
  refine ⟨out, ?_, ?_⟩
  · unfold writeVoxels
    rw [hsize, Int.toNat_natCast]
    exact ho1
  · rw [ho2, hlen, multiples_below _ hspos, List.map_map]
    apply List.map_congr_left
    intro N _
    simp only [Function.comp]
    rw [Nat.mul_div_cancel _ hspos]

/-- When `depth` equals `width`, the markers of the voxel text are those of the
depth slices: `depth` markers, `x-coord: N` in front of the voxel with index
`N * (width*height)`. -/
theorem writeVoxels_markers_equal_dims (g : Globals) (grid : List Byte)
    (hvox : g.voxels = grid.map some)
    (hd : 0 < g.depth) (hh : 0 < g.height) (heq : g.depth = g.width)
    (hfit : g.depth * g.height * g.width ≤ 2147483647)
    (hsize : g.gridsize = (grid.length : Int))
    (hdim : (grid.length : Int) = g.depth * g.height * g.width) :
    ∃ out, writeVoxels g = Except.ok out ∧
      markersOf out 0 =
        (List.range g.depth.toNat).map
          (fun (N : Nat) => ((N : Int), N * (g.width * g.height).toNat)) := by
  obtain ⟨out, h1, h2⟩ := writeVoxels_markers g grid hvox hd hh (by omega) hfit hsize hdim
  refine ⟨out, h1, ?_⟩
  rw [h2, ← heq]

end Binvox
